import Mathlib

/-!
Verification of the mini-lsm starter core: block codec, block builder,
block/SST iterators, SST builder, memtable iterator, and the two merge
iterators. Byte strings are modelled as `List Nat` (one `Nat` per byte),
machine-integer casts as explicit `% 2 ^ w`, fallible operations as
`Option`/`Except`, and stateful Rust code as explicit state passing.
The process-local 64-bit hash used for checksums (`DefaultHasher`) is an
unspecified function of the hashed data, so it is taken as an explicit
function parameter everywhere; no theorem depends on its value.
-/

namespace MiniLsm

/-- Lexicographic comparison of byte strings, following Rust's `Ord` for
`&[u8]` / `Vec<u8>`: compare element-wise, a strict prefix is smaller. -/
def byteCmp : List Nat → List Nat → Ordering
  | [], [] => Ordering.eq
  | [], _ :: _ => Ordering.lt
  | _ :: _, [] => Ordering.gt
  | a :: as, b :: bs =>
    if a < b then Ordering.lt
    else if b < a then Ordering.gt
    else byteCmp as bs

/-- Strict byte-string order (`a < b` on Rust byte slices). -/
def bLt (a b : List Nat) : Bool :=
  match byteCmp a b with
  | Ordering.lt => true
  | _ => false

/-- Non-strict byte-string order (`a <= b` on Rust byte slices). -/
def bLe (a b : List Nat) : Bool :=
  match byteCmp a b with
  | Ordering.gt => false
  | _ => true

theorem byteCmp_self (a : List Nat) : byteCmp a a = Ordering.eq := by
  induction a with
  | nil => rfl
  | cons x xs ih => simp [byteCmp, ih]

theorem byteCmp_eq_iff {a b : List Nat} : byteCmp a b = Ordering.eq ↔ a = b := by
  induction a generalizing b with
  | nil => cases b <;> simp [byteCmp]
  | cons x xs ih =>
    cases b with
    | nil => simp [byteCmp]
    | cons y ys =>
      by_cases hxy : x < y
      · simp [byteCmp, hxy]
        omega
      · by_cases hyx : y < x
        · simp [byteCmp, hxy, hyx]
          omega
        · have hxyeq : x = y := by omega
          simp [byteCmp, hxy, hyx, hxyeq, ih]

theorem byteCmp_swap (a b : List Nat) : byteCmp b a = (byteCmp a b).swap := by
  induction a generalizing b with
  | nil => cases b <;> simp [byteCmp, Ordering.swap]
  | cons x xs ih =>
    cases b with
    | nil => simp [byteCmp, Ordering.swap]
    | cons y ys =>
      by_cases hxy : x < y
      · have hyx : ¬ y < x := by omega
        simp [byteCmp, hxy, hyx, Ordering.swap]
      · by_cases hyx : y < x
        · simp [byteCmp, hxy, hyx, Ordering.swap]
        · simp [byteCmp, hxy, hyx, ih]

theorem byteCmp_gt_iff {a b : List Nat} :
    byteCmp a b = Ordering.gt ↔ byteCmp b a = Ordering.lt := by
  rw [byteCmp_swap a b]
  cases byteCmp a b <;> simp [Ordering.swap]

theorem byteCmp_lt_trans {a b c : List Nat} (hab : byteCmp a b = Ordering.lt)
    (hbc : byteCmp b c = Ordering.lt) : byteCmp a c = Ordering.lt := by
  induction a generalizing b c with
  | nil =>
    cases c with
    | nil =>
      cases b with
      | nil => exact hbc
      | cons y ys => simp [byteCmp] at hbc
    | cons z zs => simp [byteCmp]
  | cons x xs ih =>
    cases b with
    | nil => simp [byteCmp] at hab
    | cons y ys =>
      cases c with
      | nil => simp [byteCmp] at hbc
      | cons z zs =>
        by_cases hxy : x < y
        · -- x < y and y ≤ z
          by_cases hyz : y < z
          · have hxz : x < z := by omega
            simp [byteCmp, hxz]
          · by_cases hzy : z < y
            · simp [byteCmp, hyz, hzy] at hbc
            · have : y = z := by omega
              subst this
              simp [byteCmp, hxy]
        · by_cases hyx : y < x
          · simp [byteCmp, hxy, hyx] at hab
          · have hxyeq : x = y := by omega
            subst hxyeq
            simp [byteCmp, hxy] at hab
            by_cases hxz : x < z
            · simp [byteCmp, hxz]
            · by_cases hzx : z < x
              · simp [byteCmp, hxz, hzx] at hbc
              · simp [byteCmp, hxz, hzx] at hbc ⊢
                exact ih hab hbc

theorem bLt_iff {a b : List Nat} : bLt a b = true ↔ byteCmp a b = Ordering.lt := by
  cases h : byteCmp a b <;> simp [bLt, h]

theorem bLe_iff {a b : List Nat} : bLe a b = true ↔ byteCmp a b ≠ Ordering.gt := by
  cases h : byteCmp a b <;> simp [bLe, h]

theorem bLe_iff_lt_or_eq {a b : List Nat} :
    bLe a b = true ↔ (bLt a b = true ∨ a = b) := by
  rw [← byteCmp_eq_iff (a := a) (b := b)]
  cases h : byteCmp a b <;> simp [bLe, bLt, h]

theorem bLe_refl (a : List Nat) : bLe a a = true := by
  simp [bLe, byteCmp_self]

theorem bLt_irrefl (a : List Nat) : bLt a a = false := by
  simp [bLt, byteCmp_self]

theorem bLt_trans {a b c : List Nat} (hab : bLt a b = true) (hbc : bLt b c = true) :
    bLt a c = true := by
  rw [bLt_iff] at *
  exact byteCmp_lt_trans hab hbc

theorem bLt_of_bLt_of_bLe {a b c : List Nat} (hab : bLt a b = true)
    (hbc : bLe b c = true) : bLt a c = true := by
  rcases bLe_iff_lt_or_eq.mp hbc with h | h
  · exact bLt_trans hab h
  · subst h; exact hab

theorem bLt_of_bLe_of_bLt {a b c : List Nat} (hab : bLe a b = true)
    (hbc : bLt b c = true) : bLt a c = true := by
  rcases bLe_iff_lt_or_eq.mp hab with h | h
  · exact bLt_trans h hbc
  · subst h; exact hbc

theorem bLe_trans {a b c : List Nat} (hab : bLe a b = true) (hbc : bLe b c = true) :
    bLe a c = true := by
  rcases bLe_iff_lt_or_eq.mp hab with h | h
  · exact bLe_iff_lt_or_eq.mpr (Or.inl (bLt_of_bLt_of_bLe h hbc))
  · subst h; exact hbc

theorem bLe_of_bLt {a b : List Nat} (h : bLt a b = true) : bLe a b = true :=
  bLe_iff_lt_or_eq.mpr (Or.inl h)

theorem bLt_asymm {a b : List Nat} (h : bLt a b = true) : bLt b a = false := by
  rw [bLt_iff] at h
  have hba : byteCmp b a = Ordering.gt := by
    rw [byteCmp_gt_iff]; exact h
  simp [bLt, hba]

theorem not_bLt_iff_bLe {a b : List Nat} : bLt a b = false ↔ bLe b a = true := by
  have hswap := byteCmp_swap a b
  cases h : byteCmp a b with
  | lt =>
    have hba : byteCmp b a = Ordering.gt := by rw [hswap, h]; rfl
    simp [bLt, bLe, h, hba]
  | eq =>
    have hba : byteCmp b a = Ordering.eq := by rw [hswap, h]; rfl
    simp [bLt, bLe, h, hba]
  | gt =>
    have hba : byteCmp b a = Ordering.lt := by rw [hswap, h]; rfl
    simp [bLt, bLe, h, hba]

theorem bLt_total {a b : List Nat} (h : bLe a b = false) : bLt b a = true := by
  have hgt : byteCmp a b = Ordering.gt := by
    cases hab : byteCmp a b <;> simp [bLe, hab] at h ⊢
  rw [bLt_iff, ← byteCmp_gt_iff]
  exact hgt

theorem ne_of_bLt {a b : List Nat} (h : bLt a b = true) : a ≠ b := by
  intro heq
  subst heq
  rw [bLt_irrefl] at h
  cases h

/-! ### Big-endian integer codecs (`bytes::BufMut` / `bytes::Buf`) -/

/-- Big-endian read of a byte slice (`get_u16` / `get_u64` on a slice of the
matching width). -/
def readBE (l : List Nat) : Nat := l.foldl (fun acc b => acc * 256 + b) 0

/-- `put_u16(x as u16)`: two big-endian bytes of `x % 2^16`. -/
def u16be (n : Nat) : List Nat := [n % 2 ^ 16 / 2 ^ 8, n % 2 ^ 8]

/-- `put_u32(x as u32)`: four big-endian bytes of `x % 2^32`. -/
def u32be (n : Nat) : List Nat :=
  [n % 2 ^ 32 / 2 ^ 24, n % 2 ^ 24 / 2 ^ 16, n % 2 ^ 16 / 2 ^ 8, n % 2 ^ 8]

/-- `put_u64(x as u64)`: eight big-endian bytes of `x % 2^64`. -/
def u64be (n : Nat) : List Nat :=
  [n % 2 ^ 64 / 2 ^ 56, n % 2 ^ 56 / 2 ^ 48, n % 2 ^ 48 / 2 ^ 40,
   n % 2 ^ 40 / 2 ^ 32, n % 2 ^ 32 / 2 ^ 24, n % 2 ^ 24 / 2 ^ 16,
   n % 2 ^ 16 / 2 ^ 8, n % 2 ^ 8]

theorem u16be_length (n : Nat) : (u16be n).length = 2 := rfl

theorem u64be_length (n : Nat) : (u64be n).length = 8 := rfl

theorem u32be_length (n : Nat) : (u32be n).length = 4 := rfl

theorem readBE_u16be (n : Nat) : readBE (u16be n) = n % 2 ^ 16 := by
  simp [readBE, u16be, List.foldl]
  omega

theorem readBE_u64be (n : Nat) : readBE (u64be n) = n % 2 ^ 64 := by
  simp [readBE, u64be, List.foldl]
  omega

/-- `slice.chunks(2)` specialised to chunk size 2 (`SIZEOF_U16`). -/
def chunksOf2 : List Nat → List (List Nat)
  | [] => []
  | [a] => [[a]]
  | a :: b :: rest => [a, b] :: chunksOf2 rest

theorem chunksOf2_u16be_append (n : Nat) (rest : List Nat) :
    chunksOf2 (u16be n ++ rest) = u16be n :: chunksOf2 rest := by
  simp [u16be, chunksOf2]

/-! ### Block codec (`src/block.rs`) -/

/-- `Block` from `src/block.rs`: raw entry bytes plus the entry offset
vector (`Vec<u16>`, so every well-formed offset is below `2 ^ 16`). -/
structure Block where
  data : List Nat
  offsets : List Nat
  deriving Repr, DecidableEq

/-- `Block::encode`: `data ++ offsets (u16 BE each) ++ u16 N ++ u64 checksum`.
`h` stands for `Block::hash_default`, the process-local 64-bit hash over
`(data, offsets)`; it is a parameter because its value is unspecified. -/
def Block.encode (h : List Nat → List Nat → Nat) (b : Block) : List Nat :=
  b.data ++ (b.offsets.map u16be).flatten ++ u16be b.offsets.length
    ++ u64be (h b.data b.offsets)

/-- `Block::decode`. The Rust panics (`usize` underflow on short input and
the two `assert_eq!` checks) are modelled as `none`. -/
def Block.decode (h : List Nat → List Nat → Nat) (block : List Nat) : Option Block :=
  if block.length < 8 then none
  else
    let checksumStart := block.length - 8
    let checksum := readBE ((block.drop checksumStart).take 8)
    if checksumStart < 2 then none
    else
      let numOffsetsStart := checksumStart - 2
      let numOffsets := readBE ((block.drop numOffsetsStart).take 2)
      if numOffsetsStart < numOffsets * 2 then none
      else
        let offsetsStart := numOffsetsStart - numOffsets * 2
        let offsetsRaw := (block.drop offsetsStart).take (numOffsetsStart - offsetsStart)
        let offsets := (chunksOf2 offsetsRaw).map readBE
        let data := block.take offsetsStart
        if numOffsets ≠ offsets.length then none
        else if checksum ≠ h data offsets then none
        else some ⟨data, offsets⟩

theorem flatten_map_u16be_length (O : List Nat) :
    ((O.map u16be).flatten).length = 2 * O.length := by
  induction O with
  | nil => rfl
  | cons o os ih => simp [u16be, ih]; omega

theorem chunksOf2_flatten_map_u16be (O : List Nat) :
    chunksOf2 ((O.map u16be).flatten) = O.map u16be := by
  induction O with
  | nil => rfl
  | cons o os ih =>
    simp only [List.map_cons, List.flatten_cons]
    rw [chunksOf2_u16be_append, ih]

theorem map_readBE_map_u16be (O : List Nat) (hwf : ∀ o ∈ O, o < 2 ^ 16) :
    (O.map u16be).map readBE = O := by
  rw [List.map_map]
  have : ∀ o ∈ O, (readBE ∘ u16be) o = id o := by
    intro o ho
    have := hwf o ho
    simp [Function.comp, readBE_u16be]
    omega
  rw [List.map_congr_left this, List.map_id]

theorem block_encode_decode_aux (h : List Nat → List Nat → Nat) (D O : List Nat)
    (hh : h D O < 2 ^ 64) (hn : O.length < 2 ^ 16)
    (hof : ∀ o ∈ O, o < 2 ^ 16) :
    Block.decode h (Block.encode h ⟨D, O⟩) = some ⟨D, O⟩ := by
  have hF : ((O.map u16be).flatten).length = 2 * O.length :=
    flatten_map_u16be_length O
  have hencode : Block.encode h ⟨D, O⟩
      = D ++ ((O.map u16be).flatten ++ (u16be O.length ++ u64be (h D O))) := by
    simp [Block.encode]
  have hlen : (Block.encode h ⟨D, O⟩).length = D.length + 2 * O.length + 10 := by
    rw [hencode]
    simp [hF, u16be, u64be]
    omega
  have hdropD : (Block.encode h ⟨D, O⟩).drop D.length
      = (O.map u16be).flatten ++ (u16be O.length ++ u64be (h D O)) := by
    rw [hencode]; exact List.drop_left _ _
  have htakeD : (Block.encode h ⟨D, O⟩).take D.length = D := by
    rw [hencode]; exact List.take_left _ _
  have hdrop2N : (Block.encode h ⟨D, O⟩).drop (D.length + 2 * O.length)
      = u16be O.length ++ u64be (h D O) := by
    rw [hencode, List.drop_append, ← hF, List.drop_left]
  have hdropCS : (Block.encode h ⟨D, O⟩).drop (D.length + 2 * O.length + 2)
      = u64be (h D O) := by
    have e : D.length + 2 * O.length + 2 = D.length + (2 * O.length + 2) := by omega
    rw [e, hencode, List.drop_append]
    rw [show 2 * O.length + 2 = ((O.map u16be).flatten).length + 2 from by omega]
    rw [List.drop_append]
    rw [show (2 : Nat) = (u16be O.length).length + 0 from rfl]
    rw [List.drop_append]
    rfl
  have htakeF : ((Block.encode h ⟨D, O⟩).drop D.length).take (2 * O.length)
      = (O.map u16be).flatten := by
    rw [hdropD, ← hF, List.take_left]
  have htake8 : (u64be (h D O)).take 8 = u64be (h D O) := rfl
  have htake2 : ∀ (n : Nat) (r : List Nat), (u16be n ++ r).take 2 = u16be n :=
    fun n r => rfl
  simp only [Block.decode]
  rw [hlen]
  rw [if_neg (by omega)]
  rw [show D.length + 2 * O.length + 10 - 8 = D.length + 2 * O.length + 2 from by omega]
  rw [hdropCS, htake8, readBE_u64be, Nat.mod_eq_of_lt hh]
  rw [if_neg (by omega)]
  rw [show D.length + 2 * O.length + 2 - 2 = D.length + 2 * O.length from by omega]
  rw [hdrop2N, htake2, readBE_u16be, Nat.mod_eq_of_lt hn]
  rw [if_neg (by omega)]
  rw [show D.length + 2 * O.length - O.length * 2 = D.length from by omega]
  rw [show D.length + 2 * O.length - D.length = 2 * O.length from by omega]
  rw [htakeF, htakeD, chunksOf2_flatten_map_u16be, map_readBE_map_u16be O hof]
  rw [if_neg (by simp)]
  rw [if_neg (by simp)]

/-- Claim C3: for every Block `b` with a non-empty, well-formed
`(data, offsets)` pair (byte values below 256, offsets and the offset count
representable as `u16`, the checksum representable as `u64`),
`Block::decode (Block::encode b)` succeeds and returns a block whose data
bytes and offsets are bytewise equal to `b`'s. -/
theorem block_decode_encode_roundtrip (h : List Nat → List Nat → Nat) (b : Block)
    (hdata : ∀ x ∈ b.data, x < 2 ^ 8) (hne : b.offsets ≠ [])
    (hh : h b.data b.offsets < 2 ^ 64) (hn : b.offsets.length < 2 ^ 16)
    (hof : ∀ o ∈ b.offsets, o < 2 ^ 16) :
    Block.decode h (Block.encode h b) = some b := by
  obtain ⟨D, O⟩ := b
  exact block_encode_decode_aux h D O hh hn hof

/-- Witness for C3 at a concrete block and a concrete hash function. -/
theorem block_decode_encode_roundtrip_witness :
    Block.decode (fun _ _ => 7) (Block.encode (fun _ _ => 7) ⟨[0, 1, 97, 0, 1, 98], [0]⟩)
      = some ⟨[0, 1, 97, 0, 1, 98], [0]⟩ :=
  block_decode_encode_roundtrip (fun _ _ => 7) ⟨[0, 1, 97, 0, 1, 98], [0]⟩
    (by decide) (by decide) (by decide) (by decide) (by decide)

/-! ### BlockBuilder (`src/block/builder.rs`) -/

/-- `BlockBuilder`: entry bytes, entry offsets, and the target block size. -/
structure BlockBuilder where
  data : List Nat
  offsets : List Nat
  blockSize : Nat
  deriving Repr, DecidableEq

/-- `BlockBuilder::new`. -/
def BlockBuilder.new (blockSize : Nat) : BlockBuilder := ⟨[], [], blockSize⟩

/-- `BlockBuilder::is_empty`. -/
def BlockBuilder.isEmpty (b : BlockBuilder) : Bool := b.offsets.isEmpty

/-- `BlockBuilder::estimated_size`:
`data.len() + offsets.len() * SIZEOF_U16 + SIZEOF_U16`. -/
def BlockBuilder.estimatedSize (b : BlockBuilder) : Nat :=
  b.data.length + b.offsets.length * 2 + 2

/-- `BlockBuilder::add`. The `assert!(!key.is_empty())` panic is modelled as
`none`; otherwise the Rust `bool` result is paired with the updated builder.
The `as u16` casts on the pushed offset and the length headers are the
explicit `% 2 ^ 16` (via `u16be`). -/
def BlockBuilder.add (b : BlockBuilder) (key value : List Nat) :
    Option (Bool × BlockBuilder) :=
  if key = [] then none
  else
    let newSize := b.estimatedSize + key.length + value.length + 3 * 2
    if newSize > b.blockSize ∧ b.isEmpty = false then
      some (false, b)
    else
      some (true,
        { b with
          offsets := b.offsets ++ [b.data.length % 2 ^ 16],
          data := b.data ++ u16be key.length ++ key ++ u16be value.length ++ value })

/-- `BlockBuilder::build`; the panic on an empty builder is `none`. -/
def BlockBuilder.build (b : BlockBuilder) : Option Block :=
  if b.isEmpty then none else some ⟨b.data, b.offsets⟩

/-- Claim C9: for every builder and entry with a non-empty key: if the
builder is non-empty and the projected size exceeds the target, `add`
returns `false` and leaves data and offsets unchanged (the returned builder
is the input builder); if the builder is empty, `add` returns `true`
regardless of the entry's size. -/
theorem blockBuilder_add_frame (b : BlockBuilder) (key value : List Nat)
    (hk : key ≠ []) :
    (b.isEmpty = false →
      b.estimatedSize + key.length + value.length + 3 * 2 > b.blockSize →
      b.add key value = some (false, b)) ∧
    (b.isEmpty = true → ∃ b2, b.add key value = some (true, b2)) := by
  constructor
  · intro hne hsz
    simp [BlockBuilder.add, hk, hne, hsz]
  · intro hemp
    refine ⟨{ b with
        offsets := b.offsets ++ [b.data.length % 2 ^ 16],
        data := b.data ++ u16be key.length ++ key ++ u16be value.length ++ value }, ?_⟩
    simp [BlockBuilder.add, hk, hemp]

/-- Witness for C9: the spec's S3 scenario. With target size 10 the first
add of ("a", "0123456789") succeeds although oversized, and the follow-up
add of ("b", "x") is rejected leaving the builder unchanged. -/
theorem blockBuilder_add_frame_witness :
    BlockBuilder.add ⟨[0, 1, 97, 0, 10, 48, 49, 50, 51, 52, 53, 54, 55, 56, 57], [0], 10⟩
        [98] [120]
      = some (false, ⟨[0, 1, 97, 0, 10, 48, 49, 50, 51, 52, 53, 54, 55, 56, 57], [0], 10⟩) ∧
    (∃ b2, BlockBuilder.add (BlockBuilder.new 10) [97]
        [48, 49, 50, 51, 52, 53, 54, 55, 56, 57] = some (true, b2)) := by
  constructor
  · exact (blockBuilder_add_frame
      ⟨[0, 1, 97, 0, 10, 48, 49, 50, 51, 52, 53, 54, 55, 56, 57], [0], 10⟩
      [98] [120] (by decide)).1 (by decide) (by decide)
  · exact (blockBuilder_add_frame (BlockBuilder.new 10) [97]
      [48, 49, 50, 51, 52, 53, 54, 55, 56, 57] (by decide)).2 (by decide)

/-- Builder states reachable from `BlockBuilder::new T` by a sequence of
`add` calls (both accepted and rejected calls; a rejected call leaves the
state unchanged). -/
inductive BuilderReachable (T : Nat) : BlockBuilder → Prop
  | init : BuilderReachable T (BlockBuilder.new T)
  | step (b b2 : BlockBuilder) (k v : List Nat) (res : Bool) :
      BuilderReachable T b → b.add k v = some (res, b2) → BuilderReachable T b2

theorem block_encode_length (h : List Nat → List Nat → Nat) (blk : Block) :
    (Block.encode h blk).length = blk.data.length + 2 * blk.offsets.length + 10 := by
  simp only [Block.encode, List.length_append, flatten_map_u16be_length,
    u16be_length, u64be_length]

theorem builderReachable_invariant {T : Nat} {b : BlockBuilder}
    (hr : BuilderReachable T b) :
    b.blockSize = T ∧ (2 ≤ b.offsets.length → b.estimatedSize ≤ T) := by
  induction hr with
  | init => simp [BlockBuilder.new, BlockBuilder.estimatedSize]
  | step b b2 k v res hprev hadd ih =>
    simp only [BlockBuilder.add] at hadd
    by_cases hk : k = []
    · simp [hk] at hadd
    · rw [if_neg hk] at hadd
      split at hadd
      · -- rejected: b2 = b
        simp at hadd
        obtain ⟨-, hb2⟩ := hadd
        subst hb2
        exact ih
      · -- accepted
        rename_i hcond
        simp at hadd
        obtain ⟨-, hb2⟩ := hadd
        subst hb2
        refine ⟨ih.1, ?_⟩
        intro h2
        by_cases hemp : b.offsets = []
        · simp [hemp] at h2
        · have hne : b.isEmpty = false := by
            simp [BlockBuilder.isEmpty, List.isEmpty_iff, hemp]
          have hsz : b.estimatedSize + k.length + v.length + 3 * 2 ≤ b.blockSize := by
            by_contra hgt
            exact hcond ⟨by omega, hne⟩
          have hT := ih.1
          dsimp only [BlockBuilder.estimatedSize] at hsz ⊢
          simp only [List.length_append, u16be_length, List.length_cons,
            List.length_nil] at hsz ⊢
          omega

/-- Amended claim C4: for every builder constructed with target size `T` and
every sequence of adds, the built block's encoded image has length at most
`T + 8` — the 8 extra bytes being the `u64` checksum that
`BlockBuilder::estimated_size` does not account for — except when the block
contains exactly one entry. (The claim's bound `T` itself fails; see the
counterexample.) -/
theorem blockBuilder_built_encode_size (h : List Nat → List Nat → Nat)
    (T : Nat) (b : BlockBuilder) (blk : Block)
    (hr : BuilderReachable T b) (hb : b.build = some blk)
    (hone : blk.offsets.length ≠ 1) :
    (Block.encode h blk).length ≤ T + 8 := by
  obtain ⟨hT, hinv⟩ := builderReachable_invariant hr
  rw [BlockBuilder.build] at hb
  split at hb
  · cases hb
  · rename_i hne
    rw [Option.some.injEq] at hb
    subst hb
    have hoff : b.offsets ≠ [] := by
      simpa [BlockBuilder.isEmpty, List.isEmpty_iff] using hne
    have h1 : 1 ≤ b.offsets.length := by
      cases ho : b.offsets with
      | nil => exact absurd ho hoff
      | cons x xs => simp
    have h2 : 2 ≤ b.offsets.length := by
      rcases Nat.lt_or_ge b.offsets.length 2 with hlt | hge
      · exfalso
        exact hone (by dsimp only; omega)
      · exact hge
    have hest := hinv h2
    rw [block_encode_length]
    dsimp only [BlockBuilder.estimatedSize] at hest
    dsimp only
    omega

/-- Counterexample to claim C4 as stated: with target size 20, the adds
("a","b") then ("b","c") are both accepted, and the built block (two
entries) encodes to 26 bytes, exceeding the target 20. -/
theorem blockBuilder_encode_size_counterexample :
    (BlockBuilder.new 20).add [97] [98]
        = some (true, ⟨[0, 1, 97, 0, 1, 98], [0], 20⟩) ∧
    BlockBuilder.add ⟨[0, 1, 97, 0, 1, 98], [0], 20⟩ [98] [99]
        = some (true, ⟨[0, 1, 97, 0, 1, 98, 0, 1, 98, 0, 1, 99], [0, 6], 20⟩) ∧
    BlockBuilder.build ⟨[0, 1, 97, 0, 1, 98, 0, 1, 98, 0, 1, 99], [0, 6], 20⟩
        = some ⟨[0, 1, 97, 0, 1, 98, 0, 1, 98, 0, 1, 99], [0, 6]⟩ ∧
    (Block.mk [0, 1, 97, 0, 1, 98, 0, 1, 98, 0, 1, 99] [0, 6]).offsets.length = 2 ∧
    ¬ ((Block.encode (fun _ _ => 0)
        ⟨[0, 1, 97, 0, 1, 98, 0, 1, 98, 0, 1, 99], [0, 6]⟩).length ≤ 20) :=
  ⟨by decide, by decide, by decide, by decide, by decide⟩

/-- Witness for the amended C4 at the same two-entry block. -/
theorem blockBuilder_built_encode_size_witness :
    (Block.encode (fun _ _ => 0)
      ⟨[0, 1, 97, 0, 1, 98, 0, 1, 98, 0, 1, 99], [0, 6]⟩).length ≤ 20 + 8 :=
  blockBuilder_built_encode_size (fun _ _ => 0) 20
    ⟨[0, 1, 97, 0, 1, 98, 0, 1, 98, 0, 1, 99], [0, 6], 20⟩
    ⟨[0, 1, 97, 0, 1, 98, 0, 1, 98, 0, 1, 99], [0, 6]⟩
    (BuilderReachable.step ⟨[0, 1, 97, 0, 1, 98], [0], 20⟩
      ⟨[0, 1, 97, 0, 1, 98, 0, 1, 98, 0, 1, 99], [0, 6], 20⟩ [98] [99] true
      (BuilderReachable.step (BlockBuilder.new 20) ⟨[0, 1, 97, 0, 1, 98], [0], 20⟩
        [97] [98] true BuilderReachable.init (by decide))
      (by decide))
    (by decide) (by decide)


/-! ### MemTableIterator (`src/mem_table.rs`) -/

/-- `MemTableIterator`: the skip-map range iterator is modelled by the list
of entries it has yet to yield (`iter`), plus the current `item`. -/
structure MemTableIterator where
  iter : List (List Nat × List Nat)
  item : List Nat × List Nat
  deriving Repr, DecidableEq

/-- `MemTableIterator::entry_to_item`: an exhausted range yields the empty
pair. -/
def MemTableIterator.entryToItem (entry : Option (List Nat × List Nat)) :
    List Nat × List Nat :=
  match entry with
  | some e => e
  | none => ([], [])

/-- `StorageIterator::is_valid` for `MemTableIterator`: the current key is
non-empty. -/
def MemTableIterator.isValid (m : MemTableIterator) : Bool :=
  !m.item.1.isEmpty

/-- `StorageIterator::next` for `MemTableIterator`: takes the next entry
from the range (if any), stores it as the current item, and returns
`Ok(())` unconditionally. -/
def MemTableIterator.next (m : MemTableIterator) :
    Except Unit MemTableIterator :=
  Except.ok { iter := m.iter.tail, item := MemTableIterator.entryToItem m.iter.head? }

/-- Claim C10: `MemTableIterator::next` always returns `Ok` — it never
produces an error despite its `Result` signature — and once the underlying
range is exhausted the current item becomes the empty pair, making the
iterator invalid. -/
theorem memTableIterator_next_ok (m : MemTableIterator) :
    ∃ m2, m.next = Except.ok m2 ∧
      (m.iter = [] → m2.item = ([], []) ∧ m2.isValid = false) := by
  refine ⟨_, rfl, ?_⟩
  intro hempty
  rw [hempty]
  exact ⟨rfl, rfl⟩

/-- Witness for C10 at a concrete exhausted iterator. -/
theorem memTableIterator_next_ok_witness :
    ∃ m2, MemTableIterator.next ⟨[], ([97], [98])⟩ = Except.ok m2 ∧
      (([] : List (List Nat × List Nat)) = [] → m2.item = ([], []) ∧ m2.isValid = false) :=
  memTableIterator_next_ok ⟨[], ([97], [98])⟩

/-! ### Counting entries below a key in a sorted key list -/

/-- Strictly increasing list of byte-string keys. -/
def StrictSorted (keys : List (List Nat)) : Prop :=
  keys.Pairwise fun a b => bLt a b = true

/-- Number of keys strictly below `k`. -/
def countLt (keys : List (List Nat)) (k : List Nat) : Nat :=
  keys.countP fun x => bLt x k

/-- Number of keys at or below `k`. -/
def countLe (keys : List (List Nat)) (k : List Nat) : Nat :=
  keys.countP fun x => bLe x k

theorem sorted_countP_iff (p : List Nat → Bool)
    (hdc : ∀ a b, bLt a b = true → p b = true → p a = true)
    (keys : List (List Nat)) (hs : StrictSorted keys)
    (j : Nat) (hj : j < keys.length) :
    (p (keys.get ⟨j, hj⟩) = true ↔ j < keys.countP p) := by
  induction keys generalizing j with
  | nil => simp at hj
  | cons x xs ih =>
    rw [StrictSorted, List.pairwise_cons] at hs
    obtain ⟨hx, hs2⟩ := hs
    have hzero : p x = false → xs.countP p = 0 := by
      intro hp
      rw [List.countP_eq_zero]
      intro y hy hpy
      rw [hdc x y (hx y hy) hpy] at hp
      cases hp
    cases j with
    | zero =>
      cases hp : p x with
      | true =>
        rw [List.countP_cons_of_pos _ _ hp]
        simp [List.get, hp]
      | false =>
        rw [List.countP_cons_of_neg _ _ (by simp [hp]), hzero hp]
        simp [List.get, hp]
    | succ j2 =>
      have hj2 : j2 < xs.length := by simpa using hj
      have hih := ih hs2 j2 hj2
      have hg : (x :: xs).get ⟨j2 + 1, hj⟩ = xs.get ⟨j2, hj2⟩ := rfl
      cases hp : p x with
      | true =>
        rw [List.countP_cons_of_pos _ _ hp, hg, hih]
        omega
      | false =>
        rw [List.countP_cons_of_neg _ _ (by simp [hp]), hzero hp, hg]
        have hfalse : p (xs.get ⟨j2, hj2⟩) = false := by
          cases hval : p (xs.get ⟨j2, hj2⟩) with
          | false => rfl
          | true =>
            have hcount := hih.mp hval
            rw [hzero hp] at hcount
            exact absurd hcount (by omega)
        rw [hfalse]
        simp

theorem sorted_lt_iff_countLt (keys : List (List Nat)) (k : List Nat)
    (hs : StrictSorted keys) (j : Nat) (hj : j < keys.length) :
    (bLt (keys.get ⟨j, hj⟩) k = true ↔ j < countLt keys k) :=
  sorted_countP_iff _ (fun _ _ hab hbk => bLt_trans hab hbk) keys hs j hj

theorem sorted_le_iff_countLe (keys : List (List Nat)) (k : List Nat)
    (hs : StrictSorted keys) (j : Nat) (hj : j < keys.length) :
    (bLe (keys.get ⟨j, hj⟩) k = true ↔ j < countLe keys k) :=
  sorted_countP_iff _ (fun _ _ hab hbk => bLe_trans (bLe_of_bLt hab) hbk) keys hs j hj

theorem bLe_eq_false_of_bLt {a b : List Nat} (h : bLt a b = true) :
    bLe b a = false := by
  cases hba : bLe b a with
  | false => rfl
  | true =>
    have := bLt_of_bLt_of_bLe h hba
    rw [bLt_irrefl] at this
    cases this

theorem countLe_le_length (keys : List (List Nat)) (k : List Nat) :
    countLe keys k ≤ keys.length :=
  List.countP_le_length _

theorem countLt_le_countLe (keys : List (List Nat)) (k : List Nat) :
    countLt keys k ≤ countLe keys k := by
  apply List.countP_mono_left
  intro x _ hx
  exact bLe_of_bLt hx

theorem sorted_eq_key_counts {keys : List (List Nat)} {k : List Nat}
    (hs : StrictSorted keys) {j : Nat} {hj : j < keys.length}
    (heq : keys.get ⟨j, hj⟩ = k) :
    j = countLt keys k ∧ countLe keys k = j + 1 := by
  have hltj : bLt (keys.get ⟨j, hj⟩) k = false := by
    rw [heq]; exact bLt_irrefl k
  have hle : countLt keys k ≤ j := by
    have hiff := sorted_lt_iff_countLt keys k hs j hj
    rw [hltj] at hiff
    simp at hiff
    omega
  have hge : j ≤ countLt keys k := by
    rcases Nat.eq_zero_or_pos j with hj0 | hjpos
    · omega
    · have hj2 : j - 1 < keys.length := by omega
      have hR : bLt (keys.get ⟨j - 1, hj2⟩) (keys.get ⟨j, hj⟩) = true :=
        List.pairwise_iff_get.mp hs ⟨j - 1, hj2⟩ ⟨j, hj⟩ (Fin.mk_lt_mk.mpr (by omega))
      have hltj2 : bLt (keys.get ⟨j - 1, hj2⟩) k = true := by
        rw [heq] at hR; exact hR
      have := (sorted_lt_iff_countLt keys k hs (j - 1) hj2).mp hltj2
      omega
  have hlt_e : j < countLe keys k := by
    have hlej : bLe (keys.get ⟨j, hj⟩) k = true := by
      rw [heq]; exact bLe_refl k
    exact (sorted_le_iff_countLe keys k hs j hj).mp hlej
  have hub : countLe keys k ≤ j + 1 := by
    by_cases hnext : j + 1 < keys.length
    · have hR : bLt (keys.get ⟨j, hj⟩) (keys.get ⟨j + 1, hnext⟩) = true :=
        List.pairwise_iff_get.mp hs ⟨j, hj⟩ ⟨j + 1, hnext⟩ (Fin.mk_lt_mk.mpr (by omega))
      have hgt : bLe (keys.get ⟨j + 1, hnext⟩) k = false := by
        rw [heq] at hR
        exact bLe_eq_false_of_bLt hR
      have hiff := sorted_le_iff_countLe keys k hs (j + 1) hnext
      rw [hgt] at hiff
      simp at hiff
      omega
    · have := countLe_le_length keys k
      omega
  omega

theorem countLe_eq_countLt_of_not_mem {keys : List (List Nat)} {k : List Nat}
    (hnm : ∀ x ∈ keys, x ≠ k) : countLe keys k = countLt keys k := by
  apply List.countP_congr
  intro x hx
  have hne := hnm x hx
  cases hlt : bLt x k with
  | true => simp [bLe_of_bLt hlt, hlt]
  | false =>
    have : bLe x k = false := by
      cases hle : bLe x k with
      | false => rfl
      | true =>
        rcases bLe_iff_lt_or_eq.mp hle with h | h
        · rw [h] at hlt; cases hlt
        · exact absurd h hne
    simp [this, hlt]

/-! ### `SsTable::find_block_idx` (`src/table.rs` lines 182-197) -/

/-- The binary-search loop of `find_block_idx` over the block metas' first
keys. Indexing out of range (impossible while `low < high ≤ keys.length`)
is modelled with `getD`. -/
def findBlockIdxLoop (keys : List (List Nat)) (k : List Nat)
    (low high : Nat) : Nat :=
  if _hlt : low < high then
    match byteCmp (keys.getD ((low + high) / 2) []) k with
    | Ordering.lt => findBlockIdxLoop keys k ((low + high) / 2 + 1) high
    | Ordering.gt => findBlockIdxLoop keys k low ((low + high) / 2)
    | Ordering.eq => (low + high) / 2
  else low - 1
termination_by high - low
decreasing_by
  · omega
  · omega

/-- `SsTable::find_block_idx`: binary search over first keys, then
`low.saturating_sub(1)` (`Nat` subtraction saturates already). -/
def findBlockIdx (keys : List (List Nat)) (k : List Nat) : Nat :=
  findBlockIdxLoop keys k 0 keys.length

theorem findBlockIdxLoop_char (keys : List (List Nat)) (k : List Nat)
    (hs : StrictSorted keys) :
    ∀ (fuel low high : Nat), high - low ≤ fuel → high ≤ keys.length →
    low ≤ countLt keys k → countLe keys k ≤ high →
    findBlockIdxLoop keys k low high = countLe keys k - 1 := by
  intro fuel
  induction fuel with
  | zero =>
    intro low high hfuel hhigh hlow hle
    have hcc := countLt_le_countLe keys k
    rw [findBlockIdxLoop]
    rw [dif_neg (by omega)]
    omega
  | succ f ih =>
    intro low high hfuel hhigh hlow hle
    have hcc := countLt_le_countLe keys k
    rw [findBlockIdxLoop]
    by_cases hlt : low < high
    · rw [dif_pos hlt]
      have hmidlo : low ≤ (low + high) / 2 := by omega
      have hmidhi : (low + high) / 2 < high := by omega
      have hmidlen : (low + high) / 2 < keys.length := by omega
      rw [List.getD_eq_getElem keys [] hmidlen]
      have hgetelem : keys[(low + high) / 2] = keys.get ⟨(low + high) / 2, hmidlen⟩ := rfl
      rw [hgetelem]
      cases hcmp : byteCmp (keys.get ⟨(low + high) / 2, hmidlen⟩) k with
      | lt =>
        show findBlockIdxLoop keys k ((low + high) / 2 + 1) high = countLe keys k - 1
        apply ih ((low + high) / 2 + 1) high (by omega) hhigh ?_ hle
        have := (sorted_lt_iff_countLt keys k hs ((low + high) / 2) hmidlen).mp
          (bLt_iff.mpr hcmp)
        omega
      | gt =>
        show findBlockIdxLoop keys k low ((low + high) / 2) = countLe keys k - 1
        apply ih low ((low + high) / 2) (by omega) (by omega) hlow ?_
        have hlef : bLe (keys.get ⟨(low + high) / 2, hmidlen⟩) k = false := by
          unfold bLe
          rw [hcmp]
        have hiff := sorted_le_iff_countLe keys k hs ((low + high) / 2) hmidlen
        rw [hlef] at hiff
        simp at hiff
        omega
      | eq =>
        show (low + high) / 2 = countLe keys k - 1
        have heq := byteCmp_eq_iff.mp hcmp
        have := sorted_eq_key_counts hs heq
        omega
    · rw [dif_neg hlt]
      omega

/-- Claim C6: for every strictly sorted list of block first keys and every
key `k`, `find_block_idx(k)` returns: the index whose first key equals `k`
when one exists; otherwise `i - 1` where `i` is the smallest index whose
first key is greater than `k`; and `0` when every first key is greater
than `k`. -/
theorem sst_find_block_idx_correct (keys : List (List Nat)) (k : List Nat)
    (hs : StrictSorted keys) :
    (∀ (j : Nat) (hj : j < keys.length), keys.get ⟨j, hj⟩ = k →
        findBlockIdx keys k = j) ∧
    (∀ (i : Nat) (hi : i < keys.length),
        bLt k (keys.get ⟨i, hi⟩) = true →
        (∀ (i2 : Nat), i2 < i → bLe (keys.getD i2 []) k = true) →
        findBlockIdx keys k = i - 1) ∧
    ((∀ (j : Nat) (hj : j < keys.length), bLt k (keys.get ⟨j, hj⟩) = true) →
        findBlockIdx keys k = 0) := by
  have hchar : findBlockIdx keys k = countLe keys k - 1 :=
    findBlockIdxLoop_char keys k hs keys.length 0 keys.length (by omega)
      (le_refl _) (by omega) (countLe_le_length keys k)
  refine ⟨?_, ?_, ?_⟩
  · intro j hj heq
    have := sorted_eq_key_counts hs heq
    omega
  · intro i hi hgt hbelow
    have hgtf : bLe (keys.get ⟨i, hi⟩) k = false := bLe_eq_false_of_bLt hgt
    have hub : countLe keys k ≤ i := by
      have hiff := sorted_le_iff_countLe keys k hs i hi
      rw [hgtf] at hiff
      simp at hiff
      omega
    have hlb : i ≤ countLe keys k := by
      cases i with
      | zero => omega
      | succ i2 =>
        have hi2len : i2 < keys.length := by omega
        have hlei2 : bLe (keys.get ⟨i2, hi2len⟩) k = true := by
          have := hbelow i2 (by omega)
          rw [List.getD_eq_getElem keys [] hi2len] at this
          exact this
        have := (sorted_le_iff_countLe keys k hs i2 hi2len).mp hlei2
        omega
    omega
  · intro hall
    have hzero : countLe keys k = 0 := by
      rw [countLe, List.countP_eq_zero]
      intro x hx
      rcases List.mem_iff_get.mp hx with ⟨n, hn⟩
      have := hall n.1 n.2
      rw [show (⟨n.1, n.2⟩ : Fin keys.length) = n from rfl, hn] at this
      simp [bLe_eq_false_of_bLt this]
    omega

/-- Witness for C6: the spec's S4 table with first keys a, g, m, s probed at
"g" (exact match), "p" (between m and s), and "0" (below the range). -/
theorem sst_find_block_idx_correct_witness :
    findBlockIdx [[97], [103], [109], [115]] [103] = 1 ∧
    findBlockIdx [[97], [103], [109], [115]] [112] = 2 ∧
    findBlockIdx [[97], [103], [109], [115]] [48] = 0 := by
  have hsorted : StrictSorted [[97], [103], [109], [115]] := by
    rw [StrictSorted]
    decide
  refine ⟨?_, ?_, ?_⟩
  · exact (sst_find_block_idx_correct [[97], [103], [109], [115]] [103]
      hsorted).1 1 (by decide) (by decide)
  · exact (sst_find_block_idx_correct [[97], [103], [109], [115]] [112]
      hsorted).2.1 3 (by decide) (by decide) (by decide)
  · exact (sst_find_block_idx_correct [[97], [103], [109], [115]] [48]
      hsorted).2.2 (by decide)

/-! ### Entry encoding inside a block (`src/block/builder.rs` layout) -/

/-- One block entry: `u16 key_len | key | u16 value_len | value`. -/
def encodeEntry (e : List Nat × List Nat) : List Nat :=
  u16be e.1.length ++ e.1 ++ u16be e.2.length ++ e.2

/-- The data section of a block holding the entries `es` in order. -/
def entriesData (es : List (List Nat × List Nat)) : List Nat :=
  (es.map encodeEntry).flatten

/-- The offset vector for the entries `es`, first entry at byte `acc`. -/
def entryOffsets (es : List (List Nat × List Nat)) (acc : Nat) : List Nat :=
  match es with
  | [] => []
  | e :: rest => acc :: entryOffsets rest (acc + (encodeEntry e).length)

/-- The block holding exactly the entries `es` (what `BlockBuilder`
produces when every add is accepted; proved in the builder section). -/
def blockOfEntries (es : List (List Nat × List Nat)) : Block :=
  ⟨entriesData es, entryOffsets es 0⟩

/-- The keys of an entry list, in order. -/
def entryKeys (es : List (List Nat × List Nat)) : List (List Nat) :=
  es.map Prod.fst

/-- Per-entry well-formedness: non-empty key, `u16`-sized key and value. -/
def EntriesWf (es : List (List Nat × List Nat)) : Prop :=
  ∀ e ∈ es, e.1 ≠ [] ∧ e.1.length < 2 ^ 16 ∧ e.2.length < 2 ^ 16

theorem encodeEntry_length (e : List Nat × List Nat) :
    (encodeEntry e).length = 4 + e.1.length + e.2.length := by
  simp [encodeEntry, u16be]
  omega

theorem entriesData_cons (e : List Nat × List Nat)
    (es : List (List Nat × List Nat)) :
    entriesData (e :: es) = encodeEntry e ++ entriesData es := by
  simp [entriesData]

theorem entriesData_append (es1 es2 : List (List Nat × List Nat)) :
    entriesData (es1 ++ es2) = entriesData es1 ++ entriesData es2 := by
  simp [entriesData]

theorem entryOffsets_length (es : List (List Nat × List Nat)) (acc : Nat) :
    (entryOffsets es acc).length = es.length := by
  induction es generalizing acc with
  | nil => rfl
  | cons e rest ih => simp [entryOffsets, ih]

theorem entryKeys_length (es : List (List Nat × List Nat)) :
    (entryKeys es).length = es.length := by
  simp [entryKeys]

theorem entryOffsets_getD (es : List (List Nat × List Nat)) :
    ∀ (acc i : Nat), i < es.length →
    (entryOffsets es acc).getD i 0 = acc + (entriesData (es.take i)).length := by
  induction es with
  | nil => intro acc i hi; simp at hi
  | cons e rest ih =>
    intro acc i hi
    cases i with
    | zero => simp [entryOffsets, entriesData]
    | succ i2 =>
      have hi2 : i2 < rest.length := by simpa using hi
      have := ih (acc + (encodeEntry e).length) i2 hi2
      simp only [entryOffsets, List.getD_cons_succ, this, List.take_succ_cons,
        entriesData_cons, List.length_append]
      omega

theorem entriesData_drop_at (es : List (List Nat × List Nat)) (i : Nat)
    (hi : i < es.length) :
    (entriesData es).drop ((entriesData (es.take i)).length)
      = encodeEntry (es.get ⟨i, hi⟩) ++ entriesData (es.drop (i + 1)) := by
  have hsplit : entriesData es
      = entriesData (es.take i) ++ entriesData (es.drop i) := by
    rw [← entriesData_append, List.take_append_drop]
  rw [hsplit, List.drop_left]
  rw [List.drop_eq_getElem_cons hi, entriesData_cons]
  rfl

/-! ### BlockIterator (`src/block/iterator.rs`) -/

/-- `std::usize::MAX`, the sentinel index of an invalidated iterator. -/
def usizeMax : Nat := 2 ^ 64 - 1

/-- `BlockIterator`: shared block plus current key, value and index. An
empty `key` means the iterator is invalid. -/
structure BlockIterator where
  block : Block
  key : List Nat
  value : List Nat
  idx : Nat
  deriving Repr, DecidableEq

/-- `BlockIterator::new`. -/
def BlockIterator.new (b : Block) : BlockIterator := ⟨b, [], [], 0⟩

/-- `BlockIterator::is_valid`. -/
def BlockIterator.isValid (it : BlockIterator) : Bool := !it.key.isEmpty

/-- `BlockIterator::seek_to_offset`: parse the entry at byte `offset` of
the block's data section. Rust's panicking out-of-range slice indexing
cannot occur on the well-formed blocks of the theorems below (`take` and
`drop` clamp instead). -/
def BlockIterator.seekToOffset (it : BlockIterator) (offset : Nat) :
    BlockIterator :=
  { it with
    key := ((it.block.data.drop offset).drop 2).take
      (readBE ((it.block.data.drop offset).take 2)),
    value := ((it.block.data.drop offset).drop
        (4 + readBE ((it.block.data.drop offset).take 2))).take
      (readBE (((it.block.data.drop offset).drop
        (2 + readBE ((it.block.data.drop offset).take 2))).take 2)) }

/-- `BlockIterator::seek_to_idx`: invalidate past the end, else set `idx`
and load the entry at `offsets[idx]`. -/
def BlockIterator.seekToIdx (it : BlockIterator) (i : Nat) : BlockIterator :=
  if i ≥ it.block.offsets.length then
    { it with key := [], value := [], idx := usizeMax }
  else
    ({ it with idx := i }).seekToOffset (it.block.offsets.getD i 0)

/-- `BlockIterator::seek_to_first`. -/
def BlockIterator.seekToFirst (it : BlockIterator) : BlockIterator :=
  it.seekToIdx 0

/-- `BlockIterator::next`. -/
def BlockIterator.next (it : BlockIterator) : BlockIterator :=
  it.seekToIdx (it.idx + 1)

/-- `BlockIterator::create_and_seek_to_first`. -/
def BlockIterator.createAndSeekToFirst (b : Block) : BlockIterator :=
  (BlockIterator.new b).seekToFirst

/-- The binary-search loop of `BlockIterator::seek_to_key` (lines 89-102 of
`block/iterator.rs`); the loop state is the iterator itself, which each
probe repositions with `seek_to_idx`. -/
def BlockIterator.seekToKeyLoop (it : BlockIterator) (key : List Nat)
    (low high : Nat) : BlockIterator :=
  if _h : low < high then
    match byteCmp (it.seekToIdx ((low + high) / 2)).key key with
    | Ordering.lt =>
      (it.seekToIdx ((low + high) / 2)).seekToKeyLoop key ((low + high) / 2 + 1) high
    | Ordering.gt =>
      (it.seekToIdx ((low + high) / 2)).seekToKeyLoop key low ((low + high) / 2)
    | Ordering.eq => it.seekToIdx ((low + high) / 2)
  else it.seekToIdx low
termination_by high - low
decreasing_by
  · omega
  · omega

/-- `BlockIterator::seek_to_key`: early exit when already positioned on
`key`, else binary search over the offset count. -/
def BlockIterator.seekToKey (it : BlockIterator) (key : List Nat) :
    BlockIterator :=
  if it.isValid = true ∧ it.key = key then it
  else it.seekToKeyLoop key 0 it.block.offsets.length

/-- `BlockIterator::create_and_seek_to_key`. -/
def BlockIterator.createAndSeekToKey (b : Block) (key : List Nat) :
    BlockIterator :=
  (BlockIterator.new b).seekToKey key

theorem seekToOffset_spec (it : BlockIterator) (off : Nat)
    (e : List Nat × List Nat) (rest : List Nat)
    (hdrop : it.block.data.drop off = encodeEntry e ++ rest)
    (hk : e.1.length < 2 ^ 16) (hv : e.2.length < 2 ^ 16) :
    it.seekToOffset off = { it with key := e.1, value := e.2 } := by
  have hentry : it.block.data.drop off
      = u16be e.1.length ++ (e.1 ++ (u16be e.2.length ++ (e.2 ++ rest))) := by
    rw [hdrop]
    simp [encodeEntry]
  have htake2 : (it.block.data.drop off).take 2 = u16be e.1.length := by
    rw [hentry]; rfl
  have hkeylen : readBE ((it.block.data.drop off).take 2) = e.1.length := by
    rw [htake2, readBE_u16be, Nat.mod_eq_of_lt hk]
  have hdrop2 : (it.block.data.drop off).drop 2
      = e.1 ++ (u16be e.2.length ++ (e.2 ++ rest)) := by
    rw [hentry]; rfl
  have hkey : ((it.block.data.drop off).drop 2).take
      (readBE ((it.block.data.drop off).take 2)) = e.1 := by
    rw [hkeylen, hdrop2, List.take_left]
  have hdropk : (it.block.data.drop off).drop
      (2 + readBE ((it.block.data.drop off).take 2))
      = u16be e.2.length ++ (e.2 ++ rest) := by
    rw [hkeylen, hentry]
    rw [show 2 + e.1.length = (u16be e.1.length).length + e.1.length from by
      rw [u16be_length]]
    rw [List.drop_append]
    rw [show e.1.length = e.1.length + 0 from by omega, List.drop_append]
    rfl
  have hvallen : readBE (((it.block.data.drop off).drop
      (2 + readBE ((it.block.data.drop off).take 2))).take 2) = e.2.length := by
    rw [hdropk]
    rw [show (u16be e.2.length ++ (e.2 ++ rest)).take 2 = u16be e.2.length from rfl]
    rw [readBE_u16be, Nat.mod_eq_of_lt hv]
  have hdropv : (it.block.data.drop off).drop
      (4 + readBE ((it.block.data.drop off).take 2)) = e.2 ++ rest := by
    rw [hkeylen, hentry]
    rw [show 4 + e.1.length
        = (u16be e.1.length).length + (e.1.length + 2) from by
      rw [u16be_length]; omega]
    rw [List.drop_append]
    rw [List.drop_append 2]
    rfl
  have hval : ((it.block.data.drop off).drop
      (4 + readBE ((it.block.data.drop off).take 2))).take
      (readBE (((it.block.data.drop off).drop
        (2 + readBE ((it.block.data.drop off).take 2))).take 2)) = e.2 := by
    rw [hvallen, hdropv, List.take_left]
  rw [BlockIterator.seekToOffset]
  rw [hkey, hval]

theorem seekToIdx_block (it : BlockIterator) (i : Nat) :
    (it.seekToIdx i).block = it.block := by
  rw [BlockIterator.seekToIdx]
  split
  · rfl
  · rfl

theorem seekToIdx_invalid (it : BlockIterator) (i : Nat)
    (hi : it.block.offsets.length ≤ i) :
    it.seekToIdx i = { it with key := [], value := [], idx := usizeMax } := by
  rw [BlockIterator.seekToIdx, if_pos (by omega)]

theorem seekToIdx_only_block (it1 it2 : BlockIterator)
    (hb : it1.block = it2.block) (i : Nat) :
    it1.seekToIdx i = it2.seekToIdx i := by
  obtain ⟨b1, k1, v1, i1⟩ := it1
  obtain ⟨b2, k2, v2, i2⟩ := it2
  simp only [BlockIterator.mk.injEq] at hb
  subst hb
  rw [BlockIterator.seekToIdx, BlockIterator.seekToIdx]
  split
  · rfl
  · rfl

theorem seekToIdx_spec (es : List (List Nat × List Nat)) (hwf : EntriesWf es)
    (it : BlockIterator) (hb : it.block = blockOfEntries es)
    (i : Nat) (hi : i < es.length) :
    it.seekToIdx i = { it with
      key := (es.get ⟨i, hi⟩).1, value := (es.get ⟨i, hi⟩).2, idx := i } := by
  have hlen : it.block.offsets.length = es.length := by
    rw [hb]
    exact entryOffsets_length es 0
  rw [BlockIterator.seekToIdx, if_neg (by omega)]
  have hoff : it.block.offsets.getD i 0 = (entriesData (es.take i)).length := by
    rw [hb]
    show (entryOffsets es 0).getD i 0 = _
    rw [entryOffsets_getD es 0 i hi]
    omega
  have hdropd : ({ it with idx := i } : BlockIterator).block.data.drop
      ((entriesData (es.take i)).length)
      = encodeEntry (es.get ⟨i, hi⟩) ++ entriesData (es.drop (i + 1)) := by
    show it.block.data.drop _ = _
    rw [hb]
    exact entriesData_drop_at es i hi
  obtain ⟨-, hk2, hv2⟩ := hwf (es.get ⟨i, hi⟩) (List.get_mem es i hi)
  rw [hoff]
  rw [seekToOffset_spec _ _ _ _ hdropd hk2 hv2]

theorem countLt_keys_le_length (es : List (List Nat × List Nat)) (k : List Nat) :
    countLt (entryKeys es) k ≤ es.length := by
  have := List.countP_le_length (l := entryKeys es) (fun x => bLt x k)
  rw [entryKeys_length] at this
  exact this

theorem entryKeys_get (es : List (List Nat × List Nat)) (i : Nat)
    (hi : i < es.length) :
    (entryKeys es).get ⟨i, by rw [entryKeys_length]; exact hi⟩ = (es.get ⟨i, hi⟩).1 := by
  simp [entryKeys]

theorem seekToKeyLoop_char (es : List (List Nat × List Nat)) (hwf : EntriesWf es)
    (hs : StrictSorted (entryKeys es)) (k : List Nat) :
    ∀ (fuel low high : Nat) (it : BlockIterator),
      it.block = blockOfEntries es →
      high - low ≤ fuel → high ≤ es.length →
      low ≤ countLt (entryKeys es) k → countLt (entryKeys es) k ≤ high →
      it.seekToKeyLoop k low high
        = (BlockIterator.new (blockOfEntries es)).seekToIdx
            (countLt (entryKeys es) k) := by
  intro fuel
  induction fuel with
  | zero =>
    intro low high it hb hfuel hhigh hlow hub
    rw [BlockIterator.seekToKeyLoop, dif_neg (by omega)]
    rw [show low = countLt (entryKeys es) k from by omega]
    exact seekToIdx_only_block _ _ (by rw [hb]; rfl) _
  | succ f ih =>
    intro low high it hb hfuel hhigh hlow hub
    rw [BlockIterator.seekToKeyLoop]
    by_cases hlt : low < high
    · rw [dif_pos hlt]
      have hmidlen : (low + high) / 2 < es.length := by omega
      have hklen : (low + high) / 2 < (entryKeys es).length := by
        rw [entryKeys_length]; exact hmidlen
      have hprobe := seekToIdx_spec es hwf it hb ((low + high) / 2) hmidlen
      have hpkey : (it.seekToIdx ((low + high) / 2)).key
          = (entryKeys es).get ⟨(low + high) / 2, hklen⟩ := by
        rw [hprobe, entryKeys_get]
      have hpblock : (it.seekToIdx ((low + high) / 2)).block = blockOfEntries es := by
        rw [seekToIdx_block, hb]
      rw [hpkey]
      cases hcmp : byteCmp ((entryKeys es).get ⟨(low + high) / 2, hklen⟩) k with
      | lt =>
        show BlockIterator.seekToKeyLoop _ k ((low + high) / 2 + 1) high = _
        have hc := (sorted_lt_iff_countLt (entryKeys es) k hs _ hklen).mp
          (bLt_iff.mpr hcmp)
        exact ih ((low + high) / 2 + 1) high _ hpblock (by omega) hhigh (by omega) hub
      | gt =>
        show BlockIterator.seekToKeyLoop _ k low ((low + high) / 2) = _
        have hnlt : bLt ((entryKeys es).get ⟨(low + high) / 2, hklen⟩) k = false := by
          unfold bLt
          rw [hcmp]
        have hiff := sorted_lt_iff_countLt (entryKeys es) k hs _ hklen
        rw [hnlt] at hiff
        simp at hiff
        exact ih low ((low + high) / 2) _ hpblock (by omega) (by omega) hlow (by omega)
      | eq =>
        show it.seekToIdx ((low + high) / 2) = _
        have heq := byteCmp_eq_iff.mp hcmp
        have hcounts := sorted_eq_key_counts hs heq
        rw [show countLt (entryKeys es) k = (low + high) / 2 from by omega]
        exact seekToIdx_only_block _ _ (by rw [hb]; rfl) _
    · rw [dif_neg hlt]
      rw [show low = countLt (entryKeys es) k from by omega]
      exact seekToIdx_only_block _ _ (by rw [hb]; rfl) _

/-- `create_and_seek_to_key` on the block of a sorted entry list lands on
the position holding the first entry with key at least `k` (the iterator is
invalidated when there is none). -/
theorem createAndSeekToKey_spec (es : List (List Nat × List Nat))
    (hwf : EntriesWf es) (hs : StrictSorted (entryKeys es)) (k : List Nat) :
    BlockIterator.createAndSeekToKey (blockOfEntries es) k
      = (BlockIterator.new (blockOfEntries es)).seekToIdx
          (countLt (entryKeys es) k) := by
  rw [BlockIterator.createAndSeekToKey, BlockIterator.seekToKey]
  rw [if_neg (by simp [BlockIterator.new, BlockIterator.isValid])]
  have hofflen : (BlockIterator.new (blockOfEntries es)).block.offsets.length
      = es.length := entryOffsets_length es 0
  rw [hofflen]
  exact seekToKeyLoop_char es hwf hs k es.length 0 es.length _ rfl (by omega)
    (le_refl _) (by omega) (countLt_keys_le_length es k)

/-! ### SST layout (`src/table.rs`) -/

/-- `BlockMeta`: byte offset of a data block and its first key. -/
structure BlockMeta where
  offset : Nat
  firstKey : List Nat
  deriving Repr, DecidableEq

/-- `BlockMeta::encode_block_meta`: per meta `u32 offset | u16 key_len |
first_key`, then the `u64` hash of the meta vector (`hm` is the
process-local hash, a parameter as for blocks). -/
def encodeBlockMeta (hm : List BlockMeta → Nat) (metas : List BlockMeta) :
    List Nat :=
  (metas.map fun m => u32be m.offset ++ u16be m.firstKey.length ++ m.firstKey).flatten
    ++ u64be (hm metas)

/-- `SsTable`: the file image, the decoded metas, and the meta offset. -/
structure SsTable where
  file : List Nat
  blockMetas : List BlockMeta
  blockMetaOffset : Nat
  deriving Repr, DecidableEq

/-- `FileObject::read(offset, len)`: `file[offset .. offset + len]`. -/
def SsTable.fileRead (t : SsTable) (offset len : Nat) : List Nat :=
  (t.file.drop offset).take len

/-- `SsTable::read_block`: slice `[metas[i].offset, metas[i+1].offset)` (or
up to `block_meta_offset` for the last block) and decode it. The `assert!`
on the index and the decode panics are `none`. -/
def SsTable.readBlock (h : List Nat → List Nat → Nat) (t : SsTable) (i : Nat) :
    Option Block :=
  if i < t.blockMetas.length then
    Block.decode h (t.fileRead (t.blockMetas.getD i ⟨0, []⟩).offset
      ((if i + 1 < t.blockMetas.length then (t.blockMetas.getD (i + 1) ⟨0, []⟩).offset
        else t.blockMetaOffset) - (t.blockMetas.getD i ⟨0, []⟩).offset))
  else none

/-- `SsTable::num_of_blocks`. -/
def SsTable.numOfBlocks (t : SsTable) : Nat := t.blockMetas.length

/-- `SsTable::find_block_idx`: the binary search `findBlockIdx` over the
metas' first keys. -/
def SsTable.findBlockIdxOf (t : SsTable) (k : List Nat) : Nat :=
  findBlockIdx (t.blockMetas.map BlockMeta.firstKey) k

/-! ### SsTableIterator (`src/table/iterator.rs`) -/

/-- `SsTableIterator`: table, current block index, current block iterator. -/
structure SsTableIterator where
  sstable : SsTable
  blockIdx : Nat
  blockIter : BlockIterator
  deriving Repr, DecidableEq

/-- `SsTableIterator::create_and_seek_to_first`: load block 0 (propagating
its failure) and seek to its first entry. -/
def SsTableIterator.createAndSeekToFirst (h : List Nat → List Nat → Nat)
    (table : SsTable) : Option SsTableIterator :=
  match table.readBlock h 0 with
  | none => none
  | some blk => some ⟨table, 0, BlockIterator.createAndSeekToFirst blk⟩

/-- `SsTableIterator::_maybe_next_block`. -/
def SsTableIterator.maybeNextBlock (h : List Nat → List Nat → Nat)
    (table : SsTable) (blockIdx : Nat) : Option (Nat × Option BlockIterator) :=
  if blockIdx + 1 < table.numOfBlocks then
    match table.readBlock h (blockIdx + 1) with
    | none => none
    | some blk => some (blockIdx + 1, some (BlockIterator.createAndSeekToFirst blk))
  else some (blockIdx, none)

/-- `SsTableIterator::_seek_to_key`: locate the candidate block, seek in it,
and fall through to the next block when that leaves the iterator invalid. -/
def SsTableIterator.seekToKeyInner (h : List Nat → List Nat → Nat)
    (table : SsTable) (k : List Nat) : Option (Nat × BlockIterator) :=
  match table.readBlock h (table.findBlockIdxOf k) with
  | none => none
  | some blk =>
    if (BlockIterator.createAndSeekToKey blk k).isValid = false then
      match SsTableIterator.maybeNextBlock h table (table.findBlockIdxOf k) with
      | none => none
      | some (nidx, some nit) => some (nidx, nit)
      | some (_, none) =>
        some (table.findBlockIdxOf k, BlockIterator.createAndSeekToKey blk k)
    else some (table.findBlockIdxOf k, BlockIterator.createAndSeekToKey blk k)

/-- `SsTableIterator::create_and_seek_to_key`. -/
def SsTableIterator.createAndSeekToKey (h : List Nat → List Nat → Nat)
    (table : SsTable) (k : List Nat) : Option SsTableIterator :=
  (SsTableIterator.seekToKeyInner h table k).map fun p => ⟨table, p.1, p.2⟩

/-- `StorageIterator::is_valid` for `SsTableIterator`. -/
def SsTableIterator.isValid (it : SsTableIterator) : Bool := it.blockIter.isValid

/-- `StorageIterator::key` for `SsTableIterator`. -/
def SsTableIterator.keyOf (it : SsTableIterator) : List Nat := it.blockIter.key

/-- `StorageIterator::value` for `SsTableIterator`. -/
def SsTableIterator.valueOf (it : SsTableIterator) : List Nat := it.blockIter.value

/-- `StorageIterator::next` for `SsTableIterator`: advance the inner block
iterator; if it runs off its block, move to the next block (if any). -/
def SsTableIterator.next (h : List Nat → List Nat → Nat)
    (it : SsTableIterator) : Option SsTableIterator :=
  if (it.blockIter.next).isValid = false then
    match SsTableIterator.maybeNextBlock h it.sstable it.blockIdx with
    | none => none
    | some (nidx, onit) =>
      some { it with
        blockIdx := nidx,
        blockIter := match onit with
          | some nit => nit
          | none => it.blockIter.next }
  else some { it with blockIter := it.blockIter.next }

/-- Driving an `SsTableIterator` with repeated `next` until invalid (or out
of fuel), collecting the emitted entries. A failing `next` ends the scan
(the Rust caller would propagate the error instead). -/
def sstDrive (h : List Nat → List Nat → Nat) :
    Nat → SsTableIterator → List (List Nat × List Nat)
  | 0, _ => []
  | fuel + 1, it =>
    if it.isValid then
      (it.keyOf, it.valueOf) ::
        (match it.next h with
          | some it2 => sstDrive h fuel it2
          | none => [])
    else []

/-! ### The table image produced for a list of entry groups -/

/-- The encoded image of one group of entries. -/
def groupBytes (h : List Nat → List Nat → Nat)
    (g : List (List Nat × List Nat)) : List Nat :=
  Block.encode h (blockOfEntries g)

/-- The block metas for the groups `gs`, first block at byte `acc`:
offsets are the prefix sums of the encoded block lengths and each first key
is the first key of its group. -/
def metasOfGroups (h : List Nat → List Nat → Nat)
    (gs : List (List (List Nat × List Nat))) (acc : Nat) : List BlockMeta :=
  match gs with
  | [] => []
  | g :: rest =>
    ⟨acc, (g.headD ([], [])).1⟩ ::
      metasOfGroups h rest (acc + (groupBytes h g).length)

/-- The `SsTable` that `SsTableBuilder::build` produces for the groups
`gs` (proved in the builder section): concatenated encoded blocks, then the
encoded metas, then the `u32` meta offset. -/
def sstOfGroups (h : List Nat → List Nat → Nat) (hm : List BlockMeta → Nat)
    (gs : List (List (List Nat × List Nat))) : SsTable :=
  ⟨(gs.map (groupBytes h)).flatten
      ++ encodeBlockMeta hm (metasOfGroups h gs 0)
      ++ u32be ((gs.map (groupBytes h)).flatten).length,
   metasOfGroups h gs 0,
   ((gs.map (groupBytes h)).flatten).length⟩

/-- Well-formedness of one block's group of entries: non-empty, per-entry
`u16` bounds, and a data section short enough for `u16` offsets. -/
def GroupWf (g : List (List Nat × List Nat)) : Prop :=
  g ≠ [] ∧ EntriesWf g ∧ (entriesData g).length < 2 ^ 16

/-- The hash parameter always fits in a `u64` (as the Rust `u64` does). -/
def HashWf (h : List Nat → List Nat → Nat) : Prop :=
  ∀ d o, h d o < 2 ^ 64

theorem metasOfGroups_length (h : List Nat → List Nat → Nat)
    (gs : List (List (List Nat × List Nat))) (acc : Nat) :
    (metasOfGroups h gs acc).length = gs.length := by
  induction gs generalizing acc with
  | nil => rfl
  | cons g rest ih => simp [metasOfGroups, ih]

theorem metasOfGroups_getD (h : List Nat → List Nat → Nat)
    (gs : List (List (List Nat × List Nat))) :
    ∀ (acc i : Nat) (hi : i < gs.length),
    (metasOfGroups h gs acc).getD i ⟨0, []⟩
      = ⟨acc + (((gs.take i).map (groupBytes h)).flatten).length,
         ((gs.get ⟨i, hi⟩).headD ([], [])).1⟩ := by
  induction gs with
  | nil => intro acc i hi; simp at hi
  | cons g rest ih =>
    intro acc i hi
    cases i with
    | zero => simp [metasOfGroups]
    | succ i2 =>
      have hi2 : i2 < rest.length := by simpa using hi
      have hstep := ih (acc + (groupBytes h g).length) i2 hi2
      simp only [metasOfGroups, List.getD_cons_succ, hstep, List.take_succ_cons,
        List.map_cons, List.flatten_cons, List.length_append]
      have hgets : ((g :: rest).get ⟨i2 + 1, hi⟩) = rest.get ⟨i2, hi2⟩ := rfl
      rw [hgets, BlockMeta.mk.injEq]
      exact ⟨by omega, rfl⟩

theorem groupsFlatten_drop_at (h : List Nat → List Nat → Nat)
    (gs : List (List (List Nat × List Nat))) (i : Nat) (hi : i < gs.length) :
    ((gs.map (groupBytes h)).flatten).drop
        ((((gs.take i).map (groupBytes h)).flatten).length)
      = groupBytes h (gs.get ⟨i, hi⟩)
          ++ ((gs.drop (i + 1)).map (groupBytes h)).flatten := by
  have hsplit : (gs.map (groupBytes h)).flatten
      = ((gs.take i).map (groupBytes h)).flatten
          ++ ((gs.drop i).map (groupBytes h)).flatten := by
    rw [← List.flatten_append, ← List.map_append, List.take_append_drop]
  rw [hsplit, List.drop_left]
  rw [List.drop_eq_getElem_cons hi]
  rfl

theorem groupsFlatten_take_succ (h : List Nat → List Nat → Nat)
    (gs : List (List (List Nat × List Nat))) (i : Nat) (hi : i < gs.length) :
    (((gs.take (i + 1)).map (groupBytes h)).flatten).length
      = (((gs.take i).map (groupBytes h)).flatten).length
          + (groupBytes h (gs.get ⟨i, hi⟩)).length := by
  have h1 : gs.take (i + 1) = gs.take i ++ [gs.get ⟨i, hi⟩] := by
    rw [List.take_succ, List.getElem?_eq_getElem hi]
    rfl
  rw [h1, List.map_append, List.flatten_append, List.length_append]
  simp

theorem groupsFlatten_length_last (h : List Nat → List Nat → Nat)
    (gs : List (List (List Nat × List Nat))) (i : Nat) (hi : i < gs.length)
    (hlast : gs.length ≤ i + 1) :
    ((gs.map (groupBytes h)).flatten).length
      = (((gs.take i).map (groupBytes h)).flatten).length
          + (groupBytes h (gs.get ⟨i, hi⟩)).length := by
  have h1 := groupsFlatten_take_succ h gs i hi
  rw [List.take_of_length_le hlast] at h1
  exact h1

theorem length_le_entriesData (es : List (List Nat × List Nat)) :
    es.length ≤ (entriesData es).length := by
  induction es with
  | nil => simp [entriesData]
  | cons e rest ih =>
    rw [entriesData_cons, List.length_append, encodeEntry_length, List.length_cons]
    omega

theorem entryOffsets_le (es : List (List Nat × List Nat)) :
    ∀ (acc : Nat), ∀ o ∈ entryOffsets es acc, o ≤ acc + (entriesData es).length := by
  induction es with
  | nil => intro acc o ho; simp [entryOffsets] at ho
  | cons e rest ih =>
    intro acc o ho
    rw [entryOffsets] at ho
    rcases List.mem_cons.mp ho with rfl | hmem
    · omega
    · have := ih (acc + (encodeEntry e).length) o hmem
      rw [entriesData_cons, List.length_append]
      omega

theorem blockOfEntries_offsets_wf (g : List (List Nat × List Nat))
    (hwf : GroupWf g) :
    (blockOfEntries g).offsets.length < 2 ^ 16
      ∧ ∀ o ∈ (blockOfEntries g).offsets, o < 2 ^ 16 := by
  obtain ⟨hne, hewf, hdl⟩ := hwf
  constructor
  · show (entryOffsets g 0).length < 2 ^ 16
    rw [entryOffsets_length]
    have := length_le_entriesData g
    omega
  · intro o ho
    have := entryOffsets_le g 0 o ho
    omega

theorem readBlock_sstOfGroups (h : List Nat → List Nat → Nat)
    (hm : List BlockMeta → Nat) (hh : HashWf h)
    (gs : List (List (List Nat × List Nat))) (hwf : ∀ g ∈ gs, GroupWf g)
    (i : Nat) (hi : i < gs.length) :
    (sstOfGroups h hm gs).readBlock h i
      = some (blockOfEntries (gs.get ⟨i, hi⟩)) := by
  have hmlen : (sstOfGroups h hm gs).blockMetas.length = gs.length := by
    show (metasOfGroups h gs 0).length = gs.length
    exact metasOfGroups_length h gs 0
  rw [SsTable.readBlock, if_pos (by omega)]
  have hoffi : ((sstOfGroups h hm gs).blockMetas.getD i ⟨0, []⟩).offset
      = (((gs.take i).map (groupBytes h)).flatten).length := by
    show ((metasOfGroups h gs 0).getD i ⟨0, []⟩).offset = _
    rw [metasOfGroups_getD h gs 0 i hi]
    simp
  have hlen : (if i + 1 < (sstOfGroups h hm gs).blockMetas.length
        then ((sstOfGroups h hm gs).blockMetas.getD (i + 1) ⟨0, []⟩).offset
        else (sstOfGroups h hm gs).blockMetaOffset)
      - ((sstOfGroups h hm gs).blockMetas.getD i ⟨0, []⟩).offset
      = (groupBytes h (gs.get ⟨i, hi⟩)).length := by
    rw [hoffi]
    by_cases hnext : i + 1 < gs.length
    · rw [if_pos (by omega)]
      have : ((sstOfGroups h hm gs).blockMetas.getD (i + 1) ⟨0, []⟩).offset
          = (((gs.take (i + 1)).map (groupBytes h)).flatten).length := by
        show ((metasOfGroups h gs 0).getD (i + 1) ⟨0, []⟩).offset = _
        rw [metasOfGroups_getD h gs 0 (i + 1) hnext]
        simp
      rw [this, groupsFlatten_take_succ h gs i hi]
      omega
    · rw [if_neg (by omega)]
      show ((gs.map (groupBytes h)).flatten).length - _ = _
      rw [groupsFlatten_length_last h gs i hi (by omega)]
      omega
  rw [hlen]
  have hread : (sstOfGroups h hm gs).fileRead
      ((sstOfGroups h hm gs).blockMetas.getD i ⟨0, []⟩).offset
      (groupBytes h (gs.get ⟨i, hi⟩)).length
      = groupBytes h (gs.get ⟨i, hi⟩) := by
    rw [hoffi, SsTable.fileRead]
    show ((((gs.map (groupBytes h)).flatten
        ++ encodeBlockMeta hm (metasOfGroups h gs 0)
        ++ u32be ((gs.map (groupBytes h)).flatten).length)).drop
        ((((gs.take i).map (groupBytes h)).flatten).length)).take _ = _
    have hle : (((gs.take i).map (groupBytes h)).flatten).length
        ≤ ((gs.map (groupBytes h)).flatten).length := by
      conv_rhs => rw [← List.take_append_drop i gs]
      rw [List.map_append, List.flatten_append, List.length_append]
      omega
    rw [List.append_assoc, List.drop_append_of_le_length hle]
    rw [groupsFlatten_drop_at h gs i hi]
    rw [List.append_assoc, List.take_left]
  rw [hread]
  rw [groupBytes]
  have hg := hwf (gs.get ⟨i, hi⟩) (List.get_mem gs i hi)
  obtain ⟨hwoff1, hwoff2⟩ := blockOfEntries_offsets_wf _ hg
  exact block_encode_decode_aux h _ _ (hh _ _) hwoff1 hwoff2

/-! ### Sorted tables: keys across blocks -/

/-- Entry order: strictly increasing keys. -/
def entLt (a b : List Nat × List Nat) : Prop := bLt a.1 b.1 = true

theorem strictSorted_entryKeys_iff (es : List (List Nat × List Nat)) :
    StrictSorted (entryKeys es) ↔ es.Pairwise entLt := by
  rw [StrictSorted, entryKeys, List.pairwise_map]
  rfl

/-- In a sorted non-empty list the (defaulted) head key bounds every
member's key from below. -/
theorem head_key_le_of_mem {g : List (List Nat × List Nat)}
    (hg : g.Pairwise entLt) {e : List Nat × List Nat} (he : e ∈ g) :
    bLe (g.headD ([], [])).1 e.1 = true := by
  cases g with
  | nil => simp at he
  | cons x rest =>
    rcases List.mem_cons.mp he with rfl | hmem
    · exact bLe_refl _
    · have := (List.pairwise_cons.mp hg).1 e hmem
      exact bLe_of_bLt this

/-- `find?` of the first entry with key at least `k` in a sorted list lands
at position `countLt` (and is `none` when every key is below `k`). -/
theorem sorted_find_canonical (g : List (List Nat × List Nat))
    (hg : g.Pairwise entLt) (k : List Nat) :
    g.find? (fun e => bLe k e.1)
      = if hc : countLt (entryKeys g) k < g.length
        then some (g.get ⟨countLt (entryKeys g) k, hc⟩)
        else none := by
  induction g with
  | nil => simp [countLt, entryKeys]
  | cons e rest ih =>
    obtain ⟨hhead, hrest⟩ := List.pairwise_cons.mp hg
    have hcount : countLt (entryKeys (e :: rest)) k
        = (if bLt e.1 k = true then 1 else 0) + countLt (entryKeys rest) k := by
      rw [countLt, entryKeys, List.map_cons, List.countP_cons]
      rcases hb : bLt e.1 k with _ | _
      · simp [hb, countLt, entryKeys]
      · simp [hb, countLt, entryKeys]
        omega
    cases hp : bLe k e.1 with
    | true =>
      rw [@List.find?_cons_of_pos _ (fun e => bLe k e.1) e rest hp]
      have hblt : bLt e.1 k = false := by
        cases hblt2 : bLt e.1 k with
        | false => rfl
        | true =>
          have := bLt_of_bLt_of_bLe hblt2 hp
          rw [bLt_irrefl] at this
          cases this
      have hrest0 : countLt (entryKeys rest) k = 0 := by
        rw [countLt, List.countP_eq_zero]
        intro x hx
        rcases List.mem_iff_get.mp hx with ⟨n, rfl⟩
        have hn2 : (n : Nat) < rest.length := by
          simpa [entryKeys] using n.2
        have hmem : rest.get ⟨n, hn2⟩ ∈ rest := List.get_mem rest n hn2
        have hgt := hhead (rest.get ⟨n, hn2⟩) hmem
        have hkey : (entryKeys rest).get n = (rest.get ⟨n, hn2⟩).1 := by
          simp [entryKeys]
        rw [hkey]
        -- key > e.1 ≥ k, so not < k
        have hke : bLe k (rest.get ⟨n, hn2⟩).1 = true :=
          bLe_trans hp (bLe_of_bLt hgt)
        cases hlt2 : bLt (rest.get ⟨n, hn2⟩).1 k with
        | false => simp
        | true =>
          have := bLt_of_bLt_of_bLe hlt2 hke
          rw [bLt_irrefl] at this
          cases this
      rw [hcount, hblt, hrest0]
      simp
    | false =>
      rw [@List.find?_cons_of_neg _ (fun e => bLe k e.1) e rest (by simp [hp])]
      have hblt : bLt e.1 k = true := bLt_total hp
      have hcount2 : countLt (entryKeys (e :: rest)) k
          = countLt (entryKeys rest) k + 1 := by
        rw [hcount, hblt]
        simp [Nat.add_comm]
      rw [ih hrest, hcount2]
      by_cases hc : countLt (entryKeys rest) k < rest.length
      · rw [dif_pos hc, dif_pos (by simp; omega)]
        rfl
      · rw [dif_neg hc, dif_neg (by simp; omega)]

/-- The first key of a group of entries (`first_key` in a `BlockMeta`). -/
def headKey (g : List (List Nat × List Nat)) : List Nat := (g.headD ([], [])).1

theorem headD_mem {g : List (List Nat × List Nat)} (hne : g ≠ []) :
    g.headD ([], []) ∈ g := by
  cases g with
  | nil => exact absurd rfl hne
  | cons x rest => simp

theorem metasOfGroups_map_firstKey (h : List Nat → List Nat → Nat)
    (gs : List (List (List Nat × List Nat))) :
    ∀ acc, (metasOfGroups h gs acc).map BlockMeta.firstKey = gs.map headKey := by
  induction gs with
  | nil => intro acc; rfl
  | cons g rest ih =>
    intro acc
    simp only [metasOfGroups, List.map_cons, ih]
    rfl

theorem flatten_split_at (gs : List (List (List Nat × List Nat))) (i : Nat)
    (hi : i < gs.length) :
    gs.flatten = (gs.take i).flatten
      ++ (gs.get ⟨i, hi⟩ ++ (gs.drop (i + 1)).flatten) := by
  conv_lhs => rw [← List.take_append_drop i gs]
  rw [List.flatten_append, List.drop_eq_getElem_cons hi]
  rfl

theorem heads_sorted (gs : List (List (List Nat × List Nat)))
    (hne : ∀ g ∈ gs, g ≠ []) (hs : gs.flatten.Pairwise entLt) :
    (gs.map headKey).Pairwise fun a b => bLt a b = true := by
  induction gs with
  | nil => exact List.Pairwise.nil
  | cons g rest ih =>
    rw [List.flatten_cons, List.pairwise_append] at hs
    obtain ⟨hg, hrest, hcross⟩ := hs
    rw [List.map_cons, List.pairwise_cons]
    constructor
    · intro b hb
      rcases List.mem_map.mp hb with ⟨g2, hg2mem, rfl⟩
      have hg2ne : g2 ≠ [] := hne g2 (List.mem_cons_of_mem _ hg2mem)
      have hgne : g ≠ [] := hne g (List.mem_cons_self _ _)
      have hheadg : g.headD ([], []) ∈ g := headD_mem hgne
      have hheadg2 : g2.headD ([], []) ∈ rest.flatten :=
        List.mem_flatten.mpr ⟨g2, hg2mem, headD_mem hg2ne⟩
      exact hcross _ hheadg _ hheadg2
    · exact ih (fun g2 hg2 => hne g2 (List.mem_cons_of_mem _ hg2)) hrest

theorem block_sorted_of_table {gs : List (List (List Nat × List Nat))}
    (hs : gs.flatten.Pairwise entLt) {g : List (List Nat × List Nat)}
    (hg : g ∈ gs) : g.Pairwise entLt :=
  hs.sublist (List.sublist_flatten_of_mem hg)

theorem earlier_blocks_lt (gs : List (List (List Nat × List Nat))) (i : Nat)
    (hi : i < gs.length) (hnei : gs.get ⟨i, hi⟩ ≠ [])
    (hs : gs.flatten.Pairwise entLt) :
    ∀ e ∈ (gs.take i).flatten, bLt e.1 (headKey (gs.get ⟨i, hi⟩)) = true := by
  intro e he
  rw [flatten_split_at gs i hi, List.pairwise_append] at hs
  obtain ⟨-, -, hcross⟩ := hs
  have hhead : (gs.get ⟨i, hi⟩).headD ([], [])
      ∈ gs.get ⟨i, hi⟩ ++ (gs.drop (i + 1)).flatten :=
    List.mem_append_left _ (headD_mem hnei)
  exact hcross e he _ hhead

theorem flatten_ge_of_heads_gt (gsl : List (List (List Nat × List Nat)))
    (k : List Nat)
    (hsorted : ∀ g ∈ gsl, g.Pairwise entLt)
    (hheads : ∀ g ∈ gsl, bLt k (headKey g) = true) :
    ∀ e ∈ gsl.flatten, bLt k e.1 = true := by
  intro e he
  rcases List.mem_flatten.mp he with ⟨g, hgmem, hein⟩
  have hh := hheads g hgmem
  have hle := head_key_le_of_mem (hsorted g hgmem) hein
  exact bLt_of_bLt_of_bLe hh hle

theorem countLt_entries (g : List (List Nat × List Nat)) (k : List Nat) :
    countLt (entryKeys g) k = g.countP fun e => bLt e.1 k := by
  rw [countLt, entryKeys, List.countP_map]
  rfl

theorem canonical_pos_valid (g : List (List Nat × List Nat))
    (hwf : EntriesWf g) (j : Nat) (hj : j < g.length) :
    ((BlockIterator.new (blockOfEntries g)).seekToIdx j).isValid = true
      ∧ ((BlockIterator.new (blockOfEntries g)).seekToIdx j).key = (g.get ⟨j, hj⟩).1
      ∧ ((BlockIterator.new (blockOfEntries g)).seekToIdx j).value = (g.get ⟨j, hj⟩).2 := by
  rw [seekToIdx_spec g hwf _ rfl j hj]
  obtain ⟨hk, -, -⟩ := hwf (g.get ⟨j, hj⟩) (List.get_mem g j hj)
  refine ⟨?_, rfl, rfl⟩
  simp only [BlockIterator.isValid, List.isEmpty_iff]
  simp only [Bool.not_eq_true']
  cases hval : (g.get ⟨j, hj⟩).1 with
  | nil => exact absurd hval hk
  | cons a rest => simp [hval]

theorem canonical_pos_invalid (g : List (List Nat × List Nat)) (j : Nat)
    (hj : g.length ≤ j) :
    ((BlockIterator.new (blockOfEntries g)).seekToIdx j).isValid = false := by
  rw [seekToIdx_invalid]
  · rfl
  · show (entryOffsets g 0).length ≤ j
    rw [entryOffsets_length]
    exact hj

theorem findBlockIdx_eq_countLe (keys : List (List Nat)) (k : List Nat)
    (hsorted : StrictSorted keys) :
    findBlockIdx keys k = countLe keys k - 1 :=
  findBlockIdxLoop_char keys k hsorted keys.length 0 keys.length (by omega)
    (le_refl _) (by omega) (countLe_le_length keys k)

theorem createAndSeekToFirst_eq (b : Block) :
    BlockIterator.createAndSeekToFirst b = (BlockIterator.new b).seekToIdx 0 := rfl

theorem table_count_split (gs : List (List (List Nat × List Nat))) (i : Nat)
    (hi : i < gs.length) (k : List Nat)
    (hAle : ∀ e ∈ (gs.take i).flatten, bLt e.1 k = true)
    (hBgt : ∀ e ∈ (gs.drop (i + 1)).flatten, bLt k e.1 = true) :
    countLt (entryKeys gs.flatten) k
      = ((gs.take i).flatten).length
          + countLt (entryKeys (gs.get ⟨i, hi⟩)) k := by
  rw [countLt_entries, flatten_split_at gs i hi, List.countP_append,
    List.countP_append]
  have hA : ((gs.take i).flatten).countP (fun e => bLt e.1 k)
      = ((gs.take i).flatten).length :=
    List.countP_eq_length.mpr fun e he => hAle e he
  have hB : ((gs.drop (i + 1)).flatten).countP (fun e => bLt e.1 k) = 0 :=
    List.countP_eq_zero.mpr fun e he => by
      rw [bLt_asymm (hBgt e he)]
      simp
  rw [hA, hB, countLt_entries]
  omega

theorem flatten_length_split (gs : List (List (List Nat × List Nat))) (i : Nat)
    (hi : i < gs.length) :
    gs.flatten.length = ((gs.take i).flatten).length
      + (gs.get ⟨i, hi⟩).length + ((gs.drop (i + 1)).flatten).length := by
  rw [flatten_split_at gs i hi]
  simp
  omega

theorem table_get_split (gs : List (List (List Nat × List Nat))) (i : Nat)
    (hi : i < gs.length) (j : Nat) (hj : j < (gs.get ⟨i, hi⟩).length)
    (hb : ((gs.take i).flatten).length + j < gs.flatten.length) :
    gs.flatten.get ⟨((gs.take i).flatten).length + j, hb⟩
      = (gs.get ⟨i, hi⟩).get ⟨j, hj⟩ := by
  have heq := flatten_split_at gs i hi
  simp only [List.get_eq_getElem]
  rw [List.getElem_of_eq heq]
  rw [List.getElem_append_right (by omega)]
  have hidx : ((gs.take i).flatten).length + j - ((gs.take i).flatten).length = j := by
    omega
  simp only [hidx]
  rw [List.getElem_append_left hj]
  rfl

theorem early_entries_lt (gs : List (List (List Nat × List Nat)))
    (hses : gs.flatten.Pairwise entLt) (hnes : ∀ g ∈ gs, g ≠ [])
    (k : List Nat) (i : Nat) (hi : i < gs.length)
    (hile : bLe (headKey (gs.get ⟨i, hi⟩)) k = true) :
    ∀ e ∈ (gs.take i).flatten, bLt e.1 k = true := by
  intro e he
  have hlt := earlier_blocks_lt gs i hi (hnes _ (List.get_mem gs i hi)) hses e he
  exact bLt_of_bLt_of_bLe hlt hile

theorem later_heads_gt (gs : List (List (List Nat × List Nat)))
    (hses : gs.flatten.Pairwise entLt) (hnes : ∀ g ∈ gs, g ≠ [])
    (k : List Nat) (m : Nat)
    (hmge : countLe (gs.map headKey) k ≤ m) :
    ∀ e ∈ (gs.drop m).flatten, bLt k e.1 = true := by
  apply flatten_ge_of_heads_gt
  · intro g hg
    exact block_sorted_of_table hses (List.mem_of_mem_drop hg)
  · intro g hg
    rcases List.mem_iff_get.mp hg with ⟨n, hn⟩
    have hidx : m + (n : Nat) < gs.length := by
      have := n.2
      simp at this
      omega
    have hget : gs.get ⟨m + (n : Nat), hidx⟩ = g := by
      rw [← hn]
      simp
    have hkidx : m + (n : Nat) < (gs.map headKey).length := by
      simp
      omega
    have hkget : (gs.map headKey).get ⟨m + (n : Nat), hkidx⟩ = headKey g := by
      simp only [List.get_eq_getElem, List.getElem_map]
      rw [← hget]
      rfl
    have hsortedheads : StrictSorted (gs.map headKey) := heads_sorted gs hnes hses
    have hiff := sorted_le_iff_countLe (gs.map headKey) k hsortedheads
      (m + (n : Nat)) hkidx
    cases hble : bLe ((gs.map headKey).get ⟨m + (n : Nat), hkidx⟩) k with
    | true =>
      have := hiff.mp hble
      omega
    | false =>
      have := bLt_total hble
      rw [hkget] at this
      exact this

/-- Claim C5: for every SsTable whose blocks hold strictly increasing keys
(the table image of well-formed entry groups) and every key `k`,
`_seek_to_key` — used by both `seek_to_key` and `create_and_seek_to_key` —
succeeds and positions the iterator on the first entry of the whole table
whose key is at least `k`; when `k` is greater than all keys of the located
block the iterator advances to the first entry of the following block, and
when no entry at or above `k` exists the iterator is left invalid. -/
theorem sst_seek_to_key_correct (h : List Nat → List Nat → Nat)
    (hm : List BlockMeta → Nat) (hh : HashWf h)
    (gs : List (List (List Nat × List Nat))) (hgsne : gs ≠ [])
    (hwf : ∀ g ∈ gs, GroupWf g)
    (hs : StrictSorted (entryKeys gs.flatten)) (k : List Nat) :
    ∃ idx bit,
      SsTableIterator.seekToKeyInner h (sstOfGroups h hm gs) k = some (idx, bit) ∧
      (match gs.flatten.find? (fun e => bLe k e.1) with
        | some e => bit.isValid = true ∧ bit.key = e.1 ∧ bit.value = e.2
        | none => bit.isValid = false) := by
  have hses : gs.flatten.Pairwise entLt := (strictSorted_entryKeys_iff _).mp hs
  have hnes : ∀ g ∈ gs, g ≠ [] := fun g hg => (hwf g hg).1
  have hheadsorted : StrictSorted (gs.map headKey) := heads_sorted gs hnes hses
  have hglen : 0 < gs.length := List.length_pos.mpr hgsne
  have hcfle : countLe (gs.map headKey) k ≤ gs.length := by
    have := countLe_le_length (gs.map headKey) k
    simpa using this
  have hilt : countLe (gs.map headKey) k - 1 < gs.length := by omega
  have hI : (sstOfGroups h hm gs).findBlockIdxOf k
      = countLe (gs.map headKey) k - 1 := by
    rw [SsTable.findBlockIdxOf]
    show findBlockIdx ((metasOfGroups h gs 0).map BlockMeta.firstKey) k = _
    rw [metasOfGroups_map_firstKey h gs 0]
    exact findBlockIdx_eq_countLe _ k hheadsorted
  have hrb := readBlock_sstOfGroups h hm hh gs hwf _ hilt
  have hgimem := List.get_mem gs _ hilt
  have hgiwf : EntriesWf (gs.get ⟨countLe (gs.map headKey) k - 1, hilt⟩) :=
    (hwf _ hgimem).2.1
  have hgisorted : StrictSorted
      (entryKeys (gs.get ⟨countLe (gs.map headKey) k - 1, hilt⟩)) :=
    (strictSorted_entryKeys_iff _).mpr (block_sorted_of_table hses hgimem)
  have hseek := createAndSeekToKey_spec _ hgiwf hgisorted k
  have hcile := countLt_keys_le_length
    (gs.get ⟨countLe (gs.map headKey) k - 1, hilt⟩) k
  have hBall : ∀ e ∈ (gs.drop (countLe (gs.map headKey) k - 1 + 1)).flatten,
      bLt k e.1 = true :=
    later_heads_gt gs hses hnes k _ (by omega)
  have hAall : ∀ e ∈ (gs.take (countLe (gs.map headKey) k - 1)).flatten,
      bLt e.1 k = true := by
    by_cases hcf : countLe (gs.map headKey) k = 0
    · intro e he
      rw [hcf] at he
      simp at he
    · apply early_entries_lt gs hses hnes k _ hilt
      have hkidx : countLe (gs.map headKey) k - 1 < (gs.map headKey).length := by
        simp
        omega
      have hiff := sorted_le_iff_countLe (gs.map headKey) k hheadsorted _ hkidx
      have hble := hiff.mpr (by omega)
      have hmapget : (gs.map headKey).get ⟨countLe (gs.map headKey) k - 1, hkidx⟩
          = headKey (gs.get ⟨countLe (gs.map headKey) k - 1, hilt⟩) := by
        simp
      rw [hmapget] at hble
      exact hble
  have hfind := sorted_find_canonical gs.flatten hses k
  have hnum : (sstOfGroups h hm gs).numOfBlocks = gs.length :=
    metasOfGroups_length h gs 0
  simp only [SsTableIterator.seekToKeyInner, hI, hrb, hseek]
  by_cases hci : countLt (entryKeys (gs.get ⟨countLe (gs.map headKey) k - 1, hilt⟩)) k
      < (gs.get ⟨countLe (gs.map headKey) k - 1, hilt⟩).length
  · -- the located block holds an entry with key at least k
    obtain ⟨hv, hkk, hvv⟩ := canonical_pos_valid _ hgiwf _ hci
    rw [if_neg (by rw [hv]; simp)]
    refine ⟨_, _, rfl, ?_⟩
    have hC := table_count_split gs _ hilt k hAall hBall
    have hsplitlen := flatten_length_split gs _ hilt
    have hlenC : countLt (entryKeys gs.flatten) k < gs.flatten.length := by
      rw [hC]
      omega
    rw [hfind, dif_pos hlenC]
    have hget : gs.flatten.get ⟨countLt (entryKeys gs.flatten) k, hlenC⟩
        = (gs.get ⟨countLe (gs.map headKey) k - 1, hilt⟩).get ⟨_, hci⟩ := by
      simp only [hC]
      exact table_get_split gs _ hilt _ hci (by omega)
    rw [hget]
    exact ⟨hv, hkk, hvv⟩
  · -- every key of the located block is below k
    have hcieq : countLt (entryKeys (gs.get ⟨countLe (gs.map headKey) k - 1, hilt⟩)) k
        = (gs.get ⟨countLe (gs.map headKey) k - 1, hilt⟩).length := by omega
    have hinv := canonical_pos_invalid
      (gs.get ⟨countLe (gs.map headKey) k - 1, hilt⟩)
      (countLt (entryKeys (gs.get ⟨countLe (gs.map headKey) k - 1, hilt⟩)) k)
      (by omega)
    rw [if_pos hinv]
    have hgiall : ∀ e ∈ gs.get ⟨countLe (gs.map headKey) k - 1, hilt⟩,
        bLt e.1 k = true := by
      intro e he
      have := List.countP_eq_length.mp (by rw [← countLt_entries, hcieq])
      exact this e he
    simp only [SsTableIterator.maybeNextBlock, hnum]
    by_cases hnext : countLe (gs.map headKey) k - 1 + 1 < gs.length
    · -- fall through to the next block
      rw [if_pos hnext]
      have hrb2 := readBlock_sstOfGroups h hm hh gs hwf _ hnext
      simp only [hrb2, createAndSeekToFirst_eq]
      refine ⟨_, _, rfl, ?_⟩
      have hg2mem := List.get_mem gs _ hnext
      have hg2wf : EntriesWf (gs.get ⟨countLe (gs.map headKey) k - 1 + 1, hnext⟩) :=
        (hwf _ hg2mem).2.1
      have hg2pos : 0 < (gs.get ⟨countLe (gs.map headKey) k - 1 + 1, hnext⟩).length :=
        List.length_pos.mpr (hnes _ hg2mem)
      obtain ⟨hv2, hkk2, hvv2⟩ := canonical_pos_valid _ hg2wf 0 hg2pos
      -- the first entry of the next block is the global first entry ≥ k
      have hAall2 : ∀ e ∈ (gs.take (countLe (gs.map headKey) k - 1 + 1)).flatten,
          bLt e.1 k = true := by
        intro e he
        have hsplit2 : gs.take (countLe (gs.map headKey) k - 1 + 1)
            = gs.take (countLe (gs.map headKey) k - 1)
              ++ [gs.get ⟨countLe (gs.map headKey) k - 1, hilt⟩] := by
          rw [List.take_succ, List.getElem?_eq_getElem hilt]
          rfl
        rw [hsplit2, List.flatten_append] at he
        rcases List.mem_append.mp he with hA | hB
        · exact hAall e hA
        · simp at hB
          exact hgiall e hB
      have hBall2 : ∀ e ∈ (gs.drop (countLe (gs.map headKey) k - 1 + 1 + 1)).flatten,
          bLt k e.1 = true :=
        later_heads_gt gs hses hnes k _ (by omega)
      have hC2 := table_count_split gs _ hnext k hAall2 hBall2
      have hcnt0 : countLt
          (entryKeys (gs.get ⟨countLe (gs.map headKey) k - 1 + 1, hnext⟩)) k = 0 := by
        rw [countLt_entries, List.countP_eq_zero]
        intro e he
        have hmem2 : e ∈ (gs.drop (countLe (gs.map headKey) k - 1 + 1)).flatten := by
          apply List.mem_flatten.mpr
          refine ⟨gs.get ⟨countLe (gs.map headKey) k - 1 + 1, hnext⟩, ?_, he⟩
          have hdlen : 0 < (gs.drop (countLe (gs.map headKey) k - 1 + 1)).length := by
            simp
            omega
          have : (gs.drop (countLe (gs.map headKey) k - 1 + 1)).get ⟨0, hdlen⟩
              = gs.get ⟨countLe (gs.map headKey) k - 1 + 1, hnext⟩ := by
            simp
          rw [← this]
          exact List.get_mem _ 0 hdlen
        rw [bLt_asymm (hBall e hmem2)]
        simp
      have hsplitlen2 := flatten_length_split gs _ hnext
      have hlenC2 : countLt (entryKeys gs.flatten) k < gs.flatten.length := by
        rw [hC2, hcnt0]
        omega
      rw [hfind, dif_pos hlenC2]
      have hget2 : gs.flatten.get ⟨countLt (entryKeys gs.flatten) k, hlenC2⟩
          = (gs.get ⟨countLe (gs.map headKey) k - 1 + 1, hnext⟩).get ⟨0, hg2pos⟩ := by
        have hCplus : countLt (entryKeys gs.flatten) k
            = ((gs.take (countLe (gs.map headKey) k - 1 + 1)).flatten).length + 0 := by
          rw [hC2, hcnt0]
        simp only [hCplus]
        exact table_get_split gs _ hnext 0 hg2pos (by omega)
      rw [hget2]
      exact ⟨hv2, hkk2, hvv2⟩
    · -- no following block: the iterator stays invalid
      rw [if_neg hnext]
      refine ⟨_, _, rfl, ?_⟩
      have hC := table_count_split gs _ hilt k hAall hBall
      have hsplitlen := flatten_length_split gs _ hilt
      have hdropnil : (gs.drop (countLe (gs.map headKey) k - 1 + 1)).flatten = [] := by
        rw [List.drop_eq_nil_of_le (by omega)]
        rfl
      have hlenC : ¬ (countLt (entryKeys gs.flatten) k < gs.flatten.length) := by
        rw [hC, hcieq]
        rw [hdropnil, List.length_nil] at hsplitlen
        omega
      rw [hfind, dif_neg hlenC]
      exact hinv

/-- Witness for C5: a two-block table (a,b | g,h) probed at key "d", which
is past the whole first block, so the seek falls through to ("g","3"). -/
theorem sst_seek_to_key_correct_witness :
    ∃ (idx : Nat) (bit : BlockIterator),
      SsTableIterator.seekToKeyInner (fun _ _ => 0)
        (sstOfGroups (fun _ _ => 0) (fun _ => 0)
          [[([97], [49]), ([98], [50])], [([103], [51]), ([104], [52])]]) [100]
        = some (idx, bit) ∧
      (match ([[([97], [49]), ([98], [50])],
          [([103], [51]), ([104], [52])]].flatten).find?
          (fun e => bLe [100] e.1) with
        | some e => bit.isValid = true ∧ bit.key = e.1 ∧ bit.value = e.2
        | none => bit.isValid = false) :=
  sst_seek_to_key_correct (fun _ _ => 0) (fun _ => 0) (fun _ _ => by norm_num)
    [[([97], [49]), ([98], [50])], [([103], [51]), ([104], [52])]]
    (by decide) (by simp only [GroupWf, EntriesWf]; decide)
    (by rw [StrictSorted]; decide) [100]

/-! ### SsTableBuilder (`src/table/builder.rs`) -/

/-- `SsTableBuilder`: metas and data of the finalized blocks, the target
block size, the in-flight `BlockBuilder`, and the in-flight block's first
key. -/
structure SsTableBuilder where
  meta : List BlockMeta
  data : List Nat
  blockSize : Nat
  currentBlock : BlockBuilder
  firstKey : List Nat
  deriving Repr, DecidableEq

/-- `SsTableBuilder::new`. -/
def SsTableBuilder.new (blockSize : Nat) : SsTableBuilder :=
  ⟨[], [], blockSize, BlockBuilder.new blockSize, []⟩

/-- `SsTableBuilder::finalize_block`: push the meta (offset = current data
length, first key = the captured in-flight first key, which is reset), then
append the encoded block. `build()`'s panic on an empty in-flight block is
`none`. -/
def SsTableBuilder.finalizeBlock (h : List Nat → List Nat → Nat)
    (st : SsTableBuilder) : Option SsTableBuilder :=
  match st.currentBlock.build with
  | none => none
  | some blk => some
    { st with
      meta := st.meta ++ [⟨st.data.length, st.firstKey⟩],
      data := st.data ++ Block.encode h blk,
      currentBlock := BlockBuilder.new st.blockSize,
      firstKey := [] }

/-- `SsTableBuilder::add`: capture the first key if none yet, try the
in-flight block, and on overflow finalize it and re-add into a fresh block
(the `assert!` that the re-add succeeds is `none` when violated, as is the
empty-key panic inside `BlockBuilder::add`). -/
def SsTableBuilder.add (h : List Nat → List Nat → Nat) (st : SsTableBuilder)
    (k v : List Nat) : Option SsTableBuilder :=
  match (if st.firstKey.isEmpty then { st with firstKey := k } else st) with
  | st1 =>
    match st1.currentBlock.add k v with
    | none => none
    | some (true, cb) => some { st1 with currentBlock := cb }
    | some (false, _) =>
      match st1.finalizeBlock h with
      | none => none
      | some st2 =>
        match st2.currentBlock.add k v with
        | some (true, cb) => some { st2 with currentBlock := cb, firstKey := k }
        | _ => none

/-- `SsTableBuilder::build`: finalize the in-flight block, then lay out
`data ++ encoded metas ++ u32 meta_offset` and return the populated
`SsTable` (no re-decode). -/
def SsTableBuilder.build (h : List Nat → List Nat → Nat)
    (hm : List BlockMeta → Nat) (st : SsTableBuilder) : Option SsTable :=
  match st.finalizeBlock h with
  | none => none
  | some st2 => some
    ⟨st2.data ++ encodeBlockMeta hm st2.meta ++ u32be st2.data.length,
     st2.meta, st2.data.length⟩

/-- Feeding a sequence of entries to `SsTableBuilder::add` in order. -/
def sstAddAll (h : List Nat → List Nat → Nat) (st : SsTableBuilder) :
    List (List Nat × List Nat) → Option SsTableBuilder
  | [] => some st
  | e :: rest =>
    match SsTableBuilder.add h st e.1 e.2 with
    | none => none
    | some st2 => sstAddAll h st2 rest

theorem entryOffsets_append_one (es : List (List Nat × List Nat))
    (e : List Nat × List Nat) :
    ∀ acc, entryOffsets (es ++ [e]) acc
      = entryOffsets es acc ++ [acc + (entriesData es).length] := by
  induction es with
  | nil =>
    intro acc
    simp [entryOffsets, entriesData]
  | cons e2 rest ih =>
    intro acc
    show acc :: entryOffsets (rest ++ [e]) (acc + (encodeEntry e2).length)
      = acc :: (entryOffsets rest (acc + (encodeEntry e2).length)
          ++ [acc + (entriesData (e2 :: rest)).length])
    rw [ih, entriesData_cons, List.length_append]
    rw [show acc + ((encodeEntry e2).length + (entriesData rest).length)
        = acc + (encodeEntry e2).length + (entriesData rest).length from by omega]

theorem headD_append_one {es : List (List Nat × List Nat)}
    (hne : es ≠ []) (e d : List Nat × List Nat) :
    (es ++ [e]).headD d = es.headD d := by
  cases es with
  | nil => exact absurd rfl hne
  | cons x rest => rfl

theorem metasOfGroups_append_one (h : List Nat → List Nat → Nat)
    (gs : List (List (List Nat × List Nat)))
    (g : List (List Nat × List Nat)) :
    ∀ acc, metasOfGroups h (gs ++ [g]) acc
      = metasOfGroups h gs acc
        ++ [⟨acc + ((gs.map (groupBytes h)).flatten).length, headKey g⟩] := by
  induction gs with
  | nil =>
    intro acc
    simp [metasOfGroups, headKey, groupBytes]
  | cons g2 rest ih =>
    intro acc
    show (⟨acc, (g2.headD ([], [])).1⟩ : BlockMeta)
        :: metasOfGroups h (rest ++ [g]) (acc + (groupBytes h g2).length)
      = ⟨acc, (g2.headD ([], [])).1⟩
        :: (metasOfGroups h rest (acc + (groupBytes h g2).length)
            ++ [⟨acc + (((g2 :: rest).map (groupBytes h)).flatten).length, headKey g⟩])
    rw [ih]
    rw [show acc + (((g2 :: rest).map (groupBytes h)).flatten).length
        = acc + (groupBytes h g2).length + ((rest.map (groupBytes h)).flatten).length from by
      simp only [List.map_cons, List.flatten_cons, List.length_append]
      omega]

theorem entriesData_append_one (cur : List (List Nat × List Nat))
    (k v : List Nat) :
    entriesData cur ++ u16be k.length ++ k ++ u16be v.length ++ v
      = entriesData (cur ++ [(k, v)]) := by
  rw [entriesData_append]
  simp [entriesData, encodeEntry]

theorem blockBuilder_add_entries (bs : Nat) (cur : List (List Nat × List Nat))
    (k v : List Nat) (hk : k ≠ [])
    (hlen : (entriesData cur).length < 2 ^ 16)
    (haccept : cur = [] ∨
      (entriesData cur).length + 2 * cur.length + 2 + (k.length + v.length + 3 * 2) ≤ bs) :
    BlockBuilder.add ⟨entriesData cur, entryOffsets cur 0, bs⟩ k v
      = some (true, ⟨entriesData (cur ++ [(k, v)]), entryOffsets (cur ++ [(k, v)]) 0, bs⟩) := by
  rw [BlockBuilder.add, if_neg hk]
  have hoffsets : entryOffsets cur 0 ++ [(entriesData cur).length % 2 ^ 16]
      = entryOffsets (cur ++ [(k, v)]) 0 := by
    rw [Nat.mod_eq_of_lt hlen, entryOffsets_append_one]
    rw [show (0 : Nat) + (entriesData cur).length = (entriesData cur).length from by omega]
  have hcond : ¬ ((⟨entriesData cur, entryOffsets cur 0, bs⟩ : BlockBuilder).estimatedSize
        + k.length + v.length + 3 * 2 > bs
      ∧ (⟨entriesData cur, entryOffsets cur 0, bs⟩ : BlockBuilder).isEmpty = false) := by
    rcases haccept with hceq | hle
    · intro hcon
      have : (⟨entriesData cur, entryOffsets cur 0, bs⟩ : BlockBuilder).isEmpty = true := by
        subst hceq
        rfl
      rw [this] at hcon
      cases hcon.2
    · intro hcon
      have hest : (⟨entriesData cur, entryOffsets cur 0, bs⟩ : BlockBuilder).estimatedSize
          = (entriesData cur).length + 2 * cur.length + 2 := by
        dsimp only [BlockBuilder.estimatedSize]
        rw [entryOffsets_length]
        omega
      rw [hest] at hcon
      omega
  rw [if_neg hcond]
  dsimp only
  rw [hoffsets, Option.some.injEq, Prod.mk.injEq]
  refine ⟨rfl, ?_⟩
  rw [BlockBuilder.mk.injEq]
  refine ⟨?_, rfl, rfl⟩
  rw [← entriesData_append_one]

theorem blockBuilder_add_reject (bs : Nat) (cur : List (List Nat × List Nat))
    (k v : List Nat) (hk : k ≠ []) (hne : cur ≠ [])
    (hover : bs < (entriesData cur).length + 2 * cur.length + 2
      + (k.length + v.length + 3 * 2)) :
    BlockBuilder.add ⟨entriesData cur, entryOffsets cur 0, bs⟩ k v
      = some (false, ⟨entriesData cur, entryOffsets cur 0, bs⟩) := by
  rw [BlockBuilder.add, if_neg hk]
  have hcond : (⟨entriesData cur, entryOffsets cur 0, bs⟩ : BlockBuilder).estimatedSize
        + k.length + v.length + 3 * 2 > bs
      ∧ (⟨entriesData cur, entryOffsets cur 0, bs⟩ : BlockBuilder).isEmpty = false := by
    constructor
    · dsimp only [BlockBuilder.estimatedSize]
      rw [entryOffsets_length]
      omega
    · show (entryOffsets cur 0).isEmpty = false
      cases cur with
      | nil => exact absurd rfl hne
      | cons e rest => rfl
  rw [if_pos hcond]

/-- Invariant tying an `SsTableBuilder` state to the finalized groups `gs`
and the in-flight entries `cur`. -/
def SstInv (h : List Nat → List Nat → Nat) (bs : Nat)
    (gs : List (List (List Nat × List Nat)))
    (cur : List (List Nat × List Nat)) (st : SsTableBuilder) : Prop :=
  st.blockSize = bs ∧
  st.data = (gs.map (groupBytes h)).flatten ∧
  st.meta = metasOfGroups h gs 0 ∧
  st.currentBlock = ⟨entriesData cur, entryOffsets cur 0, bs⟩ ∧
  st.firstKey = headKey cur ∧
  (∀ g ∈ gs, GroupWf g) ∧
  EntriesWf cur ∧
  (entriesData cur).length < 2 ^ 16 ∧
  (cur ≠ [] → (cur.length = 1 ∨ (entriesData cur).length + 2 * cur.length + 2 ≤ bs))

theorem sstInv_new (h : List Nat → List Nat → Nat) (bs : Nat) :
    SstInv h bs [] [] (SsTableBuilder.new bs) := by
  refine ⟨rfl, rfl, rfl, rfl, rfl, ?_, ?_, ?_, ?_⟩
  · intro g hg; simp at hg
  · intro e he; simp [EntriesWf] at he
  · show ([] : List Nat).length < 2 ^ 16
    simp
  · intro hc; exact absurd rfl hc

theorem entriesData_append_one_length (cur : List (List Nat × List Nat))
    (k v : List Nat) :
    (entriesData (cur ++ [(k, v)])).length
      = (entriesData cur).length + (4 + k.length + v.length) := by
  rw [entriesData_append, List.length_append]
  simp [entriesData, encodeEntry_length]

theorem sstAdd_step (h : List Nat → List Nat → Nat) (bs : Nat)
    (gs : List (List (List Nat × List Nat)))
    (cur : List (List Nat × List Nat)) (st : SsTableBuilder)
    (inv : SstInv h bs gs cur st) (k v : List Nat) (hk : k ≠ [])
    (hsz : 4 + k.length + v.length ≤ 65535) (hbs : bs ≤ 65535) :
    ∃ st2 gs2 cur2, SsTableBuilder.add h st k v = some st2 ∧
      SstInv h bs gs2 cur2 st2 ∧
      gs2.flatten ++ cur2 = gs.flatten ++ cur ++ [(k, v)] ∧ cur2 ≠ [] := by
  obtain ⟨hbsz, hdata, hmeta, hcb, hfk, hgswf, hcurwf, hdlen, hsizeok⟩ := inv
  obtain ⟨m, d, bsz, cb, fk⟩ := st
  dsimp only at hbsz hdata hmeta hcb hfk
  have hbsz2 : bs = bsz := hbsz.symm
  subst hbsz2
  subst hdata hmeta hcb hfk
  have hkwf : k.length < 2 ^ 16 := by omega
  have hvwf : v.length < 2 ^ 16 := by omega
  by_cases hcur : cur = []
  · subst hcur
    have hnewcb : BlockBuilder.new bs
        = (⟨entriesData [], entryOffsets [] 0, bs⟩ : BlockBuilder) := rfl
    have hadd : SsTableBuilder.add h
        ⟨metasOfGroups h gs 0, (gs.map (groupBytes h)).flatten, bs,
          ⟨entriesData [], entryOffsets [] 0, bs⟩, headKey []⟩ k v
        = some ⟨metasOfGroups h gs 0, (gs.map (groupBytes h)).flatten, bs,
            ⟨entriesData [(k, v)], entryOffsets [(k, v)] 0, bs⟩, k⟩ := by
      simp only [SsTableBuilder.add, headKey, List.headD_nil, List.isEmpty_nil,
        if_true]
      rw [blockBuilder_add_entries bs [] k v hk (by simp [entriesData])
        (Or.inl rfl)]
      rfl
    refine ⟨_, gs, [(k, v)], hadd, ?_, by simp, by simp⟩
    refine ⟨rfl, rfl, rfl, rfl, rfl, hgswf, ?_, ?_, ?_⟩
    · intro e he
      simp only [List.mem_singleton] at he
      subst he
      exact ⟨hk, hkwf, hvwf⟩
    · rw [show ([(k, v)] : List (List Nat × List Nat)) = [] ++ [(k, v)] from rfl,
        entriesData_append_one_length]
      simp [entriesData]
      omega
    · intro _
      left
      rfl
  · have hfkne : headKey cur ≠ [] :=
      (hcurwf (cur.headD ([], [])) (headD_mem hcur)).1
    have hfkfalse : (headKey cur).isEmpty = false := by
      cases h2 : headKey cur with
      | nil => exact absurd h2 hfkne
      | cons a r => rfl
    by_cases hfit : (entriesData cur).length + 2 * cur.length + 2
        + (k.length + v.length + 3 * 2) ≤ bs
    · -- the in-flight block accepts the entry
      have hadd : SsTableBuilder.add h
          ⟨metasOfGroups h gs 0, (gs.map (groupBytes h)).flatten, bs,
            ⟨entriesData cur, entryOffsets cur 0, bs⟩, headKey cur⟩ k v
          = some ⟨metasOfGroups h gs 0, (gs.map (groupBytes h)).flatten, bs,
              ⟨entriesData (cur ++ [(k, v)]), entryOffsets (cur ++ [(k, v)]) 0, bs⟩,
              headKey cur⟩ := by
        simp only [SsTableBuilder.add, hfkfalse, Bool.false_eq_true, if_false]
        rw [blockBuilder_add_entries bs cur k v hk hdlen (Or.inr hfit)]
      refine ⟨_, gs, cur ++ [(k, v)], hadd, ?_, by simp, by simp⟩
      have hlen2 := entriesData_append_one_length cur k v
      refine ⟨rfl, rfl, rfl, rfl, ?_, hgswf, ?_, ?_, ?_⟩
      · show headKey cur = headKey (cur ++ [(k, v)])
        rw [headKey, headKey, headD_append_one hcur]
      · intro e he
        rcases List.mem_append.mp he with hin | hin
        · exact hcurwf e hin
        · simp only [List.mem_singleton] at hin
          subst hin
          exact ⟨hk, hkwf, hvwf⟩
      · omega
      · intro _
        right
        rw [hlen2]
        simp only [List.length_append, List.length_singleton]
        omega
    · -- overflow: finalize the block, then re-add into a fresh one
      have hreject := blockBuilder_add_reject bs cur k v hk hcur (by omega)
      have hbuild : BlockBuilder.build ⟨entriesData cur, entryOffsets cur 0, bs⟩
          = some ⟨entriesData cur, entryOffsets cur 0⟩ := by
        rw [BlockBuilder.build, if_neg]
        show ¬ ((entryOffsets cur 0).isEmpty = true)
        cases cur with
        | nil => exact absurd rfl hcur
        | cons e rest => simp [entryOffsets]
      have hnewcb : BlockBuilder.new bs
          = (⟨entriesData [], entryOffsets [] 0, bs⟩ : BlockBuilder) := rfl
      have hadd : SsTableBuilder.add h
          ⟨metasOfGroups h gs 0, (gs.map (groupBytes h)).flatten, bs,
            ⟨entriesData cur, entryOffsets cur 0, bs⟩, headKey cur⟩ k v
          = some ⟨metasOfGroups h gs 0 ++ [⟨((gs.map (groupBytes h)).flatten).length,
              headKey cur⟩],
              (gs.map (groupBytes h)).flatten
                ++ Block.encode h ⟨entriesData cur, entryOffsets cur 0⟩, bs,
              ⟨entriesData [(k, v)], entryOffsets [(k, v)] 0, bs⟩, k⟩ := by
        simp only [SsTableBuilder.add, hfkfalse, Bool.false_eq_true, if_false]
        rw [hreject]
        simp only [SsTableBuilder.finalizeBlock, hbuild]
        rw [hnewcb]
        rw [blockBuilder_add_entries bs [] k v hk (by simp [entriesData])
          (Or.inl rfl)]
        rfl
      refine ⟨_, gs ++ [cur], [(k, v)], hadd, ?_, ?_, by simp⟩
      · refine ⟨rfl, ?_, ?_, rfl, rfl, ?_, ?_, ?_, ?_⟩
        · show (gs.map (groupBytes h)).flatten
              ++ Block.encode h ⟨entriesData cur, entryOffsets cur 0⟩
            = ((gs ++ [cur]).map (groupBytes h)).flatten
          rw [List.map_append, List.flatten_append]
          simp [groupBytes, blockOfEntries]
        · show metasOfGroups h gs 0 ++ [⟨((gs.map (groupBytes h)).flatten).length,
              headKey cur⟩] = metasOfGroups h (gs ++ [cur]) 0
          rw [metasOfGroups_append_one]
          rw [show (0 : Nat) + ((gs.map (groupBytes h)).flatten).length
              = ((gs.map (groupBytes h)).flatten).length from by omega]
        · intro g hg
          rcases List.mem_append.mp hg with hin | hin
          · exact hgswf g hin
          · simp only [List.mem_singleton] at hin
            subst hin
            exact ⟨hcur, hcurwf, hdlen⟩
        · intro e he
          simp only [List.mem_singleton] at he
          subst he
          exact ⟨hk, hkwf, hvwf⟩
        · rw [show ([(k, v)] : List (List Nat × List Nat)) = [] ++ [(k, v)] from rfl,
            entriesData_append_one_length]
          simp [entriesData]
          omega
        · intro _
          left
          rfl
      · simp

theorem sstAddAll_inv (h : List Nat → List Nat → Nat) (bs : Nat)
    (hbs : bs ≤ 65535) (S : List (List Nat × List Nat))
    (hSwf : ∀ e ∈ S, e.1 ≠ [] ∧ 4 + e.1.length + e.2.length ≤ 65535) :
    ∀ gs cur st, SstInv h bs gs cur st →
      ∃ st2 gs2 cur2, sstAddAll h st S = some st2 ∧
        SstInv h bs gs2 cur2 st2 ∧
        gs2.flatten ++ cur2 = gs.flatten ++ cur ++ S ∧
        ((cur ≠ [] ∨ S ≠ []) → cur2 ≠ []) := by
  induction S with
  | nil =>
    intro gs cur st inv
    refine ⟨st, gs, cur, rfl, inv, by simp, ?_⟩
    intro hne
    rcases hne with hc | hs
    · exact hc
    · exact absurd rfl hs
  | cons e rest ih =>
    intro gs cur st inv
    obtain ⟨hk, hsz⟩ := hSwf e (List.mem_cons_self e rest)
    obtain ⟨st2, gs2, cur2, hadd, inv2, hflat, hcur2⟩ :=
      sstAdd_step h bs gs cur st inv e.1 e.2 hk hsz hbs
    obtain ⟨st3, gs3, cur3, hrest, inv3, hflat3, hcur3⟩ :=
      ih (fun x hx => hSwf x (List.mem_cons_of_mem e hx)) gs2 cur2 st2 inv2
    refine ⟨st3, gs3, cur3, ?_, inv3, ?_, fun _ => hcur3 (Or.inl hcur2)⟩
    · show sstAddAll h st (e :: rest) = some st3
      simp only [sstAddAll]
      rw [hadd]
      exact hrest
    · rw [hflat3, hflat]
      simp
  
theorem sstBuild_eq (h : List Nat → List Nat → Nat) (hm : List BlockMeta → Nat)
    (bs : Nat) (gs : List (List (List Nat × List Nat)))
    (cur : List (List Nat × List Nat)) (st : SsTableBuilder)
    (inv : SstInv h bs gs cur st) (hcur : cur ≠ []) :
    SsTableBuilder.build h hm st = some (sstOfGroups h hm (gs ++ [cur])) := by
  obtain ⟨hbsz, hdata, hmeta, hcb, hfk, hgswf, hcurwf, hdlen, hsizeok⟩ := inv
  obtain ⟨m, d, bsz, cb, fk⟩ := st
  dsimp only at hbsz hdata hmeta hcb hfk
  have hbsz2 : bs = bsz := hbsz.symm
  subst hbsz2
  subst hdata hmeta hcb hfk
  have hbuild : BlockBuilder.build ⟨entriesData cur, entryOffsets cur 0, bs⟩
      = some ⟨entriesData cur, entryOffsets cur 0⟩ := by
    rw [BlockBuilder.build, if_neg]
    show ¬ ((entryOffsets cur 0).isEmpty = true)
    cases cur with
    | nil => exact absurd rfl hcur
    | cons e rest2 => simp [entryOffsets]
  have hdata2 : (gs.map (groupBytes h)).flatten
      ++ Block.encode h ⟨entriesData cur, entryOffsets cur 0⟩
      = ((gs ++ [cur]).map (groupBytes h)).flatten := by
    rw [List.map_append, List.flatten_append]
    simp [groupBytes, blockOfEntries]
  have hmeta2 : metasOfGroups h gs 0
        ++ [⟨((gs.map (groupBytes h)).flatten).length, headKey cur⟩]
      = metasOfGroups h (gs ++ [cur]) 0 := by
    rw [metasOfGroups_append_one]
    rw [show (0 : Nat) + ((gs.map (groupBytes h)).flatten).length
        = ((gs.map (groupBytes h)).flatten).length from by omega]
  simp only [SsTableBuilder.build, SsTableBuilder.finalizeBlock, hbuild]
  rw [sstOfGroups, ← hdata2, ← hmeta2]

theorem sstDrive_invalid (h : List Nat → List Nat → Nat) (fuel : Nat)
    (it : SsTableIterator) (hinv : it.isValid = false) :
    sstDrive h fuel it = [] := by
  cases fuel with
  | zero => rfl
  | succ f => rw [sstDrive, if_neg (by simp [hinv])]

theorem drop_at_one (es : List (List Nat × List Nat)) (j : Nat)
    (hj : j < es.length) (hlast : es.length = j + 1) :
    es.drop j = [es.get ⟨j, hj⟩] := by
  have h1 : es.drop j = es.get ⟨j, hj⟩ :: es.drop (j + 1) := by
    rw [List.drop_eq_getElem_cons hj]
    rfl
  rw [h1, List.drop_eq_nil_of_le (by omega)]

theorem sstDrive_canonical (h : List Nat → List Nat → Nat)
    (hm : List BlockMeta → Nat) (hh : HashWf h)
    (gs : List (List (List Nat × List Nat))) (hwf : ∀ g ∈ gs, GroupWf g) :
    ∀ (fuel i j : Nat) (hi : i < gs.length)
      (hj : j < (gs.get ⟨i, hi⟩).length),
      (gs.get ⟨i, hi⟩).length - j + ((gs.drop (i + 1)).flatten).length < fuel →
      sstDrive h fuel ⟨sstOfGroups h hm gs, i,
          (BlockIterator.new (blockOfEntries (gs.get ⟨i, hi⟩))).seekToIdx j⟩
        = (gs.get ⟨i, hi⟩).drop j ++ (gs.drop (i + 1)).flatten := by
  intro fuel
  induction fuel with
  | zero => intro i j hi hj hfuel; omega
  | succ fuel ih =>
    intro i j hi hj hfuel
    obtain ⟨hgne, hgewf, hgdlen⟩ := hwf (gs.get ⟨i, hi⟩) (List.get_mem gs i hi)
    have hseek := seekToIdx_spec (gs.get ⟨i, hi⟩) hgewf
      (BlockIterator.new (blockOfEntries (gs.get ⟨i, hi⟩))) rfl j hj
    have hkne : ((gs.get ⟨i, hi⟩).get ⟨j, hj⟩).1 ≠ [] :=
      (hgewf _ (List.get_mem (gs.get ⟨i, hi⟩) j hj)).1
    have hkey : ((BlockIterator.new
        (blockOfEntries (gs.get ⟨i, hi⟩))).seekToIdx j).key
        = ((gs.get ⟨i, hi⟩).get ⟨j, hj⟩).1 := by
      rw [hseek]
    have hval : ((BlockIterator.new
        (blockOfEntries (gs.get ⟨i, hi⟩))).seekToIdx j).value
        = ((gs.get ⟨i, hi⟩).get ⟨j, hj⟩).2 := by
      rw [hseek]
    have hvalid : (SsTableIterator.isValid ⟨sstOfGroups h hm gs, i,
        (BlockIterator.new (blockOfEntries (gs.get ⟨i, hi⟩))).seekToIdx j⟩)
        = true := by
      simp only [SsTableIterator.isValid, BlockIterator.isValid, hkey]
      cases h2 : ((gs.get ⟨i, hi⟩).get ⟨j, hj⟩).1 with
      | nil => exact absurd h2 hkne
      | cons a r => rfl
    have hbn : ((BlockIterator.new
        (blockOfEntries (gs.get ⟨i, hi⟩))).seekToIdx j).next
        = (BlockIterator.new (blockOfEntries (gs.get ⟨i, hi⟩))).seekToIdx
            (j + 1) := by
      rw [BlockIterator.next,
        show ((BlockIterator.new
          (blockOfEntries (gs.get ⟨i, hi⟩))).seekToIdx j).idx = j from by
            rw [hseek]]
      exact seekToIdx_only_block _ _ (seekToIdx_block _ _) (j + 1)
    rw [sstDrive, if_pos hvalid]
    by_cases hj1 : j + 1 < (gs.get ⟨i, hi⟩).length
    · -- next entry is in the same block
      have hseek1 := seekToIdx_spec (gs.get ⟨i, hi⟩) hgewf
        (BlockIterator.new (blockOfEntries (gs.get ⟨i, hi⟩))) rfl (j + 1) hj1
      have hkne1 : ((gs.get ⟨i, hi⟩).get ⟨j + 1, hj1⟩).1 ≠ [] :=
        (hgewf _ (List.get_mem (gs.get ⟨i, hi⟩) (j + 1) hj1)).1
      have hnvalid : ((BlockIterator.new
          (blockOfEntries (gs.get ⟨i, hi⟩))).seekToIdx (j + 1)).isValid
          = true := by
        rw [hseek1]
        simp only [BlockIterator.isValid]
        cases h2 : ((gs.get ⟨i, hi⟩).get ⟨j + 1, hj1⟩).1 with
        | nil => exact absurd h2 hkne1
        | cons a r => rfl
      have hnext : SsTableIterator.next h ⟨sstOfGroups h hm gs, i,
          (BlockIterator.new (blockOfEntries (gs.get ⟨i, hi⟩))).seekToIdx j⟩
          = some ⟨sstOfGroups h hm gs, i,
            (BlockIterator.new (blockOfEntries (gs.get ⟨i, hi⟩))).seekToIdx
              (j + 1)⟩ := by
        rw [SsTableIterator.next]
        simp only [hbn, hnvalid]
        rw [if_neg (by simp)]
      rw [show SsTableIterator.keyOf ⟨sstOfGroups h hm gs, i,
          (BlockIterator.new (blockOfEntries (gs.get ⟨i, hi⟩))).seekToIdx j⟩
          = ((gs.get ⟨i, hi⟩).get ⟨j, hj⟩).1 from hkey,
        show SsTableIterator.valueOf ⟨sstOfGroups h hm gs, i,
          (BlockIterator.new (blockOfEntries (gs.get ⟨i, hi⟩))).seekToIdx j⟩
          = ((gs.get ⟨i, hi⟩).get ⟨j, hj⟩).2 from hval, hnext]
      show (((gs.get ⟨i, hi⟩).get ⟨j, hj⟩).1, ((gs.get ⟨i, hi⟩).get ⟨j, hj⟩).2)
          :: sstDrive h fuel ⟨sstOfGroups h hm gs, i,
            (BlockIterator.new (blockOfEntries (gs.get ⟨i, hi⟩))).seekToIdx
              (j + 1)⟩
        = (gs.get ⟨i, hi⟩).drop j ++ (gs.drop (i + 1)).flatten
      rw [ih i (j + 1) hi hj1 (by omega)]
      rw [show (gs.get ⟨i, hi⟩).drop j
          = (gs.get ⟨i, hi⟩).get ⟨j, hj⟩ :: (gs.get ⟨i, hi⟩).drop (j + 1) from by
            rw [List.drop_eq_getElem_cons hj]; rfl]
      rfl
    · -- the block is exhausted after this entry
      have hlast : (gs.get ⟨i, hi⟩).length = j + 1 := by omega
      have hinv1 : ((BlockIterator.new
          (blockOfEntries (gs.get ⟨i, hi⟩))).seekToIdx (j + 1)).isValid
          = false := by
        rw [seekToIdx_invalid _ (j + 1) (by
          show (blockOfEntries (gs.get ⟨i, hi⟩)).offsets.length ≤ j + 1
          show (entryOffsets (gs.get ⟨i, hi⟩) 0).length ≤ j + 1
          rw [entryOffsets_length]
          omega)]
        rfl
      have hnum : (sstOfGroups h hm gs).numOfBlocks = gs.length := by
        show (metasOfGroups h gs 0).length = gs.length
        exact metasOfGroups_length h gs 0
      rw [show SsTableIterator.keyOf ⟨sstOfGroups h hm gs, i,
          (BlockIterator.new (blockOfEntries (gs.get ⟨i, hi⟩))).seekToIdx j⟩
          = ((gs.get ⟨i, hi⟩).get ⟨j, hj⟩).1 from hkey,
        show SsTableIterator.valueOf ⟨sstOfGroups h hm gs, i,
          (BlockIterator.new (blockOfEntries (gs.get ⟨i, hi⟩))).seekToIdx j⟩
          = ((gs.get ⟨i, hi⟩).get ⟨j, hj⟩).2 from hval]
      by_cases hi1 : i + 1 < gs.length
      · -- move to the next block
        have hrb := readBlock_sstOfGroups h hm hh gs hwf (i + 1) hi1
        have hnext : SsTableIterator.next h ⟨sstOfGroups h hm gs, i,
            (BlockIterator.new (blockOfEntries (gs.get ⟨i, hi⟩))).seekToIdx j⟩
            = some ⟨sstOfGroups h hm gs, i + 1,
              (BlockIterator.new
                (blockOfEntries (gs.get ⟨i + 1, hi1⟩))).seekToIdx 0⟩ := by
          rw [SsTableIterator.next]
          simp only [hbn, hinv1]
          rw [if_pos trivial]
          show (match SsTableIterator.maybeNextBlock h (sstOfGroups h hm gs) i
              with
            | none => none
            | some (nidx, onit) => _) = _
          rw [SsTableIterator.maybeNextBlock, if_pos (by rw [hnum]; exact hi1)]
          rw [hrb]
          rfl
        rw [hnext]
        show (((gs.get ⟨i, hi⟩).get ⟨j, hj⟩).1,
              ((gs.get ⟨i, hi⟩).get ⟨j, hj⟩).2)
            :: sstDrive h fuel ⟨sstOfGroups h hm gs, i + 1,
              (BlockIterator.new
                (blockOfEntries (gs.get ⟨i + 1, hi1⟩))).seekToIdx 0⟩
          = (gs.get ⟨i, hi⟩).drop j ++ (gs.drop (i + 1)).flatten
        obtain ⟨hgne1, hgewf1, hgdlen1⟩ :=
          hwf (gs.get ⟨i + 1, hi1⟩) (List.get_mem gs (i + 1) hi1)
        have hj0 : 0 < (gs.get ⟨i + 1, hi1⟩).length :=
          List.length_pos.mpr hgne1
        have hdropsplit : gs.drop (i + 1)
            = gs.get ⟨i + 1, hi1⟩ :: gs.drop (i + 1 + 1) := by
          rw [List.drop_eq_getElem_cons hi1]
          rfl
        have hflatlen : ((gs.drop (i + 1)).flatten).length
            = (gs.get ⟨i + 1, hi1⟩).length
              + ((gs.drop (i + 1 + 1)).flatten).length := by
          rw [hdropsplit, List.flatten_cons, List.length_append]
        rw [ih (i + 1) 0 hi1 hj0 (by omega)]
        rw [drop_at_one (gs.get ⟨i, hi⟩) j hj hlast, hdropsplit,
          List.flatten_cons, List.drop_zero]
        rfl
      · -- no next block: the iterator goes invalid
        have hnext : SsTableIterator.next h ⟨sstOfGroups h hm gs, i,
            (BlockIterator.new (blockOfEntries (gs.get ⟨i, hi⟩))).seekToIdx j⟩
            = some ⟨sstOfGroups h hm gs, i,
              (BlockIterator.new
                (blockOfEntries (gs.get ⟨i, hi⟩))).seekToIdx (j + 1)⟩ := by
          rw [SsTableIterator.next]
          simp only [hbn, hinv1]
          rw [if_pos trivial]
          show (match SsTableIterator.maybeNextBlock h (sstOfGroups h hm gs) i
              with
            | none => none
            | some (nidx, onit) => _) = _
          rw [SsTableIterator.maybeNextBlock, if_neg (by rw [hnum]; exact hi1)]
        rw [hnext]
        show (((gs.get ⟨i, hi⟩).get ⟨j, hj⟩).1,
              ((gs.get ⟨i, hi⟩).get ⟨j, hj⟩).2)
            :: sstDrive h fuel ⟨sstOfGroups h hm gs, i,
              (BlockIterator.new
                (blockOfEntries (gs.get ⟨i, hi⟩))).seekToIdx (j + 1)⟩
          = (gs.get ⟨i, hi⟩).drop j ++ (gs.drop (i + 1)).flatten
        rw [sstDrive_invalid h fuel _ (by
          show ((BlockIterator.new
            (blockOfEntries (gs.get ⟨i, hi⟩))).seekToIdx (j + 1)).isValid
              = false
          exact hinv1)]
        rw [drop_at_one (gs.get ⟨i, hi⟩) j hj hlast]
        rw [List.drop_eq_nil_of_le (by omega), List.flatten_nil,
          List.append_nil]

/-- Claim C2: for every non-empty, strictly increasing sequence `S` of
key-value pairs with non-empty keys (and sizes within the format's `u16`
bounds), feeding `S` in order to `SsTableBuilder::add`, calling `build`,
and then fully scanning the resulting `SsTable` with
`create_and_seek_to_first` followed by `next` until invalid yields exactly
`S`. -/
theorem sst_build_scan_roundtrip (h : List Nat → List Nat → Nat)
    (hm : List BlockMeta → Nat) (hh : HashWf h)
    (S : List (List Nat × List Nat)) (hne : S ≠ [])
    (hsorted : StrictSorted (S.map Prod.fst))
    (hwfS : ∀ e ∈ S, e.1 ≠ [] ∧ 4 + e.1.length + e.2.length ≤ 65535)
    (bs : Nat) (hbs : bs ≤ 65535) :
    ∃ st t it, sstAddAll h (SsTableBuilder.new bs) S = some st ∧
      SsTableBuilder.build h hm st = some t ∧
      SsTableIterator.createAndSeekToFirst h t = some it ∧
      sstDrive h (S.length + 1) it = S := by
  obtain ⟨st2, gs2, cur2, haddall, inv2, hflat, hcur2⟩ :=
    sstAddAll_inv h bs hbs S hwfS [] [] (SsTableBuilder.new bs)
      (sstInv_new h bs)
  have hcur2ne : cur2 ≠ [] := hcur2 (Or.inr hne)
  have hbuild := sstBuild_eq h hm bs gs2 cur2 st2 inv2 hcur2ne
  obtain ⟨-, -, -, -, -, hgswf, hcurwf, hdlen, -⟩ := inv2
  have hgswf2 : ∀ g ∈ gs2 ++ [cur2], GroupWf g := by
    intro g hg
    rcases List.mem_append.mp hg with hin | hin
    · exact hgswf g hin
    · simp only [List.mem_singleton] at hin
      subst hin
      exact ⟨hcur2ne, hcurwf, hdlen⟩
  have hflatS : (gs2 ++ [cur2]).flatten = S := by
    rw [List.flatten_append]
    simpa using hflat
  have h0 : 0 < (gs2 ++ [cur2]).length := by simp
  have h01 : (gs2 ++ [cur2]).get ⟨0, h0⟩ :: (gs2 ++ [cur2]).drop (0 + 1)
      = gs2 ++ [cur2] := by
    have hd := List.drop_eq_getElem_cons h0
    rw [List.drop_zero] at hd
    exact hd.symm
  have hj0 : 0 < ((gs2 ++ [cur2]).get ⟨0, h0⟩).length :=
    List.length_pos.mpr
      (hgswf2 _ (List.get_mem (gs2 ++ [cur2]) 0 h0)).1
  have hrb0 := readBlock_sstOfGroups h hm hh (gs2 ++ [cur2]) hgswf2 0 h0
  have hit : SsTableIterator.createAndSeekToFirst h
      (sstOfGroups h hm (gs2 ++ [cur2]))
      = some ⟨sstOfGroups h hm (gs2 ++ [cur2]), 0,
          (BlockIterator.new
            (blockOfEntries ((gs2 ++ [cur2]).get ⟨0, h0⟩))).seekToIdx 0⟩ := by
    rw [SsTableIterator.createAndSeekToFirst, hrb0]
    rfl
  have hsplit0 : (gs2 ++ [cur2]).get ⟨0, h0⟩
      ++ ((gs2 ++ [cur2]).drop (0 + 1)).flatten = S := by
    have hc := congrArg List.flatten h01
    rw [List.flatten_cons, hflatS] at hc
    exact hc
  have hlen := congrArg List.length hsplit0
  rw [List.length_append] at hlen
  refine ⟨st2, sstOfGroups h hm (gs2 ++ [cur2]),
    ⟨sstOfGroups h hm (gs2 ++ [cur2]), 0,
      (BlockIterator.new
        (blockOfEntries ((gs2 ++ [cur2]).get ⟨0, h0⟩))).seekToIdx 0⟩,
    haddall, hbuild, hit, ?_⟩
  rw [sstDrive_canonical h hm hh (gs2 ++ [cur2]) hgswf2 (S.length + 1) 0 0 h0
    hj0 (by omega)]
  rw [List.drop_zero]
  exact hsplit0

theorem sst_build_scan_roundtrip_witness :
    ∃ st t it, sstAddAll (fun _ _ => 7) (SsTableBuilder.new 16)
        [([97], [49]), ([98], [50])] = some st ∧
      SsTableBuilder.build (fun _ _ => 7) (fun _ => 7) st = some t ∧
      SsTableIterator.createAndSeekToFirst (fun _ _ => 7) t = some it ∧
      sstDrive (fun _ _ => 7)
          (([([97], [49]), ([98], [50])] :
            List (List Nat × List Nat)).length + 1) it
        = [([97], [49]), ([98], [50])] :=
  sst_build_scan_roundtrip (fun _ _ => 7) (fun _ => 7)
    (fun _ _ => by norm_num) [([97], [49]), ([98], [50])] (by decide)
    (by rw [StrictSorted]; decide) (by decide) 16 (by decide)

/-! ### A model input iterator for the merge iterators

The merge iterators are generic over `StorageIterator`.  `MIter` is the
model instance the theorems quantify over: a list of entries, a cursor,
and the set of cursor positions at which `next` returns an error. -/

structure MIter where
  entries : List (List Nat × List Nat)
  pos : Nat
  errOn : List Nat
  deriving Repr, DecidableEq

def MIter.isValid (it : MIter) : Bool := decide (it.pos < it.entries.length)

def MIter.key (it : MIter) : List Nat := (it.entries.getD it.pos ([], [])).1

def MIter.value (it : MIter) : List Nat := (it.entries.getD it.pos ([], [])).2

def MIter.next (it : MIter) : Except Unit MIter :=
  if it.pos ∈ it.errOn then Except.error ()
  else Except.ok { it with pos := it.pos + 1 }

/-! ### TwoMergeIterator (`src/iterators/two_merge_iterator.rs`) -/

structure TwoMergeIterator where
  a : MIter
  b : MIter
  deriving Repr, DecidableEq

/-- `TwoMergeIterator::create`. -/
def TwoMergeIterator.create (a b : MIter) : Except Unit TwoMergeIterator :=
  Except.ok ⟨a, b⟩

/-- `TwoMergeIterator::prefer_a`. -/
def TwoMergeIterator.preferA (it : TwoMergeIterator) : Bool :=
  if (it.a.isValid && it.b.isValid) = true then bLe it.a.key it.b.key
  else it.a.isValid

/-- `StorageIterator::key` for `TwoMergeIterator`. -/
def TwoMergeIterator.keyOf (it : TwoMergeIterator) : List Nat :=
  if it.preferA = true then it.a.key else it.b.key

/-- `StorageIterator::value` for `TwoMergeIterator`. -/
def TwoMergeIterator.valueOf (it : TwoMergeIterator) : List Nat :=
  if it.preferA = true then it.a.value else it.b.value

/-- `StorageIterator::is_valid` for `TwoMergeIterator`. -/
def TwoMergeIterator.isValid (it : TwoMergeIterator) : Bool :=
  it.a.isValid || it.b.isValid

/-- `StorageIterator::next` for `TwoMergeIterator`. -/
def TwoMergeIterator.next (it : TwoMergeIterator) :
    Except Unit TwoMergeIterator :=
  if it.b.isValid = false then
    match it.a.next with
    | Except.error e => Except.error e
    | Except.ok a2 => Except.ok { it with a := a2 }
  else if it.a.isValid = false then
    match it.b.next with
    | Except.error e => Except.error e
    | Except.ok b2 => Except.ok { it with b := b2 }
  else if it.a.key = it.b.key then
    match it.a.next with
    | Except.error e => Except.error e
    | Except.ok a2 =>
      match it.b.next with
      | Except.error e => Except.error e
      | Except.ok b2 => Except.ok ⟨a2, b2⟩
  else if bLt it.a.key it.b.key = true then
    match it.a.next with
    | Except.error e => Except.error e
    | Except.ok a2 => Except.ok { it with a := a2 }
  else
    match it.b.next with
    | Except.error e => Except.error e
    | Except.ok b2 => Except.ok { it with b := b2 }

/-- Driving a `TwoMergeIterator` with `next` until it is invalid. -/
def twoDrive : Nat → TwoMergeIterator → List (List Nat × List Nat)
  | 0, _ => []
  | fuel + 1, it =>
    if it.isValid = true then
      (it.keyOf, it.valueOf) ::
        (match it.next with
          | Except.ok it2 => twoDrive fuel it2
          | Except.error _ => [])
    else []

/-- The reference two-way merge (from the spec's description of the merge
semantics): on equal keys take the left entry and advance both sides. -/
def merge2 : List (List Nat × List Nat) → List (List Nat × List Nat) →
    List (List Nat × List Nat)
  | [], ys => ys
  | x :: xs, [] => x :: xs
  | x :: xs, y :: ys =>
    if x.1 = y.1 then x :: merge2 xs ys
    else if bLt x.1 y.1 = true then x :: merge2 xs (y :: ys)
    else y :: merge2 (x :: xs) ys
termination_by xs ys => xs.length + ys.length
decreasing_by
  all_goals simp only [List.length_cons]
  all_goals omega

theorem merge2_nil_right (xs : List (List Nat × List Nat)) :
    merge2 xs [] = xs := by
  cases xs with
  | nil => rw [merge2]
  | cons x t => rw [merge2]

theorem merge2_nil_left (ys : List (List Nat × List Nat)) :
    merge2 [] ys = ys := by
  rw [merge2]

theorem mIter_isValid_true (es : List (List Nat × List Nat)) (i : Nat)
    (errs : List Nat) (hi : i < es.length) :
    MIter.isValid ⟨es, i, errs⟩ = true := by
  simp [MIter.isValid]
  omega

theorem mIter_isValid_false (es : List (List Nat × List Nat)) (i : Nat)
    (errs : List Nat) (hi : ¬ i < es.length) :
    MIter.isValid ⟨es, i, errs⟩ = false := by
  simp [MIter.isValid]
  omega

theorem mIter_key (es : List (List Nat × List Nat)) (i : Nat)
    (errs : List Nat) (hi : i < es.length) :
    MIter.key ⟨es, i, errs⟩ = (es.get ⟨i, hi⟩).1 := by
  show (es.getD i ([], [])).1 = _
  rw [List.getD_eq_getElem es ([], []) hi]
  rfl

theorem mIter_value (es : List (List Nat × List Nat)) (i : Nat)
    (errs : List Nat) (hi : i < es.length) :
    MIter.value ⟨es, i, errs⟩ = (es.get ⟨i, hi⟩).2 := by
  show (es.getD i ([], [])).2 = _
  rw [List.getD_eq_getElem es ([], []) hi]
  rfl

theorem mIter_next_noerr (es : List (List Nat × List Nat)) (i : Nat)
    (errs : List Nat) (hi : i ∉ errs) :
    MIter.next ⟨es, i, errs⟩ = Except.ok ⟨es, i + 1, errs⟩ := by
  rw [MIter.next, if_neg hi]

theorem mIter_next_err (es : List (List Nat × List Nat)) (i : Nat)
    (errs : List Nat) (hi : i ∈ errs) :
    MIter.next ⟨es, i, errs⟩ = Except.error () := by
  rw [MIter.next, if_pos hi]

theorem twoMerge_preferA_both (a b : MIter) (ha : a.isValid = true)
    (hb : b.isValid = true) :
    TwoMergeIterator.preferA ⟨a, b⟩ = bLe a.key b.key := by
  rw [TwoMergeIterator.preferA]
  dsimp only
  rw [ha, hb]
  rfl

theorem twoMerge_preferA_bInvalid (a b : MIter) (hb : b.isValid = false) :
    TwoMergeIterator.preferA ⟨a, b⟩ = a.isValid := by
  rw [TwoMergeIterator.preferA]
  dsimp only
  rw [hb, Bool.and_false]
  rw [if_neg (by simp)]

theorem twoMerge_preferA_aInvalid (a b : MIter) (ha : a.isValid = false) :
    TwoMergeIterator.preferA ⟨a, b⟩ = false := by
  rw [TwoMergeIterator.preferA]
  dsimp only
  rw [ha, Bool.false_and, if_neg (show ¬ (false = true) by simp)]

theorem twoMerge_next_bInvalid (a b : MIter) (hb : b.isValid = false)
    (a2 : MIter) (han : a.next = Except.ok a2) :
    TwoMergeIterator.next ⟨a, b⟩ = Except.ok ⟨a2, b⟩ := by
  rw [TwoMergeIterator.next]
  dsimp only
  rw [hb, if_pos rfl, han]

theorem twoMerge_next_aInvalid (a b : MIter) (ha : a.isValid = false)
    (hb : b.isValid = true) (b2 : MIter) (hbn : b.next = Except.ok b2) :
    TwoMergeIterator.next ⟨a, b⟩ = Except.ok ⟨a, b2⟩ := by
  rw [TwoMergeIterator.next]
  dsimp only
  rw [hb, if_neg (by simp), ha, if_pos rfl, hbn]

theorem twoMerge_next_eqKeys (a b : MIter) (ha : a.isValid = true)
    (hb : b.isValid = true) (hk : a.key = b.key) (a2 b2 : MIter)
    (han : a.next = Except.ok a2) (hbn : b.next = Except.ok b2) :
    TwoMergeIterator.next ⟨a, b⟩ = Except.ok ⟨a2, b2⟩ := by
  rw [TwoMergeIterator.next]
  dsimp only
  rw [hb, if_neg (by simp), ha, if_neg (by simp), if_pos hk, han, hbn]

theorem twoMerge_next_aLt (a b : MIter) (ha : a.isValid = true)
    (hb : b.isValid = true) (hk : bLt a.key b.key = true) (a2 : MIter)
    (han : a.next = Except.ok a2) :
    TwoMergeIterator.next ⟨a, b⟩ = Except.ok ⟨a2, b⟩ := by
  rw [TwoMergeIterator.next]
  dsimp only
  rw [hb, if_neg (by simp), ha, if_neg (by simp),
    if_neg (ne_of_bLt hk), if_pos hk, han]

theorem twoMerge_next_bLt (a b : MIter) (ha : a.isValid = true)
    (hb : b.isValid = true) (hk : bLt b.key a.key = true) (b2 : MIter)
    (hbn : b.next = Except.ok b2) :
    TwoMergeIterator.next ⟨a, b⟩ = Except.ok ⟨a, b2⟩ := by
  rw [TwoMergeIterator.next]
  dsimp only
  rw [hb, if_neg (by simp), ha, if_neg (by simp),
    if_neg (fun he => ne_of_bLt hk he.symm),
    if_neg (by rw [bLt_asymm hk]; simp), hbn]

theorem twoDrive_step (fuel : Nat) (it it2 : TwoMergeIterator)
    (hv : it.isValid = true) (hnext : it.next = Except.ok it2) :
    twoDrive (fuel + 1) it = (it.keyOf, it.valueOf) :: twoDrive fuel it2 := by
  rw [twoDrive, if_pos hv, hnext]

theorem twoDrive_merge2 (sa sb : List (List Nat × List Nat)) :
    ∀ (fuel i j : Nat), sa.length - i + (sb.length - j) < fuel →
      twoDrive fuel ⟨⟨sa, i, []⟩, ⟨sb, j, []⟩⟩
        = merge2 (sa.drop i) (sb.drop j) := by
  intro fuel
  induction fuel with
  | zero => intro i j hf; omega
  | succ fuel ih =>
    intro i j hf
    by_cases hi : i < sa.length
    · have hA := mIter_isValid_true sa i [] hi
      have hdropa : sa.drop i = sa.get ⟨i, hi⟩ :: sa.drop (i + 1) := by
        rw [List.drop_eq_getElem_cons hi]
        rfl
      have hka := mIter_key sa i [] hi
      have hva := mIter_value sa i [] hi
      by_cases hj : j < sb.length
      · have hB := mIter_isValid_true sb j [] hj
        have hdropb : sb.drop j = sb.get ⟨j, hj⟩ :: sb.drop (j + 1) := by
          rw [List.drop_eq_getElem_cons hj]
          rfl
        have hkb := mIter_key sb j [] hj
        have hvb := mIter_value sb j [] hj
        have hpref := twoMerge_preferA_both ⟨sa, i, []⟩ ⟨sb, j, []⟩ hA hB
        have hvalid : TwoMergeIterator.isValid ⟨⟨sa, i, []⟩, ⟨sb, j, []⟩⟩
            = true := by
          rw [TwoMergeIterator.isValid]
          dsimp only
          rw [hA]
          rfl
        by_cases heq : (sa.get ⟨i, hi⟩).1 = (sb.get ⟨j, hj⟩).1
        · have hble : bLe (MIter.key ⟨sa, i, []⟩) (MIter.key ⟨sb, j, []⟩)
              = true := by
            rw [hka, hkb, heq]
            exact bLe_refl _
          have hnext := twoMerge_next_eqKeys ⟨sa, i, []⟩ ⟨sb, j, []⟩ hA hB
            (by rw [hka, hkb]; exact heq) ⟨sa, i + 1, []⟩ ⟨sb, j + 1, []⟩
            (mIter_next_noerr sa i [] (by simp))
            (mIter_next_noerr sb j [] (by simp))
          rw [twoDrive_step fuel _ _ hvalid hnext]
          rw [show TwoMergeIterator.keyOf ⟨⟨sa, i, []⟩, ⟨sb, j, []⟩⟩
              = (sa.get ⟨i, hi⟩).1 from by
            rw [TwoMergeIterator.keyOf, hpref, hble, if_pos rfl]
            exact hka]
          rw [show TwoMergeIterator.valueOf ⟨⟨sa, i, []⟩, ⟨sb, j, []⟩⟩
              = (sa.get ⟨i, hi⟩).2 from by
            rw [TwoMergeIterator.valueOf, hpref, hble, if_pos rfl]
            exact hva]
          rw [ih (i + 1) (j + 1) (by omega)]
          rw [hdropa, hdropb, merge2, if_pos heq]
        · by_cases hlt : bLt (sa.get ⟨i, hi⟩).1 (sb.get ⟨j, hj⟩).1 = true
          · have hble : bLe (MIter.key ⟨sa, i, []⟩) (MIter.key ⟨sb, j, []⟩)
                = true := by
              rw [hka, hkb]
              exact bLe_of_bLt hlt
            have hnext := twoMerge_next_aLt ⟨sa, i, []⟩ ⟨sb, j, []⟩ hA hB
              (by rw [hka, hkb]; exact hlt) ⟨sa, i + 1, []⟩
              (mIter_next_noerr sa i [] (by simp))
            rw [twoDrive_step fuel _ _ hvalid hnext]
            rw [show TwoMergeIterator.keyOf ⟨⟨sa, i, []⟩, ⟨sb, j, []⟩⟩
                = (sa.get ⟨i, hi⟩).1 from by
              rw [TwoMergeIterator.keyOf, hpref, hble, if_pos rfl]
              exact hka]
            rw [show TwoMergeIterator.valueOf ⟨⟨sa, i, []⟩, ⟨sb, j, []⟩⟩
                = (sa.get ⟨i, hi⟩).2 from by
              rw [TwoMergeIterator.valueOf, hpref, hble, if_pos rfl]
              exact hva]
            rw [ih (i + 1) j (by omega)]
            rw [hdropa, hdropb, merge2, if_neg heq, if_pos hlt, ← hdropb]
          · have hble0 : bLe (sa.get ⟨i, hi⟩).1 (sb.get ⟨j, hj⟩).1
                = false := by
              cases hb2 : bLe (sa.get ⟨i, hi⟩).1 (sb.get ⟨j, hj⟩).1 with
              | false => rfl
              | true =>
                rcases bLe_iff_lt_or_eq.mp hb2 with h1 | h1
                · exact absurd h1 hlt
                · exact absurd h1 heq
            have hgt : bLt (sb.get ⟨j, hj⟩).1 (sa.get ⟨i, hi⟩).1 = true :=
              bLt_total hble0
            have hble : bLe (MIter.key ⟨sa, i, []⟩) (MIter.key ⟨sb, j, []⟩)
                = false := by
              rw [hka, hkb]
              exact hble0
            have hnext := twoMerge_next_bLt ⟨sa, i, []⟩ ⟨sb, j, []⟩ hA hB
              (by rw [hka, hkb]; exact hgt) ⟨sb, j + 1, []⟩
              (mIter_next_noerr sb j [] (by simp))
            rw [twoDrive_step fuel _ _ hvalid hnext]
            rw [show TwoMergeIterator.keyOf ⟨⟨sa, i, []⟩, ⟨sb, j, []⟩⟩
                = (sb.get ⟨j, hj⟩).1 from by
              rw [TwoMergeIterator.keyOf, hpref, hble, if_neg (by simp)]
              exact hkb]
            rw [show TwoMergeIterator.valueOf ⟨⟨sa, i, []⟩, ⟨sb, j, []⟩⟩
                = (sb.get ⟨j, hj⟩).2 from by
              rw [TwoMergeIterator.valueOf, hpref, hble, if_neg (by simp)]
              exact hvb]
            rw [ih i (j + 1) (by omega)]
            rw [hdropa, hdropb, merge2, if_neg heq, if_neg hlt, ← hdropa]
      · -- B exhausted: the remaining output is A's tail
        have hB := mIter_isValid_false sb j [] hj
        have hpref := twoMerge_preferA_bInvalid ⟨sa, i, []⟩ ⟨sb, j, []⟩ hB
        have hvalid : TwoMergeIterator.isValid ⟨⟨sa, i, []⟩, ⟨sb, j, []⟩⟩
            = true := by
          rw [TwoMergeIterator.isValid]
          dsimp only
          rw [hA]
          rfl
        have hnext := twoMerge_next_bInvalid ⟨sa, i, []⟩ ⟨sb, j, []⟩ hB
          ⟨sa, i + 1, []⟩ (mIter_next_noerr sa i [] (by simp))
        rw [twoDrive_step fuel _ _ hvalid hnext]
        rw [show TwoMergeIterator.keyOf ⟨⟨sa, i, []⟩, ⟨sb, j, []⟩⟩
            = (sa.get ⟨i, hi⟩).1 from by
          rw [TwoMergeIterator.keyOf, hpref, hA, if_pos rfl]
          exact hka]
        rw [show TwoMergeIterator.valueOf ⟨⟨sa, i, []⟩, ⟨sb, j, []⟩⟩
            = (sa.get ⟨i, hi⟩).2 from by
          rw [TwoMergeIterator.valueOf, hpref, hA, if_pos rfl]
          exact hva]
        rw [ih (i + 1) j (by omega)]
        rw [List.drop_eq_nil_of_le (show sb.length ≤ j from by omega),
          merge2_nil_right, merge2_nil_right, hdropa]
    · have hA := mIter_isValid_false sa i [] hi
      by_cases hj : j < sb.length
      · -- A exhausted: the remaining output is B's tail
        have hB := mIter_isValid_true sb j [] hj
        have hdropb : sb.drop j = sb.get ⟨j, hj⟩ :: sb.drop (j + 1) := by
          rw [List.drop_eq_getElem_cons hj]
          rfl
        have hkb := mIter_key sb j [] hj
        have hvb := mIter_value sb j [] hj
        have hpref := twoMerge_preferA_aInvalid ⟨sa, i, []⟩ ⟨sb, j, []⟩ hA
        have hvalid : TwoMergeIterator.isValid ⟨⟨sa, i, []⟩, ⟨sb, j, []⟩⟩
            = true := by
          rw [TwoMergeIterator.isValid]
          dsimp only
          rw [hB, Bool.or_true]
        have hnext := twoMerge_next_aInvalid ⟨sa, i, []⟩ ⟨sb, j, []⟩ hA hB
          ⟨sb, j + 1, []⟩ (mIter_next_noerr sb j [] (by simp))
        rw [twoDrive_step fuel _ _ hvalid hnext]
        rw [show TwoMergeIterator.keyOf ⟨⟨sa, i, []⟩, ⟨sb, j, []⟩⟩
            = (sb.get ⟨j, hj⟩).1 from by
          rw [TwoMergeIterator.keyOf, hpref, if_neg (by simp)]
          exact hkb]
        rw [show TwoMergeIterator.valueOf ⟨⟨sa, i, []⟩, ⟨sb, j, []⟩⟩
            = (sb.get ⟨j, hj⟩).2 from by
          rw [TwoMergeIterator.valueOf, hpref, if_neg (by simp)]
          exact hvb]
        rw [ih i (j + 1) (by omega)]
        rw [List.drop_eq_nil_of_le (show sa.length ≤ i from by omega),
          merge2_nil_left, merge2_nil_left, hdropb]
      · -- both exhausted
        have hB := mIter_isValid_false sb j [] hj
        rw [twoDrive, if_neg (by
          rw [TwoMergeIterator.isValid]
          dsimp only
          rw [hA, hB]
          simp)]
        rw [List.drop_eq_nil_of_le (show sa.length ≤ i from by omega),
          List.drop_eq_nil_of_le (show sb.length ≤ j from by omega),
          merge2_nil_left]

theorem find?_none_of_all_gt (k : List Nat)
    (xs : List (List Nat × List Nat))
    (hall : ∀ e ∈ xs, bLt k e.1 = true) :
    xs.find? (fun e => decide (e.1 = k)) = none := by
  rw [List.find?_eq_none]
  intro e he
  simp only [decide_eq_true_eq]
  intro hek
  have hlt := hall e he
  rw [hek, bLt_irrefl] at hlt
  exact Bool.noConfusion hlt

theorem sorted_filter_key (k : List Nat) :
    ∀ (xs : List (List Nat × List Nat)), xs.Pairwise entLt →
      xs.filter (fun e => decide (e.1 = k))
        = (match xs.find? (fun e => decide (e.1 = k)) with
            | some e => [e]
            | none => []) := by
  intro xs
  induction xs with
  | nil => intro _; rfl
  | cons x t ih =>
    intro hp
    obtain ⟨hxall, hpt⟩ := List.pairwise_cons.mp hp
    by_cases hx : x.1 = k
    · have hpx : decide (x.1 = k) = true := by simp [hx]
      rw [show List.filter (fun e => decide (e.1 = k)) (x :: t)
          = x :: List.filter (fun e => decide (e.1 = k)) t from
        List.filter_cons_of_pos hpx]
      rw [@List.find?_cons_of_pos _ (fun e => decide (e.1 = k)) x t hpx]
      have hft : t.filter (fun e => decide (e.1 = k)) = [] := by
        rw [List.filter_eq_nil_iff]
        intro e he
        simp only [decide_eq_true_eq]
        intro hek
        have hlt := hxall e he
        rw [entLt, hx, hek, bLt_irrefl] at hlt
        exact Bool.noConfusion hlt
      rw [hft]
    · have hpx : ¬ decide (x.1 = k) = true := by simp [hx]
      rw [show List.filter (fun e => decide (e.1 = k)) (x :: t)
          = List.filter (fun e => decide (e.1 = k)) t from
        List.filter_cons_of_neg (by simpa using hpx)]
      rw [@List.find?_cons_of_neg _ (fun e => decide (e.1 = k)) x t hpx]
      exact ih hpt

theorem sorted_find_entry (k va : List Nat) :
    ∀ (xs : List (List Nat × List Nat)), xs.Pairwise entLt →
      (k, va) ∈ xs →
      xs.find? (fun e => decide (e.1 = k)) = some (k, va) := by
  intro xs
  induction xs with
  | nil =>
    intro _ hm
    exact absurd hm (List.not_mem_nil _)
  | cons x t ih =>
    intro hp hm
    obtain ⟨hxall, hpt⟩ := List.pairwise_cons.mp hp
    by_cases hx : x.1 = k
    · have hxe : x = (k, va) := by
        rcases List.mem_cons.mp hm with he | he
        · exact he.symm
        · exfalso
          have hlt := hxall _ he
          rw [entLt, hx] at hlt
          rw [show ((k, va) : List Nat × List Nat).1 = k from rfl,
            bLt_irrefl] at hlt
          exact Bool.noConfusion hlt
      rw [@List.find?_cons_of_pos _ (fun e => decide (e.1 = k)) x t
        (by simp [hx]), hxe]
    · rcases List.mem_cons.mp hm with he | he
      · exact absurd (congrArg Prod.fst he.symm) hx
      · rw [@List.find?_cons_of_neg _ (fun e => decide (e.1 = k)) x t
          (by simp [hx])]
        exact ih hpt he

theorem merge2_filter_key (k : List Nat) :
    ∀ (xs ys : List (List Nat × List Nat)), xs.Pairwise entLt →
      ys.Pairwise entLt →
      (merge2 xs ys).filter (fun e => decide (e.1 = k))
        = (match xs.find? (fun e => decide (e.1 = k)) with
           | some e => [e]
           | none =>
             match ys.find? (fun e => decide (e.1 = k)) with
             | some e => [e]
             | none => []) := by
  intro xs
  induction xs with
  | nil =>
    intro ys hx hy
    rw [merge2_nil_left, List.find?_nil]
    exact sorted_filter_key k ys hy
  | cons x xs ihx =>
    intro ys hx
    induction ys with
    | nil =>
      intro hy
      rw [merge2_nil_right, List.find?_nil]
      rw [sorted_filter_key k (x :: xs) hx]
    | cons y ys ihy =>
      intro hy
      obtain ⟨hxall, hxt⟩ := List.pairwise_cons.mp hx
      obtain ⟨hyall, hyt⟩ := List.pairwise_cons.mp hy
      rw [merge2]
      by_cases heq : x.1 = y.1
      · rw [if_pos heq]
        by_cases hxk : x.1 = k
        · have hpx : decide (x.1 = k) = true := by simp [hxk]
          rw [show List.filter (fun e => decide (e.1 = k))
              (x :: merge2 xs ys)
              = x :: List.filter (fun e => decide (e.1 = k)) (merge2 xs ys)
            from List.filter_cons_of_pos hpx]
          rw [ihx ys hxt hyt]
          have hfx : xs.find? (fun e => decide (e.1 = k)) = none :=
            find?_none_of_all_gt k xs (fun e he => by
              have hl2 := hxall e he
              rw [entLt, hxk] at hl2
              exact hl2)
          have hfy : ys.find? (fun e => decide (e.1 = k)) = none :=
            find?_none_of_all_gt k ys (fun e he => by
              have hl2 := hyall e he
              rw [entLt, ← heq, hxk] at hl2
              exact hl2)
          rw [hfx, hfy,
            @List.find?_cons_of_pos _ (fun e => decide (e.1 = k)) x xs hpx]
        · have hpx : ¬ decide (x.1 = k) = true := by simp [hxk]
          have hyk : ¬ decide (y.1 = k) = true := by
            simp only [decide_eq_true_eq]
            rw [← heq]
            exact hxk
          rw [show List.filter (fun e => decide (e.1 = k))
              (x :: merge2 xs ys)
              = List.filter (fun e => decide (e.1 = k)) (merge2 xs ys)
            from List.filter_cons_of_neg (by simpa using hpx)]
          rw [ihx ys hxt hyt,
            @List.find?_cons_of_neg _ (fun e => decide (e.1 = k)) x xs hpx,
            @List.find?_cons_of_neg _ (fun e => decide (e.1 = k)) y ys hyk]
      · rw [if_neg heq]
        by_cases hlt : bLt x.1 y.1 = true
        · rw [if_pos hlt]
          by_cases hxk : x.1 = k
          · have hpx : decide (x.1 = k) = true := by simp [hxk]
            rw [show List.filter (fun e => decide (e.1 = k))
                (x :: merge2 xs (y :: ys))
                = x :: List.filter (fun e => decide (e.1 = k))
                    (merge2 xs (y :: ys))
              from List.filter_cons_of_pos hpx]
            rw [ihx (y :: ys) hxt hy]
            have hfx : xs.find? (fun e => decide (e.1 = k)) = none :=
              find?_none_of_all_gt k xs (fun e he => by
                have hl2 := hxall e he
                rw [entLt, hxk] at hl2
                exact hl2)
            have hfy : (y :: ys).find? (fun e => decide (e.1 = k))
                = none :=
              find?_none_of_all_gt k (y :: ys) (fun e he => by
                rcases List.mem_cons.mp he with he1 | he1
                · rw [he1, ← hxk]
                  exact hlt
                · have h2 := hyall e he1
                  rw [entLt] at h2
                  exact bLt_trans (show bLt k y.1 = true from by
                    rw [← hxk]; exact hlt) h2)
            rw [hfx, hfy,
              @List.find?_cons_of_pos _ (fun e => decide (e.1 = k)) x xs
                hpx]
          · have hpx : ¬ decide (x.1 = k) = true := by simp [hxk]
            rw [show List.filter (fun e => decide (e.1 = k))
                (x :: merge2 xs (y :: ys))
                = List.filter (fun e => decide (e.1 = k))
                    (merge2 xs (y :: ys))
              from List.filter_cons_of_neg (by simpa using hpx)]
            rw [ihx (y :: ys) hxt hy,
              @List.find?_cons_of_neg _ (fun e => decide (e.1 = k)) x xs
                hpx]
        · rw [if_neg hlt]
          have hble0 : bLe x.1 y.1 = false := by
            cases hb2 : bLe x.1 y.1 with
            | false => rfl
            | true =>
              rcases bLe_iff_lt_or_eq.mp hb2 with h1 | h1
              · exact absurd h1 hlt
              · exact absurd h1 heq
          have hgt : bLt y.1 x.1 = true := bLt_total hble0
          by_cases hyk : y.1 = k
          · have hpy : decide (y.1 = k) = true := by simp [hyk]
            rw [show List.filter (fun e => decide (e.1 = k))
                (y :: merge2 (x :: xs) ys)
                = y :: List.filter (fun e => decide (e.1 = k))
                    (merge2 (x :: xs) ys)
              from List.filter_cons_of_pos hpy]
            rw [ihy hyt]
            have hfx : (x :: xs).find? (fun e => decide (e.1 = k))
                = none :=
              find?_none_of_all_gt k (x :: xs) (fun e he => by
                rcases List.mem_cons.mp he with he1 | he1
                · rw [he1, ← hyk]
                  exact hgt
                · have h2 := hxall e he1
                  rw [entLt] at h2
                  exact bLt_trans (show bLt k x.1 = true from by
                    rw [← hyk]; exact hgt) h2)
            have hfy : ys.find? (fun e => decide (e.1 = k)) = none :=
              find?_none_of_all_gt k ys (fun e he => by
                have h2 := hyall e he
                rw [entLt, hyk] at h2
                exact h2)
            rw [hfx, hfy,
              @List.find?_cons_of_pos _ (fun e => decide (e.1 = k)) y ys
                hpy]
          · have hpy : ¬ decide (y.1 = k) = true := by simp [hyk]
            rw [show List.filter (fun e => decide (e.1 = k))
                (y :: merge2 (x :: xs) ys)
                = List.filter (fun e => decide (e.1 = k))
                    (merge2 (x :: xs) ys)
              from List.filter_cons_of_neg (by simpa using hpy)]
            rw [ihy hyt,
              @List.find?_cons_of_neg _ (fun e => decide (e.1 = k)) y ys
                hpy]

/-- Claim C7: for every `TwoMergeIterator(A, B)` over sorted inputs, a key
present in both inputs is emitted exactly once, with A's value, by a full
scan; while both sides are valid, `key()` and `value()` come from A exactly
when A's current key is at most B's current key (`prefer_a`); and `next()`
on equal keys advances both sides. -/
theorem twoMergeIterator_prefers_a
    (sa sb : List (List Nat × List Nat))
    (hsa : StrictSorted (entryKeys sa)) (hsb : StrictSorted (entryKeys sb))
    (k va : List Nat) (hmemA : (k, va) ∈ sa) (hmemB : k ∈ entryKeys sb)
    (a b : MIter) :
    (twoDrive (sa.length + sb.length + 1)
        ⟨⟨sa, 0, []⟩, ⟨sb, 0, []⟩⟩).filter
        (fun e => decide (e.1 = k)) = [(k, va)]
    ∧ (a.isValid = true → b.isValid = true →
        ((TwoMergeIterator.preferA ⟨a, b⟩ = true ↔ bLe a.key b.key = true) ∧
          TwoMergeIterator.keyOf ⟨a, b⟩
            = (if bLe a.key b.key = true then a.key else b.key) ∧
          TwoMergeIterator.valueOf ⟨a, b⟩
            = (if bLe a.key b.key = true then a.value else b.value)))
    ∧ (a.isValid = true → b.isValid = true → a.key = b.key →
        ∀ a2 b2, a.next = Except.ok a2 → b.next = Except.ok b2 →
          TwoMergeIterator.next ⟨a, b⟩ = Except.ok ⟨a2, b2⟩) := by
  refine ⟨?_, ?_, ?_⟩
  · rw [twoDrive_merge2 sa sb (sa.length + sb.length + 1) 0 0 (by omega)]
    rw [List.drop_zero, List.drop_zero]
    rw [merge2_filter_key k sa sb ((strictSorted_entryKeys_iff sa).mp hsa)
      ((strictSorted_entryKeys_iff sb).mp hsb)]
    rw [sorted_find_entry k va sa ((strictSorted_entryKeys_iff sa).mp hsa)
      hmemA]
  · intro ha hb
    have hpref := twoMerge_preferA_both a b ha hb
    refine ⟨?_, ?_, ?_⟩
    · rw [hpref]
    · rw [TwoMergeIterator.keyOf, hpref]
    · rw [TwoMergeIterator.valueOf, hpref]
  · intro ha hb hk a2 b2 han hbn
    exact twoMerge_next_eqKeys a b ha hb hk a2 b2 han hbn

theorem twoMergeIterator_prefers_a_witness :
    (twoDrive (([([97], [49]), ([98], [50])] :
          List (List Nat × List Nat)).length
        + ([([98], [60]), ([99], [70])] :
          List (List Nat × List Nat)).length + 1)
        ⟨⟨[([97], [49]), ([98], [50])], 0, []⟩,
          ⟨[([98], [60]), ([99], [70])], 0, []⟩⟩).filter
        (fun e => decide (e.1 = [98])) = [([98], [50])]
    ∧ ((MIter.isValid ⟨[([98], [50])], 0, []⟩) = true →
        (MIter.isValid ⟨[([98], [60])], 0, []⟩) = true →
        ((TwoMergeIterator.preferA ⟨⟨[([98], [50])], 0, []⟩,
            ⟨[([98], [60])], 0, []⟩⟩ = true
          ↔ bLe (MIter.key ⟨[([98], [50])], 0, []⟩)
              (MIter.key ⟨[([98], [60])], 0, []⟩) = true) ∧
          TwoMergeIterator.keyOf ⟨⟨[([98], [50])], 0, []⟩,
            ⟨[([98], [60])], 0, []⟩⟩
            = (if bLe (MIter.key ⟨[([98], [50])], 0, []⟩)
                  (MIter.key ⟨[([98], [60])], 0, []⟩) = true
               then MIter.key ⟨[([98], [50])], 0, []⟩
               else MIter.key ⟨[([98], [60])], 0, []⟩) ∧
          TwoMergeIterator.valueOf ⟨⟨[([98], [50])], 0, []⟩,
            ⟨[([98], [60])], 0, []⟩⟩
            = (if bLe (MIter.key ⟨[([98], [50])], 0, []⟩)
                  (MIter.key ⟨[([98], [60])], 0, []⟩) = true
               then MIter.value ⟨[([98], [50])], 0, []⟩
               else MIter.value ⟨[([98], [60])], 0, []⟩)))
    ∧ ((MIter.isValid ⟨[([98], [50])], 0, []⟩) = true →
        (MIter.isValid ⟨[([98], [60])], 0, []⟩) = true →
        MIter.key ⟨[([98], [50])], 0, []⟩
          = MIter.key ⟨[([98], [60])], 0, []⟩ →
        ∀ a2 b2, MIter.next ⟨[([98], [50])], 0, []⟩ = Except.ok a2 →
          MIter.next ⟨[([98], [60])], 0, []⟩ = Except.ok b2 →
          TwoMergeIterator.next ⟨⟨[([98], [50])], 0, []⟩,
            ⟨[([98], [60])], 0, []⟩⟩ = Except.ok ⟨a2, b2⟩) :=
  twoMergeIterator_prefers_a
    [([97], [49]), ([98], [50])] [([98], [60]), ([99], [70])]
    (by rw [StrictSorted]; decide) (by rw [StrictSorted]; decide)
    [98] [50] (by decide) (by decide)
    ⟨[([98], [50])], 0, []⟩ ⟨[([98], [60])], 0, []⟩

/-! ### MergeIterator (`src/iterators/merge_iterator.rs`) -/

/-- `HeapWrapper`: an input index and its iterator. -/
structure HW where
  idx : Nat
  it : MIter
  deriving Repr, DecidableEq

/-- The natural (non-reversed) wrapper order used by the heap: by current
key, ties broken by input index.  The Rust `Ord` reverses this so that
`BinaryHeap` (a max-heap) acts as a min-heap. -/
def hwLeb (a b : HW) : Bool :=
  if bLt a.it.key b.it.key = true then true
  else if a.it.key = b.it.key then decide (a.idx ≤ b.idx)
  else false

/-- Strict version of the same order (what `*current < *wrap_iter`
compares, after undoing the reversal). -/
def hwLtb (a b : HW) : Bool :=
  if bLt a.it.key b.it.key = true then true
  else if a.it.key = b.it.key then decide (a.idx < b.idx)
  else false

theorem hwLeb_iff (a b : HW) : hwLeb a b = true ↔
    (bLt a.it.key b.it.key = true ∨
      (a.it.key = b.it.key ∧ a.idx ≤ b.idx)) := by
  rw [hwLeb]
  by_cases h1 : bLt a.it.key b.it.key = true
  · rw [if_pos h1]
    simp [h1]
  · rw [if_neg h1]
    by_cases h2 : a.it.key = b.it.key
    · rw [if_pos h2]
      simp [h1, h2, bLt_irrefl]
    · rw [if_neg h2]
      simp [h1, h2]

theorem hwLeb_refl (a : HW) : hwLeb a a = true := by
  rw [hwLeb_iff]
  right
  exact ⟨rfl, le_refl _⟩

theorem hwLeb_trans {a b c : HW} (hab : hwLeb a b = true)
    (hbc : hwLeb b c = true) : hwLeb a c = true := by
  rw [hwLeb_iff] at hab hbc ⊢
  rcases hab with h1 | ⟨h1, h1i⟩
  · rcases hbc with h2 | ⟨h2, h2i⟩
    · exact Or.inl (bLt_trans h1 h2)
    · exact Or.inl (h2 ▸ h1)
  · rcases hbc with h2 | ⟨h2, h2i⟩
    · exact Or.inl (h1 ▸ h2)
    · exact Or.inr ⟨h1.trans h2, h1i.trans h2i⟩

theorem hwLeb_total {a b : HW} (h : hwLeb a b = false) :
    hwLeb b a = true := by
  rw [hwLeb_iff]
  have hna : ¬ (bLt a.it.key b.it.key = true ∨
      (a.it.key = b.it.key ∧ a.idx ≤ b.idx)) := by
    intro hc
    rw [← hwLeb_iff] at hc
    rw [h] at hc
    exact Bool.noConfusion hc
  push_neg at hna
  obtain ⟨hnlt, hni⟩ := hna
  by_cases heq : a.it.key = b.it.key
  · right
    exact ⟨heq.symm, le_of_lt (hni heq)⟩
  · left
    apply bLt_total
    cases hble : bLe a.it.key b.it.key with
    | false => rfl
    | true =>
      rcases bLe_iff_lt_or_eq.mp hble with h1 | h1
      · exact absurd h1 hnlt
      · exact absurd h1 heq

/-- `BinaryHeap::peek_mut`/`pop` model: remove the leftmost minimal
wrapper, keeping the others. -/
def popMin : List HW → Option (HW × List HW)
  | [] => none
  | w :: rest =>
    match popMin rest with
    | none => some (w, [])
    | some (m, others) =>
      if hwLeb w m = true then some (w, rest) else some (m, w :: others)

theorem popMin_none (l : List HW) : popMin l = none ↔ l = [] := by
  cases l with
  | nil => simp [popMin]
  | cons w rest =>
    constructor
    · intro h2
      rw [popMin] at h2
      cases h3 : popMin rest with
      | none =>
        rw [h3] at h2
        exact Option.noConfusion h2
      | some p =>
        obtain ⟨m, others⟩ := p
        rw [h3] at h2
        dsimp only at h2
        by_cases hwm : hwLeb w m = true
        · rw [if_pos hwm] at h2
          exact Option.noConfusion h2
        · rw [if_neg hwm] at h2
          exact Option.noConfusion h2
    · intro h2
      exact List.noConfusion h2

theorem popMin_perm (l : List HW) (w : HW) (rest : List HW)
    (h : popMin l = some (w, rest)) : (w :: rest).Perm l := by
  induction l generalizing w rest with
  | nil => exact Option.noConfusion h
  | cons x t ih =>
    rw [popMin] at h
    cases h3 : popMin t with
    | none =>
      have ht : t = [] := (popMin_none t).mp h3
      rw [h3] at h
      simp only [Option.some.injEq, Prod.mk.injEq] at h
      obtain ⟨hw, hrest⟩ := h
      subst hw
      subst hrest
      subst ht
      exact List.Perm.refl _
    | some p =>
      obtain ⟨m, others⟩ := p
      rw [h3] at h
      dsimp only at h
      have ihp := ih m others h3
      by_cases hwm : hwLeb x m = true
      · rw [if_pos hwm] at h
        simp only [Option.some.injEq, Prod.mk.injEq] at h
        obtain ⟨hw, hrest⟩ := h
        subst hw
        subst hrest
        exact List.Perm.refl _
      · rw [if_neg hwm] at h
        simp only [Option.some.injEq, Prod.mk.injEq] at h
        obtain ⟨hw, hrest⟩ := h
        subst hw
        subst hrest
        exact (List.Perm.swap x m others).trans (List.Perm.cons x ihp)

theorem popMin_min (l : List HW) (w : HW) (rest : List HW)
    (h : popMin l = some (w, rest)) : ∀ x ∈ l, hwLeb w x = true := by
  induction l generalizing w rest with
  | nil => exact Option.noConfusion h
  | cons x t ih =>
    rw [popMin] at h
    cases h3 : popMin t with
    | none =>
      have ht : t = [] := (popMin_none t).mp h3
      rw [h3] at h
      simp only [Option.some.injEq, Prod.mk.injEq] at h
      obtain ⟨hw, hrest⟩ := h
      subst hw
      subst ht
      intro y hy
      simp only [List.mem_singleton] at hy
      subst hy
      exact hwLeb_refl _
    | some p =>
      obtain ⟨m, others⟩ := p
      rw [h3] at h
      dsimp only at h
      have ihp := ih m others h3
      by_cases hwm : hwLeb x m = true
      · rw [if_pos hwm] at h
        simp only [Option.some.injEq, Prod.mk.injEq] at h
        obtain ⟨hw, hrest⟩ := h
        subst hw
        subst hrest
        intro y hy
        rcases List.mem_cons.mp hy with hy1 | hy1
        · subst hy1
          exact hwLeb_refl _
        · exact hwLeb_trans hwm (ihp y hy1)
      · rw [if_neg hwm] at h
        simp only [Option.some.injEq, Prod.mk.injEq] at h
        obtain ⟨hw, hrest⟩ := h
        subst hw
        subst hrest
        intro y hy
        rcases List.mem_cons.mp hy with hy1 | hy1
        · subst hy1
          exact hwLeb_total (by
            cases h4 : hwLeb y m with
            | false => rfl
            | true => exact absurd h4 hwm)
        · exact ihp y hy1

def hwMeasure (w : HW) : Nat := w.it.entries.length - w.it.pos

def heapMeasure (l : List HW) : Nat := (l.map hwMeasure).sum + l.length

theorem heapMeasure_perm (l1 l2 : List HW) (h : l1.Perm l2) :
    heapMeasure l1 = heapMeasure l2 := by
  rw [heapMeasure, heapMeasure, (h.map hwMeasure).sum_eq, h.length_eq]

theorem mIter_next_ok_inv (it it2 : MIter) (h : it.next = Except.ok it2) :
    it2 = ⟨it.entries, it.pos + 1, it.errOn⟩ := by
  rw [MIter.next] at h
  by_cases he : it.pos ∈ it.errOn
  · rw [if_pos he] at h
    exact Except.noConfusion h
  · rw [if_neg he] at h
    have h2 := Except.ok.inj h
    exact h2.symm

/-- The dedup loop at the top of `MergeIterator::next` (lines 92-123):
while the heap's top has the current key, advance it; on error pop it and
propagate the error (`Except.error` carries the heap after the removal);
pop it if it went invalid; stop at the first different key. -/
def dedupLoop (c : HW) (l : List HW) : Except (List HW) (List HW) :=
  match hp : popMin l with
  | none => Except.ok l
  | some (w, rest) =>
    if w.it.key = c.it.key then
      match hn : w.it.next with
      | Except.error _ => Except.error rest
      | Except.ok w2 =>
        if hv : w2.isValid = false then dedupLoop c rest
        else dedupLoop c (⟨w.idx, w2⟩ :: rest)
    else Except.ok l
termination_by heapMeasure l
decreasing_by
  · have hperm := heapMeasure_perm _ _ (popMin_perm l w rest hp)
    rw [heapMeasure, List.map_cons, List.sum_cons, List.length_cons]
      at hperm
    rw [heapMeasure] at hperm ⊢
    rw [heapMeasure]
    omega
  · have hperm := heapMeasure_perm _ _ (popMin_perm l w rest hp)
    rw [heapMeasure, List.map_cons, List.sum_cons, List.length_cons]
      at hperm
    have hw2 := mIter_next_ok_inv w.it w2 hn
    have hvpos : w2.pos < w2.entries.length := by
      cases hvb : w2.isValid with
      | false => exact absurd hvb hv
      | true =>
        rw [MIter.isValid] at hvb
        simp only [decide_eq_true_eq] at hvb
        exact hvb
    rw [heapMeasure, List.map_cons, List.sum_cons, List.length_cons]
    rw [heapMeasure] at hperm ⊢
    have hm2 : hwMeasure ⟨w.idx, w2⟩ < hwMeasure w := by
      rw [hwMeasure, hwMeasure, hw2]
      dsimp only
      rw [hw2] at hvpos
      dsimp only at hvpos
      omega
    omega

/-- The `MergeIterator` state: the heap contents and the current wrapper. -/
structure MergeIterator where
  iters : List HW
  current : Option HW
  deriving Repr, DecidableEq

/-- The result of `MergeIterator::next`: `Ok(())` or an error, each with
the state the call leaves behind. -/
inductive NextRes where
  | ok (st : MergeIterator)
  | err (st : MergeIterator)
  deriving Repr, DecidableEq

/-- `StorageIterator::is_valid` for `MergeIterator`. -/
def MergeIterator.isValid (st : MergeIterator) : Bool :=
  match st.current with
  | some w => w.it.isValid
  | none => false

/-- `StorageIterator::key` for `MergeIterator`. -/
def MergeIterator.keyOf (st : MergeIterator) : List Nat :=
  match st.current with
  | some w => w.it.key
  | none => []

/-- `StorageIterator::value` for `MergeIterator`. -/
def MergeIterator.valueOf (st : MergeIterator) : List Nat :=
  match st.current with
  | some w => w.it.value
  | none => []

/-- `MergeIterator::next`; `none` models the `unwrap` panic on a state
with no current wrapper. -/
def mergeNext (st : MergeIterator) : Option NextRes :=
  match st.current with
  | none => none
  | some c =>
    match dedupLoop c st.iters with
    | Except.error rest => some (NextRes.err ⟨rest, some c⟩)
    | Except.ok hp =>
      match c.it.next with
      | Except.error _ => some (NextRes.err ⟨hp, some c⟩)
      | Except.ok cit2 =>
        if cit2.isValid = false then
          match popMin hp with
          | some (w, rest2) => some (NextRes.ok ⟨rest2, some w⟩)
          | none => some (NextRes.ok ⟨hp, some ⟨c.idx, cit2⟩⟩)
        else
          match popMin hp with
          | none => some (NextRes.ok ⟨hp, some ⟨c.idx, cit2⟩⟩)
          | some (w, rest2) =>
            if hwLtb w ⟨c.idx, cit2⟩ = true then
              some (NextRes.ok ⟨⟨c.idx, cit2⟩ :: rest2, some w⟩)
            else some (NextRes.ok ⟨hp, some ⟨c.idx, cit2⟩⟩)

/-- `MergeIterator::create`: push the valid inputs onto the heap (keeping
the last invalid one as current while the heap is empty), then pop the
minimum as current if any input was valid. -/
def mergeCreate (its : List MIter) : MergeIterator :=
  match (its.enum.foldl (fun (acc : List HW × Option HW) p =>
      if p.2.isValid = true then (acc.1 ++ [⟨p.1, p.2⟩], acc.2)
      else if acc.1.isEmpty then (acc.1, some ⟨0, p.2⟩)
      else acc) ([], none)) with
  | (heap, cur) =>
    match popMin heap with
    | some (w, rest) => ⟨rest, some w⟩
    | none => ⟨heap, cur⟩

/-- Driving a `MergeIterator` with `next` until it is invalid. -/
def mergeDrive : Nat → MergeIterator → List (List Nat × List Nat)
  | 0, _ => []
  | fuel + 1, st =>
    if st.isValid = true then
      (st.keyOf, st.valueOf) ::
        (match mergeNext st with
          | some (NextRes.ok st2) => mergeDrive fuel st2
          | _ => [])
    else []

theorem dedupLoop_nil_eq (c : HW) (l : List HW) (hp : popMin l = none) :
    dedupLoop c l = Except.ok l := by
  rw [dedupLoop]
  split
  · rfl
  · rename_i w rest hpn
    rw [hp] at hpn
    exact Option.noConfusion hpn

theorem dedupLoop_break_eq (c w : HW) (l rest : List HW)
    (hp : popMin l = some (w, rest)) (hne : ¬ w.it.key = c.it.key) :
    dedupLoop c l = Except.ok l := by
  rw [dedupLoop]
  split
  · rfl
  · rename_i w' rest' hpn
    rw [hp] at hpn
    have hw : w = w' := (Prod.mk.injEq _ _ _ _).mp (Option.some.inj hpn)
      |>.1
    rw [if_neg (by rw [← hw]; exact hne)]

theorem dedupLoop_err_eq (c w : HW) (l rest : List HW)
    (hp : popMin l = some (w, rest)) (hk : w.it.key = c.it.key)
    (hn : w.it.next = Except.error ()) :
    dedupLoop c l = Except.error rest := by
  rw [dedupLoop]
  split
  · rename_i hpn
    rw [hp] at hpn
    exact Option.noConfusion hpn
  · rename_i w' rest' hpn
    rw [hp] at hpn
    have hinj := Option.some.inj hpn
    have hw : w = w' := ((Prod.mk.injEq _ _ _ _).mp hinj).1
    have hr : rest = rest' := ((Prod.mk.injEq _ _ _ _).mp hinj).2
    subst hw
    subst hr
    rw [if_pos hk]
    split
    · rfl
    · rename_i w2 hn2
      rw [hn] at hn2
      exact Except.noConfusion hn2

theorem dedupLoop_pop_eq (c w : HW) (l rest : List HW) (w2 : MIter)
    (hp : popMin l = some (w, rest)) (hk : w.it.key = c.it.key)
    (hn : w.it.next = Except.ok w2) (hv : w2.isValid = false) :
    dedupLoop c l = dedupLoop c rest := by
  rw [dedupLoop]
  split
  · rename_i hpn
    rw [hp] at hpn
    exact Option.noConfusion hpn
  · rename_i w' rest' hpn
    rw [hp] at hpn
    have hinj := Option.some.inj hpn
    have hw : w = w' := ((Prod.mk.injEq _ _ _ _).mp hinj).1
    have hr : rest = rest' := ((Prod.mk.injEq _ _ _ _).mp hinj).2
    subst hw
    subst hr
    rw [if_pos hk]
    split
    · rename_i hn2
      rw [hn] at hn2
      exact Except.noConfusion hn2
    · rename_i w2' hn2
      rw [hn] at hn2
      have hw2 : w2 = w2' := Except.ok.inj hn2
      subst hw2
      rw [dif_pos hv]

theorem dedupLoop_adv_eq (c w : HW) (l rest : List HW) (w2 : MIter)
    (hp : popMin l = some (w, rest)) (hk : w.it.key = c.it.key)
    (hn : w.it.next = Except.ok w2) (hv : ¬ w2.isValid = false) :
    dedupLoop c l = dedupLoop c (⟨w.idx, w2⟩ :: rest) := by
  rw [dedupLoop]
  split
  · rename_i hpn
    rw [hp] at hpn
    exact Option.noConfusion hpn
  · rename_i w' rest' hpn
    rw [hp] at hpn
    have hinj := Option.some.inj hpn
    have hw : w = w' := ((Prod.mk.injEq _ _ _ _).mp hinj).1
    have hr : rest = rest' := ((Prod.mk.injEq _ _ _ _).mp hinj).2
    subst hw
    subst hr
    rw [if_pos hk]
    split
    · rename_i hn2
      rw [hn] at hn2
      exact Except.noConfusion hn2
    · rename_i w2' hn2
      rw [hn] at hn2
      have hw2 : w2 = w2' := Except.ok.inj hn2
      subst hw2
      rw [dif_neg hv]

theorem dedupLoop_err_char (c : HW) :
    ∀ (n : Nat), ∀ (l rest : List HW), heapMeasure l ≤ n →
      (l.map HW.idx).Nodup →
      dedupLoop c l = Except.error rest →
      ∃ w : HW, w.it.key = c.it.key ∧ w.it.next = Except.error () ∧
        w.idx ∈ l.map HW.idx ∧ (rest.map HW.idx).Nodup ∧
        w.idx ∉ rest.map HW.idx ∧ rest.length < l.length := by
  intro n
  induction n with
  | zero =>
    intro l rest hm hnd herr
    have hl : l = [] := by
      rw [heapMeasure] at hm
      cases l with
      | nil => rfl
      | cons x t =>
        rw [List.length_cons] at hm
        omega
    subst hl
    rw [dedupLoop_nil_eq c [] rfl] at herr
    exact Except.noConfusion herr
  | succ n ih =>
    intro l rest hm hnd herr
    cases hp : popMin l with
    | none =>
      rw [dedupLoop_nil_eq c l hp] at herr
      exact Except.noConfusion herr
    | some p =>
      obtain ⟨w, rest0⟩ := p
      have hperm := popMin_perm l w rest0 hp
      have hpermidx : ((w :: rest0).map HW.idx).Perm (l.map HW.idx) :=
        hperm.map HW.idx
      have hnd0 := hpermidx.nodup_iff.mpr hnd
      rw [List.map_cons] at hnd0
      obtain ⟨hwnotin, hndrest⟩ := List.nodup_cons.mp hnd0
      have hlenl : rest0.length + 1 = l.length := by
        have h1 := hperm.length_eq
        rw [List.length_cons] at h1
        omega
      have hmeq := heapMeasure_perm _ _ hperm
      rw [heapMeasure, List.map_cons, List.sum_cons, List.length_cons]
        at hmeq
      rw [heapMeasure] at hmeq
      have hms : heapMeasure rest0 ≤ n := by
      -- placeholder
        rw [heapMeasure]
        rw [heapMeasure] at hm
        omega
      by_cases hk : w.it.key = c.it.key
      · cases hn : w.it.next with
        | error e =>
          rw [dedupLoop_err_eq c w l rest0 hp hk (by rw [hn])] at herr
          have hre : rest = rest0 := (Except.error.inj herr).symm
          subst hre
          refine ⟨w, hk, by rw [hn], ?_, hndrest, hwnotin, by omega⟩
          exact hpermidx.subset (by
            rw [List.map_cons]
            exact List.mem_cons_self _ _)
        | ok w2 =>
          by_cases hv : w2.isValid = false
          · rw [dedupLoop_pop_eq c w l rest0 w2 hp hk hn hv] at herr
            obtain ⟨w3, h1, h2, h3, h4, h5, h6⟩ :=
              ih rest0 rest hms hndrest herr
            refine ⟨w3, h1, h2, ?_, h4, h5, by omega⟩
            exact hpermidx.subset (by
              rw [List.map_cons]
              exact List.mem_cons_of_mem _ h3)
          · rw [dedupLoop_adv_eq c w l rest0 w2 hp hk hn hv] at herr
            have hnd2 : (((⟨w.idx, w2⟩ : HW) :: rest0).map HW.idx).Nodup :=
              by
              rw [List.map_cons]
              exact List.nodup_cons.mpr ⟨hwnotin, hndrest⟩
            have hw2 := mIter_next_ok_inv w.it w2 hn
            have hvpos : w2.pos < w2.entries.length := by
              cases hvb : w2.isValid with
              | false => exact absurd hvb hv
              | true =>
                rw [MIter.isValid] at hvb
                simp only [decide_eq_true_eq] at hvb
                exact hvb
            have hms2 : heapMeasure ((⟨w.idx, w2⟩ : HW) :: rest0) ≤ n := by
              rw [heapMeasure, List.map_cons, List.sum_cons,
                List.length_cons]
              rw [heapMeasure] at hm
              have hm2 : hwMeasure ⟨w.idx, w2⟩ < hwMeasure w := by
                rw [hwMeasure, hwMeasure, hw2]
                dsimp only
                rw [hw2] at hvpos
                dsimp only at hvpos
                omega
              rw [heapMeasure] at hms
              omega
            obtain ⟨w3, h1, h2, h3, h4, h5, h6⟩ :=
              ih _ rest hms2 hnd2 herr
            refine ⟨w3, h1, h2, ?_, h4, h5, ?_⟩
            · rw [List.map_cons] at h3
              exact hpermidx.subset (by
                rw [List.map_cons]
                exact h3)
            · rw [List.length_cons] at h6
              omega
      · rw [dedupLoop_break_eq c w l rest0 hp hk] at herr
        exact Except.noConfusion herr

/-- Claim C8: if, during `MergeIterator::next`, advancing a heap iterator
whose key equals the current key returns an error, then that iterator is
removed from the merge set (its index disappears from the heap and the
heap shrinks) and `next` returns that error immediately, leaving the
current slot -- and hence the iterator's current key and value --
unchanged. -/
theorem mergeIterator_error_propagation
    (iters : List HW) (c : HW) (rest : List HW)
    (hnodup : (iters.map HW.idx).Nodup)
    (herr : dedupLoop c iters = Except.error rest) :
    mergeNext ⟨iters, some c⟩ = some (NextRes.err ⟨rest, some c⟩)
    ∧ MergeIterator.keyOf ⟨rest, some c⟩
        = MergeIterator.keyOf ⟨iters, some c⟩
    ∧ MergeIterator.valueOf ⟨rest, some c⟩
        = MergeIterator.valueOf ⟨iters, some c⟩
    ∧ ∃ w : HW, w.it.key = c.it.key ∧ w.it.next = Except.error () ∧
        w.idx ∈ iters.map HW.idx ∧ w.idx ∉ rest.map HW.idx ∧
        rest.length < iters.length := by
  refine ⟨?_, rfl, rfl, ?_⟩
  · rw [mergeNext]
    dsimp only
    rw [herr]
  · obtain ⟨w, h1, h2, h3, h4, h5, h6⟩ :=
      dedupLoop_err_char c (heapMeasure iters) iters rest (le_refl _)
        hnodup herr
    exact ⟨w, h1, h2, h3, h5, h6⟩

theorem mergeIterator_error_propagation_witness :
    mergeNext ⟨[⟨1, ⟨[([97], [60]), ([98], [61])], 0, [0]⟩⟩],
        some ⟨0, ⟨[([97], [49]), ([99], [50])], 0, []⟩⟩⟩
      = some (NextRes.err ⟨[],
          some ⟨0, ⟨[([97], [49]), ([99], [50])], 0, []⟩⟩⟩)
    ∧ MergeIterator.keyOf ⟨[],
          some ⟨0, ⟨[([97], [49]), ([99], [50])], 0, []⟩⟩⟩
        = MergeIterator.keyOf
            ⟨[⟨1, ⟨[([97], [60]), ([98], [61])], 0, [0]⟩⟩],
              some ⟨0, ⟨[([97], [49]), ([99], [50])], 0, []⟩⟩⟩
    ∧ MergeIterator.valueOf ⟨[],
          some ⟨0, ⟨[([97], [49]), ([99], [50])], 0, []⟩⟩⟩
        = MergeIterator.valueOf
            ⟨[⟨1, ⟨[([97], [60]), ([98], [61])], 0, [0]⟩⟩],
              some ⟨0, ⟨[([97], [49]), ([99], [50])], 0, []⟩⟩⟩
    ∧ ∃ w : HW, w.it.key
          = (⟨0, ⟨[([97], [49]), ([99], [50])], 0, []⟩⟩ : HW).it.key ∧
        w.it.next = Except.error () ∧
        w.idx ∈ ([⟨1, ⟨[([97], [60]), ([98], [61])], 0, [0]⟩⟩] :
            List HW).map HW.idx ∧
        w.idx ∉ (([] : List HW)).map HW.idx ∧
        ([] : List HW).length
          < ([⟨1, ⟨[([97], [60]), ([98], [61])], 0, [0]⟩⟩] :
              List HW).length :=
  mergeIterator_error_propagation
    [⟨1, ⟨[([97], [60]), ([98], [61])], 0, [0]⟩⟩]
    ⟨0, ⟨[([97], [49]), ([99], [50])], 0, []⟩⟩ []
    (by decide)
    (dedupLoop_err_eq _ ⟨1, ⟨[([97], [60]), ([98], [61])], 0, [0]⟩⟩ _ []
      (by rfl) (by rfl) (by rfl))

theorem countLt_pos_key_ge (keys : List (List Nat)) (k : List Nat)
    (hs : StrictSorted keys) (hp : countLt keys k < keys.length) :
    bLe k (keys.get ⟨countLt keys k, hp⟩) = true := by
  have h1 := sorted_lt_iff_countLt keys k hs (countLt keys k) hp
  have h2 : bLt (keys.get ⟨countLt keys k, hp⟩) k = false := by
    cases h3 : bLt (keys.get ⟨countLt keys k, hp⟩) k with
    | false => rfl
    | true => exact absurd (h1.mp h3) (by omega)
  exact not_bLt_iff_bLe.mp h2

theorem mem_key_at_countLt (keys : List (List Nat)) (k : List Nat)
    (hs : StrictSorted keys) (hm : k ∈ keys) :
    ∃ hp : countLt keys k < keys.length,
      keys.get ⟨countLt keys k, hp⟩ = k ∧
      countLe keys k = countLt keys k + 1 := by
  obtain ⟨⟨j, hj⟩, hjk⟩ := List.mem_iff_get.mp hm
  obtain ⟨hcj, hle⟩ := sorted_eq_key_counts hs hjk
  subst hcj
  exact ⟨hj, hjk, hle⟩

theorem key_gt_at_ge_countLe (keys : List (List Nat)) (k : List Nat)
    (hs : StrictSorted keys) (j : Nat) (hj : j < keys.length)
    (hge : countLe keys k ≤ j) :
    bLt k (keys.get ⟨j, hj⟩) = true := by
  have h1 := sorted_le_iff_countLe keys k hs j hj
  have h2 : bLe (keys.get ⟨j, hj⟩) k = false := by
    cases h3 : bLe (keys.get ⟨j, hj⟩) k with
    | false => rfl
    | true => exact absurd (h1.mp h3) (by omega)
  exact bLt_total h2

theorem key_le_at_lt_countLe (keys : List (List Nat)) (k : List Nat)
    (hs : StrictSorted keys) (j : Nat) (hj : j < keys.length)
    (hlt : j < countLe keys k) :
    bLe (keys.get ⟨j, hj⟩) k = true :=
  (sorted_le_iff_countLe keys k hs j hj).mpr hlt

theorem countLt_next_eq_countLe (keys : List (List Nat)) (k k2 : List Nat)
    (hs : StrictSorted keys) (hk2 : bLt k k2 = true)
    (hbound : ∀ hj : countLe keys k < keys.length,
      bLe k2 (keys.get ⟨countLe keys k, hj⟩) = true) :
    countLt keys k2 = countLe keys k := by
  have hlelen := countLe_le_length keys k
  have hlt2len := countLt_le_countLe keys k2
  have hle2len := countLe_le_length keys k2
  by_cases hcmp : countLt keys k2 ≤ countLe keys k
  · -- show equality via the lower bound countLe k ≤ countLt k2
    by_cases hz : countLe keys k = 0
    · omega
    · have hj : countLe keys k - 1 < keys.length := by omega
      have h1 := key_le_at_lt_countLe keys k hs (countLe keys k - 1) hj
        (by omega)
      have h2 : bLt (keys.get ⟨countLe keys k - 1, hj⟩) k2 = true :=
        bLt_of_bLe_of_bLt h1 hk2
      have h3 := (sorted_lt_iff_countLt keys k2 hs (countLe keys k - 1)
        hj).mp h2
      omega
  · exfalso
    have hj : countLe keys k < keys.length := by
      have := countLt_le_countLe keys k2
      have := countLe_le_length keys k2
      omega
    have h1 := hbound hj
    have h2 := (sorted_lt_iff_countLt keys k2 hs (countLe keys k) hj).mpr
      (by omega)
    have h3 := bLt_of_bLt_of_bLe h2 h1
    rw [bLt_irrefl] at h3
    exact Bool.noConfusion h3

theorem strictSorted_get_lt (keys : List (List Nat))
    (hs : StrictSorted keys) (i j : Nat) (hi : i < keys.length)
    (hj : j < keys.length) (hij : i < j) :
    bLt (keys.get ⟨i, hi⟩) (keys.get ⟨j, hj⟩) = true := by
  rw [StrictSorted, List.pairwise_iff_get] at hs
  exact hs ⟨i, hi⟩ ⟨j, hj⟩ hij

theorem hwLeb_key_le {a b : HW} (h : hwLeb a b = true) :
    bLe a.it.key b.it.key = true := by
  rcases (hwLeb_iff a b).mp h with h1 | ⟨h1, _⟩
  · exact bLe_of_bLt h1
  · rw [h1]
    exact bLe_refl _

theorem hwLtb_iff (a b : HW) : hwLtb a b = true ↔
    (bLt a.it.key b.it.key = true ∨
      (a.it.key = b.it.key ∧ a.idx < b.idx)) := by
  rw [hwLtb]
  by_cases h1 : bLt a.it.key b.it.key = true
  · rw [if_pos h1]
    simp [h1]
  · rw [if_neg h1]
    by_cases h2 : a.it.key = b.it.key
    · rw [if_pos h2]
      simp [h1, h2, bLt_irrefl]
    · rw [if_neg h2]
      simp [h1, h2]

theorem hwLtb_false_le {a b : HW} (h : hwLtb a b = false) :
    hwLeb b a = true := by
  rw [hwLeb_iff]
  have hna : ¬ (bLt a.it.key b.it.key = true ∨
      (a.it.key = b.it.key ∧ a.idx < b.idx)) := by
    intro hc
    rw [← hwLtb_iff] at hc
    rw [h] at hc
    exact Bool.noConfusion hc
  push_neg at hna
  obtain ⟨hnlt, hni⟩ := hna
  by_cases heq : a.it.key = b.it.key
  · right
    exact ⟨heq.symm, hni heq⟩
  · left
    apply bLt_total
    cases hble : bLe a.it.key b.it.key with
    | false => rfl
    | true =>
      rcases bLe_iff_lt_or_eq.mp hble with h1 | h1
      · exact absurd h1 hnlt
      · exact absurd h1 heq

/-- Advancing a wrapper's iterator by one entry. -/
def advHW (w : HW) : HW := ⟨w.idx, ⟨w.it.entries, w.it.pos + 1, w.it.errOn⟩⟩

/-- The canonical wrapper of input `j` positioned at the first key
not below `k`. -/
def wrapC (ls : List (List (List Nat × List Nat))) (k : List Nat)
    (j : Nat) : HW :=
  ⟨j, ⟨ls.getD j [], countLt (entryKeys (ls.getD j [])) k, []⟩⟩

/-- The input indices whose canonical position at `k` is in range. -/
def liveIdx (ls : List (List (List Nat × List Nat))) (k : List Nat) :
    List Nat :=
  (List.range ls.length).filter
    (fun j => decide (countLt (entryKeys (ls.getD j [])) k
      < (ls.getD j []).length))

/-- The canonical heap contents at key `k` with current input `j0`. -/
def heapListAt (ls : List (List (List Nat × List Nat))) (k : List Nat)
    (j0 : Nat) : List HW :=
  ((liveIdx ls k).filter (fun j => decide (j ≠ j0))).map (wrapC ls k)

/-- The invariant tying a `MergeIterator` state to the canonical state at
key `k` with current input `j0`. -/
def INV (ls : List (List (List Nat × List Nat))) (k : List Nat) (j0 : Nat)
    (st : MergeIterator) : Prop :=
  j0 < ls.length ∧
  countLt (entryKeys (ls.getD j0 [])) k < (ls.getD j0 []).length ∧
  ((ls.getD j0 []).getD (countLt (entryKeys (ls.getD j0 [])) k)
    ([], [])).1 = k ∧
  st.current = some (wrapC ls k j0) ∧
  (∀ j2, j2 < j0 → k ∉ entryKeys (ls.getD j2 [])) ∧
  st.iters.Perm (heapListAt ls k j0)

theorem mIter_key_get (it : MIter) (hp : it.pos < it.entries.length) :
    it.key = (entryKeys it.entries).get
      ⟨it.pos, by rw [entryKeys_length]; exact hp⟩ := by
  rw [show it.key = (it.entries.getD it.pos ([], [])).1 from rfl,
    List.getD_eq_getElem it.entries ([], []) hp, entryKeys_get]
  rfl

theorem mIter_value_get (it : MIter) (hp : it.pos < it.entries.length) :
    it.value = (it.entries.get ⟨it.pos, hp⟩).2 := by
  rw [show it.value = (it.entries.getD it.pos ([], [])).2 from rfl,
    List.getD_eq_getElem it.entries ([], []) hp]
  rfl

theorem dedupLoop_ok_spec (c : HW) :
    ∀ (n : Nat) (P Q l : List HW), P.length ≤ n →
      l.Perm (P ++ Q) →
      (∀ w ∈ P, w.it.errOn = [] ∧ w.it.pos < w.it.entries.length ∧
        StrictSorted (entryKeys w.it.entries) ∧ w.it.key = c.it.key) →
      (∀ w ∈ Q, bLt c.it.key w.it.key = true) →
      ∃ l2, dedupLoop c l = Except.ok l2 ∧
        l2.Perm (((P.map advHW).filter (fun w => w.it.isValid)) ++ Q) := by
  intro n
  induction n with
  | zero =>
    intro P Q l hn hperm hP hQ
    have hPnil : P = [] := by
      cases P with
      | nil => rfl
      | cons x t => simp at hn
    subst hPnil
    cases hp : popMin l with
    | none =>
      exact ⟨l, dedupLoop_nil_eq c l hp, by simpa using hperm⟩
    | some p =>
      obtain ⟨w, rest⟩ := p
      have hwl : w ∈ l := (popMin_perm l w rest hp).subset
        (List.mem_cons_self _ _)
      have hwQ : w ∈ Q := by
        have h1 := hperm.subset hwl
        simpa using h1
      have hkne : ¬ w.it.key = c.it.key := by
        intro he
        have h2 := hQ w hwQ
        rw [he] at h2
        rw [bLt_irrefl] at h2
        exact Bool.noConfusion h2
      exact ⟨l, dedupLoop_break_eq c w l rest hp hkne, by simpa using hperm⟩
  | succ n ih =>
    intro P Q l hn hperm hP hQ
    cases hp : popMin l with
    | none =>
      have hl : l = [] := (popMin_none l).mp hp
      subst hl
      have hPQ : P ++ Q = [] := hperm.symm.eq_nil
      obtain ⟨hPnil, hQnil⟩ := List.append_eq_nil.mp hPQ
      subst hPnil
      subst hQnil
      exact ⟨[], dedupLoop_nil_eq c [] rfl, by simp⟩
    | some p =>
      obtain ⟨w, rest⟩ := p
      have hwl : w ∈ l := (popMin_perm l w rest hp).subset
        (List.mem_cons_self _ _)
      have hrest : rest.Perm ((P ++ Q).erase w) :=
        (List.cons_perm_iff_perm_erase.mp
          ((popMin_perm l w rest hp).trans hperm)).2
      rcases List.mem_append.mp (hperm.subset hwl) with hwP | hwQ
      · obtain ⟨herrOn, hpos, hsort, hkey⟩ := hP w hwP
        have hnext : w.it.next = Except.ok ⟨w.it.entries, w.it.pos + 1,
            w.it.errOn⟩ := by
          rw [MIter.next, if_neg (by rw [herrOn]; simp)]
        have hrest2 : rest.Perm (P.erase w ++ Q) := by
          rw [List.erase_append_left Q hwP] at hrest
          exact hrest
        have hlenP : (P.erase w).length ≤ n := by
          rw [List.length_erase_of_mem hwP]
          have h2 : 0 < P.length :=
            List.length_pos.mpr (List.ne_nil_of_mem hwP)
          omega
        have hPmap : (P.map advHW).Perm (advHW w :: (P.erase w).map advHW)
            := by
          have h2 := (List.perm_cons_erase hwP).map advHW
          simpa using h2
        by_cases hv : (⟨w.it.entries, w.it.pos + 1, w.it.errOn⟩ :
            MIter).isValid = false
        · obtain ⟨l2, hdl, hl2⟩ := ih (P.erase w) Q rest hlenP hrest2
            (fun x hx => hP x (List.erase_subset _ _ hx)) hQ
          refine ⟨l2, ?_, ?_⟩
          · rw [dedupLoop_pop_eq c w l rest _ hp hkey hnext hv]
            exact hdl
          · have hfil := hPmap.filter (fun w => w.it.isValid)
            rw [show List.filter (fun w => w.it.isValid)
                  (advHW w :: (P.erase w).map advHW)
                = List.filter (fun w => w.it.isValid)
                  ((P.erase w).map advHW) from
              List.filter_cons_of_neg (by
                show ¬ ((advHW w).it.isValid = true)
                rw [show (advHW w).it = ⟨w.it.entries, w.it.pos + 1,
                  w.it.errOn⟩ from rfl, hv]
                simp)] at hfil
            exact hl2.trans (List.Perm.append_right Q hfil.symm)
        · have hvpos : w.it.pos + 1 < w.it.entries.length := by
            cases hvb : (⟨w.it.entries, w.it.pos + 1, w.it.errOn⟩ :
                MIter).isValid with
            | false => exact absurd hvb hv
            | true =>
              rw [MIter.isValid] at hvb
              simp only [decide_eq_true_eq] at hvb
              exact hvb
          have hkadv : bLt c.it.key (advHW w).it.key = true := by
            have hlt := strictSorted_get_lt (entryKeys w.it.entries) hsort
              w.it.pos (w.it.pos + 1)
              (by rw [entryKeys_length]; omega)
              (by rw [entryKeys_length]; exact hvpos)
              (by omega)
            rw [← mIter_key_get w.it (by omega)] at hlt
            rw [show (advHW w).it.key = (entryKeys w.it.entries).get
                ⟨w.it.pos + 1, by rw [entryKeys_length]; exact hvpos⟩ from
              mIter_key_get (advHW w).it hvpos]
            rw [← hkey]
            exact hlt
          have hQ2 : ∀ x ∈ Q ++ [advHW w], bLt c.it.key x.it.key = true :=
            by
            intro x hx
            rcases List.mem_append.mp hx with hx1 | hx1
            · exact hQ x hx1
            · simp only [List.mem_singleton] at hx1
              subst hx1
              exact hkadv
          have hperm2 : ((⟨w.idx, ⟨w.it.entries, w.it.pos + 1,
              w.it.errOn⟩⟩ : HW) :: rest).Perm
              (P.erase w ++ (Q ++ [advHW w])) := by
            have h2 : ((advHW w) :: rest).Perm
                ((advHW w) :: (P.erase w ++ Q)) := hrest2.cons _
            have h3 : ((advHW w) :: (P.erase w ++ Q)).Perm
                ((P.erase w ++ Q) ++ [advHW w]) :=
              (List.perm_append_singleton _ _).symm
            have h4 : (P.erase w ++ Q) ++ [advHW w]
                = P.erase w ++ (Q ++ [advHW w]) := List.append_assoc _ _ _
            exact (h2.trans (h4 ▸ h3))
          obtain ⟨l2, hdl, hl2⟩ := ih (P.erase w) (Q ++ [advHW w]) _
            hlenP hperm2
            (fun x hx => hP x (List.erase_subset _ _ hx)) hQ2
          refine ⟨l2, ?_, ?_⟩
          · rw [dedupLoop_adv_eq c w l rest _ hp hkey hnext hv]
            exact hdl
          · have hfil := hPmap.filter (fun w => w.it.isValid)
            rw [show List.filter (fun w => w.it.isValid)
                  (advHW w :: (P.erase w).map advHW)
                = advHW w :: List.filter (fun w => w.it.isValid)
                  ((P.erase w).map advHW) from
              List.filter_cons_of_pos (by
                show (advHW w).it.isValid = true
                cases hvb : (advHW w).it.isValid with
                | true => rfl
                | false => exact absurd hvb (by
                    rw [show (advHW w).it = ⟨w.it.entries, w.it.pos + 1,
                      w.it.errOn⟩ from rfl]
                    exact hv))] at hfil
            refine hl2.trans ?_
            have h5 : ((P.erase w).map advHW).filter
                  (fun w => w.it.isValid) ++ (Q ++ [advHW w])
                = (((P.erase w).map advHW).filter
                  (fun w => w.it.isValid) ++ Q) ++ [advHW w] :=
              (List.append_assoc _ _ _).symm
            rw [h5]
            refine (List.perm_append_singleton _ _).trans ?_
            rw [show advHW w :: (((P.erase w).map advHW).filter
                  (fun w => w.it.isValid) ++ Q)
              = (advHW w :: ((P.erase w).map advHW).filter
                  (fun w => w.it.isValid)) ++ Q from rfl]
            exact hfil.symm.append_right Q
      · have hkne : ¬ w.it.key = c.it.key := by
          intro he
          have h2 := hQ w hwQ
          rw [he] at h2
          rw [bLt_irrefl] at h2
          exact Bool.noConfusion h2
        have hPnil : P = [] := by
          cases P with
          | nil => rfl
          | cons p0 t =>
            exfalso
            have hp0 := hP p0 (List.mem_cons_self _ _)
            have hp0l : p0 ∈ l := hperm.symm.subset
              (List.mem_append.mpr (Or.inl (List.mem_cons_self _ _)))
            have hmin := popMin_min l w rest hp p0 hp0l
            have hble := hwLeb_key_le hmin
            rw [hp0.2.2.2] at hble
            have h3 := bLt_of_bLt_of_bLe (hQ w hwQ) hble
            rw [bLt_irrefl] at h3
            exact Bool.noConfusion h3
        subst hPnil
        exact ⟨l, dedupLoop_break_eq c w l rest hp hkne,
          by simpa using hperm⟩

theorem filter_map_comm {α β : Type} (f : α → β) (p : β → Bool)
    (l : List α) :
    (l.map f).filter p = (l.filter (fun x => p (f x))).map f := by
  induction l with
  | nil => rfl
  | cons x t ih =>
    rw [List.map_cons]
    by_cases h : p (f x) = true
    · rw [List.filter_cons_of_pos h,
        show List.filter (fun x => p (f x)) (x :: t)
          = x :: List.filter (fun x => p (f x)) t from
          List.filter_cons_of_pos h,
        List.map_cons, ih]
    · rw [List.filter_cons_of_neg (by simp [h]),
        show List.filter (fun x => p (f x)) (x :: t)
          = List.filter (fun x => p (f x)) t from
          List.filter_cons_of_neg (by simp [h]), ih]

theorem filter_map_split {α β : Type} (f : α → β) (pa : α → Bool)
    (l : List α) :
    ((l.filter pa).map f ++ (l.filter (fun x => !(pa x))).map f).Perm
      (l.map f) := by
  rw [← List.map_append]
  exact (l.filter_append_perm pa).map f

theorem filter_or_perm {α : Type} (A B : α → Bool) :
    ∀ (l : List α), (∀ j ∈ l, ¬(A j = true ∧ B j = true)) →
      (l.filter A ++ l.filter B).Perm
        (l.filter (fun j => A j || B j)) := by
  intro l
  induction l with
  | nil => intro _; simp
  | cons x t ih =>
    intro hd
    have hdt : ∀ j ∈ t, ¬(A j = true ∧ B j = true) :=
      fun j hj => hd j (List.mem_cons_of_mem _ hj)
    by_cases hA : A x = true
    · have hB : ¬ B x = true := fun hb =>
        hd x (List.mem_cons_self _ _) ⟨hA, hb⟩
      rw [List.filter_cons_of_pos hA,
        List.filter_cons_of_neg (by simpa using hB),
        List.filter_cons_of_pos (by rw [hA]; rfl)]
      exact (ih hdt).cons x
    · by_cases hB : B x = true
      · rw [List.filter_cons_of_neg (by simpa using hA),
          List.filter_cons_of_pos hB,
          List.filter_cons_of_pos (by
            cases hA2 : A x with
            | true => exact absurd hA2 hA
            | false => rw [hB]; rfl)]
        refine List.perm_middle.trans ?_
        exact (ih hdt).cons x
      · rw [List.filter_cons_of_neg (by simpa using hA),
          List.filter_cons_of_neg (by simpa using hB),
          List.filter_cons_of_neg (by
            cases hA2 : A x with
            | true => exact absurd hA2 hA
            | false =>
              cases hB2 : B x with
              | true => exact absurd hB2 hB
              | false => simp)]
        exact ih hdt

theorem map_extract_perm {α : Type} (f : Nat → α) (l : List Nat)
    (hnd : l.Nodup) (j : Nat) (hj : j ∈ l) :
    (l.map f).Perm (f j :: (l.filter (fun x => x != j)).map f) := by
  have h1 : l.Perm (j :: l.erase j) := List.perm_cons_erase hj
  have h2 : l.erase j = l.filter (fun x => x != j) :=
    hnd.erase_eq_filter j
  have h3 := h1.map f
  rw [List.map_cons, h2] at h3
  exact h3

theorem bne_eq_decide_ne (x j : Nat) : (x != j) = decide (x ≠ j) := by
  by_cases h : x = j
  · subst h
    simp
  · simp [h]

/-- The canonical wrapper of input `j` positioned at the first key
above `k`. -/
def wrapC2 (ls : List (List (List Nat × List Nat))) (k : List Nat)
    (j : Nat) : HW :=
  ⟨j, ⟨ls.getD j [], countLe (entryKeys (ls.getD j [])) k, []⟩⟩

theorem heapListAt_eq (ls : List (List (List Nat × List Nat)))
    (k : List Nat) (j0 : Nat) :
    heapListAt ls k j0
      = ((List.range ls.length).filter
          (fun j => decide (j ≠ j0) &&
            decide (countLt (entryKeys (ls.getD j [])) k
              < (ls.getD j []).length))).map (wrapC ls k) := by
  rw [heapListAt, liveIdx, List.filter_filter]

theorem getD_mem_sorted (ls : List (List (List Nat × List Nat)))
    (hsorted : ∀ g ∈ ls, StrictSorted (entryKeys g)) (j : Nat)
    (hj : j < ls.length) :
    StrictSorted (entryKeys (ls.getD j [])) := by
  rw [List.getD_eq_getElem ls [] hj]
  exact hsorted _ (List.getElem_mem hj)

theorem dedup_at_inv (ls : List (List (List Nat × List Nat)))
    (hsorted : ∀ g ∈ ls, StrictSorted (entryKeys g))
    (k : List Nat) (j0 : Nat) (hj0 : j0 < ls.length)
    (hkey0 : ((ls.getD j0 []).getD
      (countLt (entryKeys (ls.getD j0 [])) k) ([], [])).1 = k)
    (hp0 : countLt (entryKeys (ls.getD j0 [])) k < (ls.getD j0 []).length)
    (iters : List HW)
    (hperm : iters.Perm (heapListAt ls k j0)) :
    ∃ hp, dedupLoop (wrapC ls k j0) iters = Except.ok hp ∧
      hp.Perm (((List.range ls.length).filter
          (fun j => decide (j ≠ j0) &&
            decide (countLe (entryKeys (ls.getD j [])) k
              < (ls.getD j []).length))).map (wrapC2 ls k)) := by
  have hckey : (wrapC ls k j0).it.key = k := hkey0
  set L := (List.range ls.length).filter
      (fun j => decide (j ≠ j0) &&
        decide (countLt (entryKeys (ls.getD j [])) k
          < (ls.getD j []).length)) with hL
  have hLmem : ∀ j ∈ L, j < ls.length ∧ j ≠ j0 ∧
      countLt (entryKeys (ls.getD j [])) k < (ls.getD j []).length := by
    intro j hj
    rw [hL] at hj
    obtain ⟨hjr, hjp⟩ := List.mem_filter.mp hj
    simp only [Bool.and_eq_true, decide_eq_true_eq] at hjp
    exact ⟨List.mem_range.mp hjr, hjp.1, hjp.2⟩
  set pm := fun j => decide (k ∈ entryKeys (ls.getD j [])) with hpm
  have hPQ : iters.Perm ((L.filter pm).map (wrapC ls k)
      ++ (L.filter (fun j => !(pm j))).map (wrapC ls k)) := by
    refine hperm.trans ?_
    rw [heapListAt_eq, ← hL]
    exact (filter_map_split (wrapC ls k) pm L).symm
  have hPcond : ∀ w ∈ (L.filter pm).map (wrapC ls k),
      w.it.errOn = [] ∧ w.it.pos < w.it.entries.length ∧
      StrictSorted (entryKeys w.it.entries) ∧
      w.it.key = (wrapC ls k j0).it.key := by
    intro w hw
    obtain ⟨j, hjmem, hwj⟩ := List.mem_map.mp hw
    obtain ⟨hjL, hjpm⟩ := List.mem_filter.mp hjmem
    obtain ⟨hjn, hjne, hjlive⟩ := hLmem j hjL
    have hmem : k ∈ entryKeys (ls.getD j []) := by
      rw [hpm] at hjpm
      exact of_decide_eq_true hjpm
    obtain ⟨hplt, hkeq, hcle⟩ := mem_key_at_countLt
      (entryKeys (ls.getD j [])) k (getD_mem_sorted ls hsorted j hjn)
      hmem
    subst hwj
    refine ⟨rfl, ?_, ?_, ?_⟩
    · exact hjlive
    · exact getD_mem_sorted ls hsorted j hjn
    · rw [mIter_key_get (wrapC ls k j).it hjlive, hckey]
      exact hkeq
  have hQcond : ∀ w ∈ (L.filter (fun j => !(pm j))).map (wrapC ls k),
      bLt (wrapC ls k j0).it.key w.it.key = true := by
    intro w hw
    obtain ⟨j, hjmem, hwj⟩ := List.mem_map.mp hw
    obtain ⟨hjL, hjpm⟩ := List.mem_filter.mp hjmem
    obtain ⟨hjn, hjne, hjlive⟩ := hLmem j hjL
    have hnmem : ¬ k ∈ entryKeys (ls.getD j []) := by
      rw [hpm] at hjpm
      simp only [Bool.not_eq_true'] at hjpm
      exact of_decide_eq_false hjpm
    subst hwj
    rw [hckey, mIter_key_get (wrapC ls k j).it hjlive]
    have hge := countLt_pos_key_ge (entryKeys (ls.getD j [])) k
      (getD_mem_sorted ls hsorted j hjn)
      (by rw [entryKeys_length]; exact hjlive)
    rcases bLe_iff_lt_or_eq.mp hge with h1 | h1
    · exact h1
    · exfalso
      apply hnmem
      rw [h1]
      exact List.get_mem _ _ _
  obtain ⟨l2, hdl, hl2⟩ := dedupLoop_ok_spec (wrapC ls k j0)
    ((L.filter pm).map (wrapC ls k)).length
    ((L.filter pm).map (wrapC ls k))
    ((L.filter (fun j => !(pm j))).map (wrapC ls k))
    iters (le_refl _) hPQ hPcond hQcond
  refine ⟨l2, hdl, ?_⟩
  refine hl2.trans ?_
  -- normalize the advanced P-part
  have hPadv : (((L.filter pm).map (wrapC ls k)).map advHW).filter
        (fun w => w.it.isValid)
      = (((L.filter pm).filter (fun j =>
          decide (countLe (entryKeys (ls.getD j [])) k
            < (ls.getD j []).length))).map (wrapC2 ls k)) := by
    rw [List.map_map]
    rw [filter_map_comm]
    have hfc : (L.filter pm).filter
          (fun j => (advHW ∘ wrapC ls k) j |>.it.isValid)
        = (L.filter pm).filter (fun j =>
          decide (countLe (entryKeys (ls.getD j [])) k
            < (ls.getD j []).length)) := by
      apply List.filter_congr
      intro j hjmem
      obtain ⟨hjL, hjpm⟩ := List.mem_filter.mp hjmem
      obtain ⟨hjn, hjne, hjlive⟩ := hLmem j hjL
      have hmem : k ∈ entryKeys (ls.getD j []) := by
        rw [hpm] at hjpm
        exact of_decide_eq_true hjpm
      obtain ⟨hplt, hkeq, hcle⟩ := mem_key_at_countLt
        (entryKeys (ls.getD j [])) k (getD_mem_sorted ls hsorted j hjn)
        hmem
      show MIter.isValid ⟨(ls.getD j []),
          countLt (entryKeys (ls.getD j [])) k + 1, []⟩ = _
      rw [MIter.isValid]
      dsimp only
      rw [← hcle]
    rw [hfc]
    apply List.map_congr_left
    intro j hjmem
    obtain ⟨hjmem2, hjle⟩ := List.mem_filter.mp hjmem
    obtain ⟨hjL, hjpm⟩ := List.mem_filter.mp hjmem2
    obtain ⟨hjn, hjne, hjlive⟩ := hLmem j hjL
    have hmem : k ∈ entryKeys (ls.getD j []) := by
      rw [hpm] at hjpm
      exact of_decide_eq_true hjpm
    obtain ⟨hplt, hkeq, hcle⟩ := mem_key_at_countLt
      (entryKeys (ls.getD j [])) k (getD_mem_sorted ls hsorted j hjn)
      hmem
    show (⟨j, ⟨(ls.getD j []),
        countLt (entryKeys (ls.getD j [])) k + 1, []⟩⟩ : HW)
      = wrapC2 ls k j
    rw [wrapC2, ← hcle]
  rw [hPadv]
  -- normalize the untouched Q-part
  have hQmap : (L.filter (fun j => !(pm j))).map (wrapC ls k)
      = (L.filter (fun j => !(pm j))).map (wrapC2 ls k) := by
    apply List.map_congr_left
    intro j hjmem
    obtain ⟨hjL, hjpm⟩ := List.mem_filter.mp hjmem
    obtain ⟨hjn, hjne, hjlive⟩ := hLmem j hjL
    have hnmem : ¬ k ∈ entryKeys (ls.getD j []) := by
      rw [hpm] at hjpm
      simp only [Bool.not_eq_true'] at hjpm
      exact of_decide_eq_false hjpm
    rw [wrapC, wrapC2, countLe_eq_countLt_of_not_mem
      (fun x hx he => hnmem (by rw [← he]; exact hx))]
  rw [hQmap]
  -- merge the two filters over L
  rw [List.filter_filter]
  rw [← List.map_append]
  have hdisj : ∀ j ∈ L,
      ¬(((decide (countLe (entryKeys (ls.getD j [])) k
          < (ls.getD j []).length) && pm j) = true) ∧
        ((!(pm j)) = true)) := by
    intro j _ hcontra
    obtain ⟨h1, h2⟩ := hcontra
    simp only [Bool.and_eq_true] at h1
    rw [h1.2] at h2
    exact Bool.noConfusion h2
  refine (List.Perm.map (wrapC2 ls k)
    (filter_or_perm _ _ L hdisj)).trans ?_
  have heq2 : L.filter (fun j =>
        (decide (countLe (entryKeys (ls.getD j [])) k
          < (ls.getD j []).length) && pm j) || !(pm j))
      = (List.range ls.length).filter
          (fun j => decide (j ≠ j0) &&
            decide (countLe (entryKeys (ls.getD j [])) k
              < (ls.getD j []).length)) := by
    rw [hL, List.filter_filter]
    apply List.filter_congr
    intro j hjr
    by_cases hpmj : k ∈ entryKeys (ls.getD j [])
    · have hA : pm j = true := by
        rw [hpm]
        exact decide_eq_true hpmj
      rw [hA]
      by_cases hvle : countLe (entryKeys (ls.getD j [])) k
          < (ls.getD j []).length
      · have hlt : countLt (entryKeys (ls.getD j [])) k
            < (ls.getD j []).length := by
          have h2 := countLt_le_countLe (entryKeys (ls.getD j [])) k
          omega
        rw [decide_eq_true hvle, decide_eq_true hlt]
        simp
      · rw [decide_eq_false hvle]
        simp
    · have hB : pm j = false := by
        rw [hpm]
        exact decide_eq_false hpmj
      have hc : countLe (entryKeys (ls.getD j [])) k
          = countLt (entryKeys (ls.getD j [])) k :=
        countLe_eq_countLt_of_not_mem
          (fun x hx he => hpmj (by rw [← he]; exact hx))
      rw [hc, hB]
      cases hli : decide (countLt (entryKeys (ls.getD j [])) k
          < (ls.getD j []).length) <;> simp
  rw [heq2]

theorem reestablish_inv (ls : List (List (List Nat × List Nat)))
    (hsorted : ∀ g ∈ ls, StrictSorted (entryKeys g))
    (k : List Nat) (j1 : Nat) (hn1 : j1 < ls.length)
    (hlive1 : countLe (entryKeys (ls.getD j1 [])) k
      < (ls.getD j1 []).length)
    (hmin : ∀ j, j < ls.length →
      countLe (entryKeys (ls.getD j [])) k < (ls.getD j []).length →
      hwLeb (wrapC2 ls k j1) (wrapC2 ls k j) = true) :
    ∃ k2, bLt k k2 = true ∧
      (wrapC2 ls k j1).it.key = k2 ∧
      (∀ j, j < ls.length → countLt (entryKeys (ls.getD j [])) k2
        = countLe (entryKeys (ls.getD j [])) k) ∧
      (∀ j, j < ls.length → wrapC ls k2 j = wrapC2 ls k j) ∧
      countLt (entryKeys (ls.getD j1 [])) k2 < (ls.getD j1 []).length ∧
      ((ls.getD j1 []).getD (countLt (entryKeys (ls.getD j1 [])) k2)
        ([], [])).1 = k2 ∧
      (∀ j2, j2 < j1 → k2 ∉ entryKeys (ls.getD j2 [])) ∧
      heapListAt ls k2 j1
        = ((List.range ls.length).filter
            (fun j => decide (j ≠ j1) &&
              decide (countLe (entryKeys (ls.getD j [])) k
                < (ls.getD j []).length))).map (wrapC2 ls k) := by
  have hlive1k : countLe (entryKeys (ls.getD j1 [])) k
      < (entryKeys (ls.getD j1 [])).length := by
    rw [entryKeys_length]
    exact hlive1
  set k2 := (entryKeys (ls.getD j1 [])).get
    ⟨countLe (entryKeys (ls.getD j1 [])) k, hlive1k⟩ with hk2
  have hkeyw : (wrapC2 ls k j1).it.key = k2 :=
    mIter_key_get (wrapC2 ls k j1).it hlive1
  have hkgt : bLt k k2 = true := by
    rw [hk2]
    exact key_gt_at_ge_countLe (entryKeys (ls.getD j1 [])) k
      (getD_mem_sorted ls hsorted j1 hn1)
      (countLe (entryKeys (ls.getD j1 [])) k) hlive1k (le_refl _)
  have hpos : ∀ j, j < ls.length →
      countLt (entryKeys (ls.getD j [])) k2
        = countLe (entryKeys (ls.getD j [])) k := by
    intro j hj
    apply countLt_next_eq_countLe (entryKeys (ls.getD j [])) k k2
      (getD_mem_sorted ls hsorted j hj) hkgt
    intro hjle
    have hjle2 : countLe (entryKeys (ls.getD j [])) k
        < (ls.getD j []).length := by
      rw [entryKeys_length] at hjle
      exact hjle
    have h1 := hwLeb_key_le (hmin j hj hjle2)
    rw [hkeyw] at h1
    rw [mIter_key_get (wrapC2 ls k j).it hjle2] at h1
    exact h1
  have hwr : ∀ j, j < ls.length → wrapC ls k2 j = wrapC2 ls k j := by
    intro j hj
    rw [wrapC, wrapC2, hpos j hj]
  have hlt1 : countLt (entryKeys (ls.getD j1 [])) k2
      < (ls.getD j1 []).length := by
    rw [hpos j1 hn1]
    exact hlive1
  have hat1 : ((ls.getD j1 []).getD
      (countLt (entryKeys (ls.getD j1 [])) k2) ([], [])).1 = k2 := by
    have h1 : ((ls.getD j1 []).getD
        (countLt (entryKeys (ls.getD j1 [])) k2) ([], [])).1
        = (wrapC2 ls k j1).it.key := by
      rw [show (wrapC2 ls k j1).it.key
          = ((ls.getD j1 []).getD
            (countLe (entryKeys (ls.getD j1 [])) k) ([], [])).1 from rfl,
        hpos j1 hn1]
    rw [h1, hkeyw]
  have hleast : ∀ j2, j2 < j1 → k2 ∉ entryKeys (ls.getD j2 []) := by
    intro j2 hj2 hmem
    have hj2n : j2 < ls.length := Nat.lt_trans hj2 hn1
    obtain ⟨hplt, hkeq, hcle⟩ := mem_key_at_countLt
      (entryKeys (ls.getD j2 [])) k2
      (getD_mem_sorted ls hsorted j2 hj2n) hmem
    have hlive2 : countLe (entryKeys (ls.getD j2 [])) k
        < (ls.getD j2 []).length := by
      have h2 : countLt (entryKeys (ls.getD j2 [])) k2
          < (ls.getD j2 []).length := by
        rw [entryKeys_length] at hplt
        exact hplt
      rw [hpos j2 hj2n] at h2
      exact h2
    have h3 := hmin j2 hj2n hlive2
    have h4 : countLe (entryKeys (ls.getD j2 [])) k
        = countLt (entryKeys (ls.getD j2 [])) k2 :=
      (hpos j2 hj2n).symm
    have hkey2 : (wrapC2 ls k j2).it.key = k2 := by
      rw [mIter_key_get (wrapC2 ls k j2).it hlive2]
      show (entryKeys (ls.getD j2 [])).get
          ⟨countLe (entryKeys (ls.getD j2 [])) k,
            by rw [entryKeys_length]; exact hlive2⟩ = k2
      simp only [h4]
      exact hkeq
    rcases (hwLeb_iff _ _).mp h3 with h5 | ⟨h5, h5i⟩
    · rw [hkeyw, hkey2] at h5
      rw [bLt_irrefl] at h5
      exact Bool.noConfusion h5
    · have h6 : (wrapC2 ls k j1).idx = j1 := rfl
      have h7 : (wrapC2 ls k j2).idx = j2 := rfl
      rw [h6, h7] at h5i
      omega
  have hheap : heapListAt ls k2 j1
      = ((List.range ls.length).filter
          (fun j => decide (j ≠ j1) &&
            decide (countLe (entryKeys (ls.getD j [])) k
              < (ls.getD j []).length))).map (wrapC2 ls k) := by
    rw [heapListAt_eq]
    have hfc : (List.range ls.length).filter
          (fun j => decide (j ≠ j1) &&
            decide (countLt (entryKeys (ls.getD j [])) k2
              < (ls.getD j []).length))
        = (List.range ls.length).filter
          (fun j => decide (j ≠ j1) &&
            decide (countLe (entryKeys (ls.getD j [])) k
              < (ls.getD j []).length)) := by
      apply List.filter_congr
      intro j hjr
      rw [hpos j (List.mem_range.mp hjr)]
    rw [hfc]
    apply List.map_congr_left
    intro j hjmem
    obtain ⟨hjr, -⟩ := List.mem_filter.mp hjmem
    exact hwr j (List.mem_range.mp hjr)
  exact ⟨k2, hkgt, hkeyw, hpos, hwr, hlt1, hat1, hleast, hheap⟩

theorem hwLeb_of_hwLtb {a b : HW} (h : hwLtb a b = true) :
    hwLeb a b = true := by
  rw [hwLeb_iff]
  rcases (hwLtb_iff a b).mp h with h1 | ⟨h1, h2⟩
  · exact Or.inl h1
  · exact Or.inr ⟨h1, le_of_lt h2⟩

theorem filter_swap_ne (n j0 j1 : Nat) (v : Nat → Bool)
    (hdead : v j0 = false) :
    (((List.range n).filter (fun j => decide (j ≠ j0) && v j)).filter
      (fun j => j != j1))
    = (List.range n).filter (fun j => decide (j ≠ j1) && v j) := by
  rw [List.filter_filter]
  apply List.filter_congr
  intro j _
  rw [bne_eq_decide_ne]
  by_cases h0 : j = j0
  · subst h0
    rw [hdead]
    simp
  · rw [decide_eq_true (show j ≠ j0 from h0)]
    simp

theorem filter_comm_ne (n j0 j1 : Nat) (v : Nat → Bool) :
    (((List.range n).filter (fun j => decide (j ≠ j0) && v j)).filter
      (fun j => j != j1))
    = (((List.range n).filter (fun j => decide (j ≠ j1) && v j)).filter
      (fun j => j != j0)) := by
  rw [List.filter_filter, List.filter_filter]
  apply List.filter_congr
  intro j _
  rw [bne_eq_decide_ne, bne_eq_decide_ne]
  cases hd0 : decide (j ≠ j0) <;> cases hd1 : decide (j ≠ j1)
    <;> cases hv : v j <;> simp [hd0, hd1, hv]

theorem heap_erase_perm (M : List Nat) (hnd : M.Nodup) (f : Nat → HW)
    (hp : List HW) (hA : hp.Perm (M.map f)) (w : HW) (rest2 : List HW)
    (hpop : popMin hp = some (w, rest2)) (j1 : Nat) (hj1 : j1 ∈ M)
    (hw : w = f j1) :
    rest2.Perm ((M.filter (fun x => x != j1)).map f) := by
  have h1 : (w :: rest2).Perm hp := popMin_perm hp w rest2 hpop
  have h2 : rest2.Perm (hp.erase w) :=
    (List.cons_perm_iff_perm_erase.mp h1).2
  have h3 : (hp.erase w).Perm ((M.map f).erase w) := hA.erase w
  subst hw
  have h4 := (map_extract_perm f M hnd j1 hj1).erase (f j1)
  rw [List.erase_cons_head] at h4
  exact h2.trans (h3.trans h4)

theorem mergeStep (ls : List (List (List Nat × List Nat)))
    (hsorted : ∀ g ∈ ls, StrictSorted (entryKeys g))
    (k : List Nat) (j0 : Nat) (st : MergeIterator)
    (hinv : INV ls k j0 st) :
    st.isValid = true ∧
    st.keyOf = k ∧
    (st.keyOf, st.valueOf) = (ls.getD j0 []).getD
      (countLt (entryKeys (ls.getD j0 [])) k) ([], []) ∧
    ∃ st2, mergeNext st = some (NextRes.ok st2) ∧
      ((st2.isValid = false ∧
        (∀ j, j < ls.length →
          (ls.getD j []).length ≤ countLe (entryKeys (ls.getD j [])) k))
       ∨ (∃ k2 j1, bLt k k2 = true ∧ INV ls k2 j1 st2 ∧
          (∀ j, j < ls.length → countLt (entryKeys (ls.getD j [])) k2
            = countLe (entryKeys (ls.getD j [])) k))) := by
  obtain ⟨hj0, hp0, hkey0, hcur, hleast0, hheap⟩ := hinv
  have hvalid : st.isValid = true := by
    rw [MergeIterator.isValid, hcur]
    exact decide_eq_true hp0
  have hkeyOf : st.keyOf = k := by
    rw [MergeIterator.keyOf, hcur]
    exact hkey0
  have hvalOf : (st.keyOf, st.valueOf)
      = (ls.getD j0 []).getD (countLt (entryKeys (ls.getD j0 [])) k)
        ([], []) := by
    rw [MergeIterator.keyOf, MergeIterator.valueOf, hcur]
    rfl
  refine ⟨hvalid, hkeyOf, hvalOf, ?_⟩
  obtain ⟨hp, hdl, hA⟩ := dedup_at_inv ls hsorted k j0 hj0 hkey0 hp0
    st.iters hheap
  set M := (List.range ls.length).filter
      (fun j => decide (j ≠ j0) &&
        decide (countLe (entryKeys (ls.getD j [])) k
          < (ls.getD j []).length)) with hM
  have hMnd : M.Nodup := (List.nodup_range ls.length).filter _
  have hMmem : ∀ j ∈ M, j < ls.length ∧ j ≠ j0 ∧
      countLe (entryKeys (ls.getD j [])) k < (ls.getD j []).length := by
    intro j hj
    rw [hM] at hj
    obtain ⟨hjr, hjp⟩ := List.mem_filter.mp hj
    simp only [Bool.and_eq_true, decide_eq_true_eq] at hjp
    exact ⟨List.mem_range.mp hjr, hjp.1, hjp.2⟩
  have hMmem2 : ∀ j, j < ls.length → j ≠ j0 →
      countLe (entryKeys (ls.getD j [])) k < (ls.getD j []).length →
      j ∈ M := by
    intro j hj hne hle
    rw [hM]
    refine List.mem_filter.mpr ⟨List.mem_range.mpr hj, ?_⟩
    simp only [Bool.and_eq_true, decide_eq_true_eq]
    exact ⟨hne, hle⟩
  have hkk : (entryKeys (ls.getD j0 [])).get
      ⟨countLt (entryKeys (ls.getD j0 [])) k,
        by rw [entryKeys_length]; exact hp0⟩ = k := by
    rw [entryKeys_get]
    rw [show (ls.getD j0 []).get
          ⟨countLt (entryKeys (ls.getD j0 [])) k, hp0⟩
        = (ls.getD j0 []).getD (countLt (entryKeys (ls.getD j0 [])) k)
          ([], []) from
      (List.getD_eq_getElem (ls.getD j0 []) ([], []) hp0).symm]
    exact hkey0
  have hmem0 : k ∈ entryKeys (ls.getD j0 []) := by
    rw [← hkk]
    exact List.get_mem _ _ _
  obtain ⟨-, -, hcle0⟩ := mem_key_at_countLt (entryKeys (ls.getD j0 []))
    k (getD_mem_sorted ls hsorted j0 hj0) hmem0
  have hcnext : (wrapC ls k j0).it.next
      = Except.ok (wrapC2 ls k j0).it := by
    rw [show (wrapC ls k j0).it
        = ⟨ls.getD j0 [], countLt (entryKeys (ls.getD j0 [])) k, []⟩
        from rfl]
    rw [mIter_next_noerr _ _ _ (by simp)]
    rw [show (wrapC2 ls k j0).it
        = ⟨ls.getD j0 [], countLe (entryKeys (ls.getD j0 [])) k, []⟩
        from rfl]
    rw [hcle0]
  by_cases hB : countLe (entryKeys (ls.getD j0 [])) k
      < (ls.getD j0 []).length
  · -- the advanced current stays valid
    have hv2 : (wrapC2 ls k j0).it.isValid = true := decide_eq_true hB
    cases hpop : popMin hp with
    | none =>
      -- empty heap: the advanced current remains current
      have hmnext : mergeNext st
          = some (NextRes.ok ⟨hp, some (wrapC2 ls k j0)⟩) := by
        rw [mergeNext, hcur]
        dsimp only
        rw [hdl]
        dsimp only
        rw [hcnext]
        dsimp only
        rw [hv2]
        rw [if_neg (by simp)]
        rw [hpop]
        rfl
      have hmin : ∀ j, j < ls.length →
          countLe (entryKeys (ls.getD j [])) k < (ls.getD j []).length →
          hwLeb (wrapC2 ls k j0) (wrapC2 ls k j) = true := by
        intro j hj hle
        by_cases hne : j = j0
        · subst hne
          exact hwLeb_refl _
        · exfalso
          have hjm := hMmem2 j hj hne hle
          have hpnil : hp = [] := (popMin_none hp).mp hpop
          rw [hpnil] at hA
          have hMm : M.map (wrapC2 ls k) = [] := hA.symm.eq_nil
          rw [List.map_eq_nil_iff] at hMm
          rw [hMm] at hjm
          cases hjm
      obtain ⟨k2, hkgt, hkeyw, hpos, hwr, hlt1, hat1, hleast, hheap2⟩ :=
        reestablish_inv ls hsorted k j0 hj0 hB hmin
      refine ⟨⟨hp, some (wrapC2 ls k j0)⟩, hmnext, Or.inr
        ⟨k2, j0, hkgt, ⟨hj0, hlt1, hat1, ?_, hleast, ?_⟩, hpos⟩⟩
      · show some (wrapC2 ls k j0) = some (wrapC ls k2 j0)
        rw [hwr j0 hj0]
      · show hp.Perm (heapListAt ls k2 j0)
        rw [hheap2]
        exact hA
    | some p =>
      obtain ⟨w, rest2⟩ := p
      have hwhp : w ∈ hp := (popMin_perm hp w rest2 hpop).subset
        (List.mem_cons_self _ _)
      obtain ⟨j1, hj1M, hwj1⟩ := List.mem_map.mp (hA.subset hwhp)
      obtain ⟨hj1n, hj1ne, hj1le⟩ := hMmem j1 hj1M
      by_cases hsw : hwLtb w (wrapC2 ls k j0) = true
      · -- swap: the heap's minimum becomes current
        have hmnext : mergeNext st = some (NextRes.ok
            ⟨wrapC2 ls k j0 :: rest2, some w⟩) := by
          rw [mergeNext, hcur]
          dsimp only
          rw [hdl]
          dsimp only
          rw [hcnext]
          dsimp only
          rw [hv2]
          rw [if_neg (by simp)]
          rw [hpop]
          dsimp only
          rw [show (⟨(wrapC ls k j0).idx, (wrapC2 ls k j0).it⟩ : HW)
              = wrapC2 ls k j0 from rfl]
          rw [hsw]
          rw [if_pos rfl]
        have hmin : ∀ j, j < ls.length →
            countLe (entryKeys (ls.getD j [])) k
              < (ls.getD j []).length →
            hwLeb (wrapC2 ls k j1) (wrapC2 ls k j) = true := by
          intro j hj hle
          rw [hwj1]
          by_cases hne : j = j0
          · subst hne
            exact hwLeb_of_hwLtb hsw
          · exact popMin_min hp w rest2 hpop _
              (hA.symm.subset (List.mem_map.mpr
                ⟨j, hMmem2 j hj hne hle, rfl⟩))
        obtain ⟨k2, hkgt, hkeyw, hpos, hwr, hlt1, hat1, hleast, hheap2⟩ :=
          reestablish_inv ls hsorted k j1 hj1n hj1le hmin
        refine ⟨⟨wrapC2 ls k j0 :: rest2, some w⟩, hmnext, Or.inr
          ⟨k2, j1, hkgt, ⟨hj1n, hlt1, hat1, ?_, hleast, ?_⟩, hpos⟩⟩
        · show some w = some (wrapC ls k2 j1)
          rw [hwr j1 hj1n, hwj1]
        · show (wrapC2 ls k j0 :: rest2).Perm (heapListAt ls k2 j1)
          rw [hheap2]
          have hr2 := heap_erase_perm M hMnd (wrapC2 ls k) hp hA w rest2
            hpop j1 hj1M hwj1.symm
          have hx : j0 ∈ (List.range ls.length).filter
              (fun j => decide (j ≠ j1) &&
                decide (countLe (entryKeys (ls.getD j [])) k
                  < (ls.getD j []).length)) := by
            refine List.mem_filter.mpr ⟨List.mem_range.mpr hj0, ?_⟩
            simp only [Bool.and_eq_true, decide_eq_true_eq]
            exact ⟨fun he => hj1ne he.symm, hB⟩
          have hext := map_extract_perm (wrapC2 ls k) _
            ((List.nodup_range ls.length).filter _) j0 hx
          refine ?_
          refine (List.Perm.cons (wrapC2 ls k j0) ?_).trans hext.symm
          refine hr2.trans ?_
          rw [hM, filter_comm_ne]
      · -- no swap: the advanced current stays current
        have hmnext : mergeNext st
            = some (NextRes.ok ⟨hp, some (wrapC2 ls k j0)⟩) := by
          rw [mergeNext, hcur]
          dsimp only
          rw [hdl]
          dsimp only
          rw [hcnext]
          dsimp only
          rw [hv2]
          rw [if_neg (by simp)]
          rw [hpop]
          dsimp only
          rw [show (⟨(wrapC ls k j0).idx, (wrapC2 ls k j0).it⟩ : HW)
              = wrapC2 ls k j0 from rfl]
          rw [if_neg (by
            intro hc
            exact hsw hc)]
        have hcmin : hwLeb (wrapC2 ls k j0) w = true :=
          hwLtb_false_le (by
            cases hc : hwLtb w (wrapC2 ls k j0) with
            | false => rfl
            | true => exact absurd hc hsw)
        have hmin : ∀ j, j < ls.length →
            countLe (entryKeys (ls.getD j [])) k
              < (ls.getD j []).length →
            hwLeb (wrapC2 ls k j0) (wrapC2 ls k j) = true := by
          intro j hj hle
          by_cases hne : j = j0
          · subst hne
            exact hwLeb_refl _
          · exact hwLeb_trans hcmin (popMin_min hp w rest2 hpop _
              (hA.symm.subset (List.mem_map.mpr
                ⟨j, hMmem2 j hj hne hle, rfl⟩)))
        obtain ⟨k2, hkgt, hkeyw, hpos, hwr, hlt1, hat1, hleast, hheap2⟩ :=
          reestablish_inv ls hsorted k j0 hj0 hB hmin
        refine ⟨⟨hp, some (wrapC2 ls k j0)⟩, hmnext, Or.inr
          ⟨k2, j0, hkgt, ⟨hj0, hlt1, hat1, ?_, hleast, ?_⟩, hpos⟩⟩
        · show some (wrapC2 ls k j0) = some (wrapC ls k2 j0)
          rw [hwr j0 hj0]
        · show hp.Perm (heapListAt ls k2 j0)
          rw [hheap2]
          exact hA
  · -- the advanced current goes invalid
    have hv2 : (wrapC2 ls k j0).it.isValid = false := decide_eq_false hB
    cases hpop : popMin hp with
    | none =>
      -- heap also empty: everything exhausted
      have hmnext : mergeNext st
          = some (NextRes.ok ⟨hp, some (wrapC2 ls k j0)⟩) := by
        rw [mergeNext, hcur]
        dsimp only
        rw [hdl]
        dsimp only
        rw [hcnext]
        dsimp only
        rw [hv2]
        rw [if_pos rfl]
        rw [hpop]
        rfl
      have hpnil : hp = [] := (popMin_none hp).mp hpop
      have hMnil : M = [] := by
        rw [hpnil] at hA
        have hMm : M.map (wrapC2 ls k) = [] := hA.symm.eq_nil
        rw [List.map_eq_nil_iff] at hMm
        exact hMm
      refine ⟨⟨hp, some (wrapC2 ls k j0)⟩, hmnext, Or.inl ⟨?_, ?_⟩⟩
      · rw [MergeIterator.isValid]
        exact hv2
      · intro j hj
        by_cases hne : j = j0
        · subst hne
          omega
        · by_cases hle : countLe (entryKeys (ls.getD j [])) k
              < (ls.getD j []).length
          · exfalso
            have := hMmem2 j hj hne hle
            rw [hMnil] at this
            cases this
          · omega
    | some p =>
      obtain ⟨w, rest2⟩ := p
      have hmnext : mergeNext st = some (NextRes.ok ⟨rest2, some w⟩) := by
        rw [mergeNext, hcur]
        dsimp only
        rw [hdl]
        dsimp only
        rw [hcnext]
        dsimp only
        rw [hv2]
        rw [if_pos rfl]
        rw [hpop]
      have hwhp : w ∈ hp := (popMin_perm hp w rest2 hpop).subset
        (List.mem_cons_self _ _)
      obtain ⟨j1, hj1M, hwj1⟩ := List.mem_map.mp (hA.subset hwhp)
      obtain ⟨hj1n, hj1ne, hj1le⟩ := hMmem j1 hj1M
      have hmin : ∀ j, j < ls.length →
          countLe (entryKeys (ls.getD j [])) k < (ls.getD j []).length →
          hwLeb (wrapC2 ls k j1) (wrapC2 ls k j) = true := by
        intro j hj hle
        rw [hwj1]
        by_cases hne : j = j0
        · subst hne
          exact absurd hle hB
        · exact popMin_min hp w rest2 hpop _
            (hA.symm.subset (List.mem_map.mpr
              ⟨j, hMmem2 j hj hne hle, rfl⟩))
      obtain ⟨k2, hkgt, hkeyw, hpos, hwr, hlt1, hat1, hleast, hheap2⟩ :=
        reestablish_inv ls hsorted k j1 hj1n hj1le hmin
      refine ⟨⟨rest2, some w⟩, hmnext, Or.inr
        ⟨k2, j1, hkgt, ⟨hj1n, hlt1, hat1, ?_, hleast, ?_⟩, hpos⟩⟩
      · show some w = some (wrapC ls k2 j1)
        rw [hwr j1 hj1n, hwj1]
      · show rest2.Perm (heapListAt ls k2 j1)
        rw [hheap2]
        have hr2 := heap_erase_perm M hMnd (wrapC2 ls k) hp hA w rest2
          hpop j1 hj1M hwj1.symm
        refine hr2.trans ?_
        rw [hM, filter_swap_ne _ _ _ _ (by
          exact decide_eq_false hB)]

theorem mergeDrive_invalid (fuel : Nat) (st : MergeIterator)
    (h : st.isValid = false) : mergeDrive fuel st = [] := by
  cases fuel with
  | zero => rfl
  | succ f => rw [mergeDrive, if_neg (by simp [h])]

def measureAt (ls : List (List (List Nat × List Nat))) (k : List Nat) :
    Nat :=
  ((List.range ls.length).map
    (fun j => (ls.getD j []).length
      - countLt (entryKeys (ls.getD j [])) k)).sum

theorem measure_decreases (ls : List (List (List Nat × List Nat)))
    (k k2 : List Nat) (j0 : Nat) (hj0 : j0 < ls.length)
    (hpos : ∀ j, j < ls.length → countLt (entryKeys (ls.getD j [])) k2
      = countLe (entryKeys (ls.getD j [])) k)
    (hc0 : countLe (entryKeys (ls.getD j0 [])) k
      = countLt (entryKeys (ls.getD j0 [])) k + 1)
    (hp0 : countLt (entryKeys (ls.getD j0 [])) k
      < (ls.getD j0 []).length) :
    measureAt ls k2 < measureAt ls k := by
  rw [measureAt, measureAt]
  apply List.sum_lt_sum
  · intro j hj
    have hjn := List.mem_range.mp hj
    rw [hpos j hjn]
    have h2 := countLt_le_countLe (entryKeys (ls.getD j [])) k
    omega
  · refine ⟨j0, List.mem_range.mpr hj0, ?_⟩
    rw [hpos j0 hj0, hc0]
    omega

theorem measure_le_total (ls : List (List (List Nat × List Nat)))
    (k : List Nat) :
    measureAt ls k ≤ (ls.map List.length).sum := by
  rw [measureAt]
  have h1 : (List.range ls.length).map
        (fun j => (ls.getD j []).length) = ls.map List.length := by
    apply List.ext_getElem
    · simp
    · intro i h1 h2
      simp only [List.getElem_map, List.getElem_range]
      rw [List.getD_eq_getElem ls [] (by simpa using h2)]
  rw [← h1]
  apply List.sum_le_sum
  intro j _
  omega

theorem create_fold (l : List (Nat × MIter))
    (hall : ∀ p ∈ l, p.2.isValid = true) :
    ∀ acc : List HW × Option HW,
      l.foldl (fun acc p =>
        if p.2.isValid = true then (acc.1 ++ [⟨p.1, p.2⟩], acc.2)
        else if acc.1.isEmpty then (acc.1, some ⟨0, p.2⟩)
        else acc) acc
      = (acc.1 ++ l.map (fun p => ⟨p.1, p.2⟩), acc.2) := by
  induction l with
  | nil =>
    intro acc
    simp
  | cons p t ih =>
    intro acc
    rw [List.foldl_cons, if_pos (hall p (List.mem_cons_self _ _))]
    rw [ih (fun q hq => hall q (List.mem_cons_of_mem _ hq))
      (acc.1 ++ [(⟨p.1, p.2⟩ : HW)], acc.2)]
    simp

theorem enum_map_eq (ls : List (List (List Nat × List Nat))) :
    ((ls.map (fun g => (⟨g, 0, []⟩ : MIter))).enum.map
      (fun p => (⟨p.1, p.2⟩ : HW)))
    = (List.range ls.length).map
        (fun j => (⟨j, ⟨ls.getD j [], 0, []⟩⟩ : HW)) := by
  apply List.ext_getElem
  · simp
  · intro i h1 h2
    simp only [List.getElem_map, List.getElem_enum, List.getElem_range]
    have hi : i < ls.length := by simpa using h2
    rw [List.getD_eq_getElem ls [] hi]

theorem getD_zero_headD (g : List (List Nat × List Nat)) :
    g.getD 0 ([], []) = g.headD ([], []) := by
  cases g with
  | nil => rfl
  | cons x t => rfl

theorem mergeCreate_inv (ls : List (List (List Nat × List Nat)))
    (hne : ∀ g ∈ ls, g ≠ [])
    (hsorted : ∀ g ∈ ls, StrictSorted (entryKeys g))
    (hlen : 0 < ls.length) :
    ∃ k0 j0, INV ls k0 j0
      (mergeCreate (ls.map (fun g => ⟨g, 0, []⟩))) := by
  have hgne : ∀ j, j < ls.length → (ls.getD j []) ≠ [] := by
    intro j hj
    rw [List.getD_eq_getElem ls [] hj]
    exact hne _ (List.getElem_mem hj)
  have hall : ∀ p ∈ (ls.map (fun g => (⟨g, 0, []⟩ : MIter))).enum,
      p.2.isValid = true := by
    intro p hp
    rw [List.enum_eq_zip_range] at hp
    have hp2 := (List.of_mem_zip hp).2
    obtain ⟨g, hg, hgp⟩ := List.mem_map.mp hp2
    rw [← hgp]
    apply decide_eq_true
    show 0 < g.length
    exact List.length_pos.mpr (hne g hg)
  set H0 := (List.range ls.length).map
    (fun j => (⟨j, ⟨ls.getD j [], 0, []⟩⟩ : HW)) with hH0
  have hfold : mergeCreate (ls.map (fun g => ⟨g, 0, []⟩))
      = (match popMin H0 with
        | some (w, rest) => ⟨rest, some w⟩
        | none => ⟨H0, none⟩) := by
    rw [mergeCreate]
    rw [create_fold _ hall ([], none)]
    rw [show ([] : List HW)
        ++ ((ls.map (fun g => (⟨g, 0, []⟩ : MIter))).enum.map
          (fun p => (⟨p.1, p.2⟩ : HW)))
      = ((ls.map (fun g => (⟨g, 0, []⟩ : MIter))).enum.map
          (fun p => (⟨p.1, p.2⟩ : HW))) from List.nil_append _]
    rw [enum_map_eq]
  cases hpop : popMin H0 with
  | none =>
    exfalso
    have hnil : H0 = [] := (popMin_none H0).mp hpop
    rw [hH0] at hnil
    have := List.map_eq_nil_iff.mp hnil
    rw [List.range_eq_nil] at this
    omega
  | some p =>
    obtain ⟨w, rest⟩ := p
    have hmc : mergeCreate (ls.map (fun g => ⟨g, 0, []⟩))
        = ⟨rest, some w⟩ := by
      rw [hfold, hpop]
    have hwH0 : w ∈ H0 := (popMin_perm H0 w rest hpop).subset
      (List.mem_cons_self _ _)
    obtain ⟨j0, hj0r, hwj0⟩ := List.mem_map.mp (hH0 ▸ hwH0)
    have hj0 : j0 < ls.length := List.mem_range.mp hj0r
    set k0 := w.it.key with hk0
    have hkey0' : (⟨ls.getD j0 [], 0, []⟩ : MIter).key = k0 := by
      rw [hk0, ← hwj0]
    have hcnt0 : ∀ j, j < ls.length →
        countLt (entryKeys (ls.getD j [])) k0 = 0 := by
      intro j hj
      rw [countLt]
      apply List.countP_eq_zero.mpr
      intro x hx
      obtain ⟨e, he, hex⟩ := List.mem_map.mp hx
      have hmin := popMin_min H0 w rest hpop
        ⟨j, ⟨ls.getD j [], 0, []⟩⟩ (by
          rw [hH0]
          exact List.mem_map.mpr ⟨j, List.mem_range.mpr hj, rfl⟩)
      have hble := hwLeb_key_le hmin
      have hheadx : bLe ((ls.getD j []).headD ([], [])).1 x = true := by
        rw [← hex]
        exact head_key_le_of_mem
          ((strictSorted_entryKeys_iff _).mp
            (getD_mem_sorted ls hsorted j hj)) he
      have hkh : (⟨j, ⟨ls.getD j [], 0, []⟩⟩ : HW).it.key
          = ((ls.getD j []).headD ([], [])).1 := by
        show ((ls.getD j []).getD 0 ([], [])).1 = _
        rw [getD_zero_headD]
      rw [hkh] at hble
      have hlex : bLe k0 x = true := bLe_trans hble hheadx
      simp only [Bool.not_eq_true]
      cases hlt : bLt x k0 with
      | false => rfl
      | true =>
        exfalso
        have h3 := bLt_of_bLt_of_bLe hlt hlex
        rw [bLt_irrefl] at h3
        exact Bool.noConfusion h3
    have hwrap : ∀ j, j < ls.length →
        wrapC ls k0 j = ⟨j, ⟨ls.getD j [], 0, []⟩⟩ := by
      intro j hj
      rw [wrapC, hcnt0 j hj]
    refine ⟨k0, j0, hj0, ?_, ?_, ?_, ?_, ?_⟩
    · rw [hcnt0 j0 hj0]
      exact List.length_pos.mpr (hgne j0 hj0)
    · rw [hcnt0 j0 hj0]
      rw [show ((ls.getD j0 []).getD 0 ([], [])).1
          = (⟨ls.getD j0 [], 0, []⟩ : MIter).key from rfl]
      exact hkey0'
    · rw [hmc]
      show some w = some (wrapC ls k0 j0)
      rw [hwrap j0 hj0, hwj0]
    · intro j2 hj2 hmem
      have hj2n : j2 < ls.length := Nat.lt_trans hj2 hj0
      obtain ⟨hplt, hkeq, -⟩ := mem_key_at_countLt
        (entryKeys (ls.getD j2 [])) k0
        (getD_mem_sorted ls hsorted j2 hj2n) hmem
      have hkey2 : (⟨j2, ⟨ls.getD j2 [], 0, []⟩⟩ : HW).it.key = k0 := by
        rw [show (⟨j2, ⟨ls.getD j2 [], 0, []⟩⟩ : HW).it
            = ⟨ls.getD j2 [], 0, []⟩ from rfl]
        rw [mIter_key_get ⟨ls.getD j2 [], 0, []⟩
          (List.length_pos.mpr (hgne j2 hj2n))]
        have h0 : countLt (entryKeys (ls.getD j2 [])) k0 = 0 :=
          hcnt0 j2 hj2n
        show (entryKeys (ls.getD j2 [])).get ⟨0, by
          rw [entryKeys_length]
          exact List.length_pos.mpr (hgne j2 hj2n)⟩ = k0
        simp only [h0] at hkeq
        exact hkeq
      have hmin := popMin_min H0 w rest hpop
        ⟨j2, ⟨ls.getD j2 [], 0, []⟩⟩ (by
          rw [hH0]
          exact List.mem_map.mpr ⟨j2, List.mem_range.mpr hj2n, rfl⟩)
      rcases (hwLeb_iff _ _).mp hmin with h5 | ⟨h5, h5i⟩
      · rw [← hk0, hkey2] at h5
        rw [bLt_irrefl] at h5
        exact Bool.noConfusion h5
      · have h6 : w.idx = j0 := by rw [← hwj0]
        have h7 : (⟨j2, ⟨ls.getD j2 [], 0, []⟩⟩ : HW).idx = j2 := rfl
        rw [h6, h7] at h5i
        omega
    · rw [hmc]
      show rest.Perm (heapListAt ls k0 j0)
      have hr := heap_erase_perm (List.range ls.length)
        (List.nodup_range ls.length)
        (fun j => (⟨j, ⟨ls.getD j [], 0, []⟩⟩ : HW)) H0
        (by rw [hH0]) w rest hpop j0 hj0r (by rw [← hwj0])
      refine hr.trans ?_
      rw [heapListAt_eq]
      have h1 : (List.range ls.length).filter
            (fun j => decide (j ≠ j0) &&
              decide (countLt (entryKeys (ls.getD j [])) k0
                < (ls.getD j []).length))
          = (List.range ls.length).filter (fun x => x != j0) := by
        apply List.filter_congr
        intro j hjr
        have hj := List.mem_range.mp hjr
        rw [bne_eq_decide_ne]
        rw [decide_eq_true (show countLt (entryKeys (ls.getD j [])) k0
            < (ls.getD j []).length from by
          rw [hcnt0 j hj]
          exact List.length_pos.mpr (hgne j hj))]
        rw [Bool.and_true]
      rw [h1]
      have h2 : ((List.range ls.length).filter
            (fun x => x != j0)).map (wrapC ls k0)
          = ((List.range ls.length).filter (fun x => x != j0)).map
            (fun j => (⟨j, ⟨ls.getD j [], 0, []⟩⟩ : HW)) := by
        apply List.map_congr_left
        intro j hjmem
        obtain ⟨hjr, -⟩ := List.mem_filter.mp hjmem
        exact hwrap j (List.mem_range.mp hjr)
      rw [h2]

theorem mergeDrive_inv (ls : List (List (List Nat × List Nat)))
    (hsorted : ∀ g ∈ ls, StrictSorted (entryKeys g)) :
    ∀ (fuel : Nat) (k : List Nat) (j0 : Nat) (st : MergeIterator),
      INV ls k j0 st → measureAt ls k < fuel →
      StrictSorted ((mergeDrive fuel st).map Prod.fst) ∧
      (∀ e ∈ mergeDrive fuel st, bLe k e.1 = true) ∧
      (∀ e ∈ mergeDrive fuel st, ∃ j, j < ls.length ∧
        (ls.getD j []).find? (fun x => decide (x.1 = e.1)) = some e ∧
        ∀ j2, j2 < j → e.1 ∉ entryKeys (ls.getD j2 [])) := by
  intro fuel
  induction fuel with
  | zero => intro k j0 st hinv hm; omega
  | succ fuel ih =>
    intro k j0 st hinv hm
    obtain ⟨hj0, hp0, hkey0, hcur, hleast0, hheap⟩ := hinv
    obtain ⟨hvalid, hkeyOf, hvalOf, st2, hmnext, hcase⟩ :=
      mergeStep ls hsorted k j0 st
        ⟨hj0, hp0, hkey0, hcur, hleast0, hheap⟩
    have hdrive : mergeDrive (fuel + 1) st
        = (st.keyOf, st.valueOf) :: mergeDrive fuel st2 := by
      rw [mergeDrive, if_pos hvalid, hmnext]
    have he0mem : (st.keyOf, st.valueOf) ∈ ls.getD j0 [] := by
      rw [hvalOf, List.getD_eq_getElem (ls.getD j0 []) ([], []) hp0]
      exact List.getElem_mem hp0
    have he0prov : ∃ j, j < ls.length ∧
        (ls.getD j []).find?
          (fun x => decide (x.1 = (st.keyOf, st.valueOf).1)) =
          some (st.keyOf, st.valueOf) ∧
        ∀ j2, j2 < j →
          (st.keyOf, st.valueOf).1 ∉ entryKeys (ls.getD j2 []) := by
      refine ⟨j0, hj0, ?_, ?_⟩
      · have hf := sorted_find_entry st.keyOf st.valueOf
          (ls.getD j0 [])
          ((strictSorted_entryKeys_iff _).mp
            (getD_mem_sorted ls hsorted j0 hj0)) he0mem
        exact hf
      · intro j2 hj2
        show st.keyOf ∉ entryKeys (ls.getD j2 [])
        rw [hkeyOf]
        exact hleast0 j2 hj2
    rcases hcase with ⟨hst2inv, hdead⟩ | ⟨k2, j1, hk2, hinv2, hpos⟩
    · -- all inputs exhausted after this entry
      have hrest : mergeDrive fuel st2 = [] :=
        mergeDrive_invalid fuel st2 hst2inv
      rw [hdrive, hrest]
      refine ⟨?_, ?_, ?_⟩
      · rw [StrictSorted]
        simp
      · intro e he
        simp only [List.mem_singleton] at he
        subst he
        show bLe k (st.keyOf, st.valueOf).1 = true
        rw [show (st.keyOf, st.valueOf).1 = st.keyOf from rfl, hkeyOf]
        exact bLe_refl _
      · intro e he
        simp only [List.mem_singleton] at he
        subst he
        exact he0prov
    · -- more entries follow at the strictly larger key k2
      have hkk : (entryKeys (ls.getD j0 [])).get
          ⟨countLt (entryKeys (ls.getD j0 [])) k,
            by rw [entryKeys_length]; exact hp0⟩ = k := by
        rw [entryKeys_get]
        rw [show (ls.getD j0 []).get
              ⟨countLt (entryKeys (ls.getD j0 [])) k, hp0⟩
            = (ls.getD j0 []).getD
              (countLt (entryKeys (ls.getD j0 [])) k) ([], []) from
          (List.getD_eq_getElem (ls.getD j0 []) ([], []) hp0).symm]
        exact hkey0
      have hmem0 : k ∈ entryKeys (ls.getD j0 []) := by
        rw [← hkk]
        exact List.get_mem _ _ _
      obtain ⟨-, -, hcle0⟩ := mem_key_at_countLt
        (entryKeys (ls.getD j0 [])) k
        (getD_mem_sorted ls hsorted j0 hj0) hmem0
      have hm2 : measureAt ls k2 < fuel := by
        have hdec := measure_decreases ls k k2 j0 hj0 hpos hcle0 hp0
        omega
      obtain ⟨hsorted2, hlb2, hprov2⟩ := ih k2 j1 st2 hinv2 hm2
      rw [hdrive]
      refine ⟨?_, ?_, ?_⟩
      · rw [List.map_cons, StrictSorted, List.pairwise_cons]
        refine ⟨?_, hsorted2⟩
        intro y hy
        obtain ⟨x, hx, hxy⟩ := List.mem_map.mp hy
        rw [← hxy,
          show (st.keyOf, st.valueOf).1 = st.keyOf from rfl, hkeyOf]
        exact bLt_of_bLt_of_bLe hk2 (hlb2 x hx)
      · intro e he
        rcases List.mem_cons.mp he with he1 | he1
        · subst he1
          rw [show (st.keyOf, st.valueOf).1 = st.keyOf from rfl, hkeyOf]
          exact bLe_refl _
        · exact bLe_trans (bLe_of_bLt hk2) (hlb2 e he1)
      · intro e he
        rcases List.mem_cons.mp he with he1 | he1
        · subst he1
          exact he0prov
        · exact hprov2 e he1

/-- Claim C1: for every `MergeIterator` created over a vector of sorted
valid (non-empty) inputs and driven by repeated `next()` until invalid,
the emitted key sequence is sorted strictly increasing (so non-decreasing
with no key emitted twice), and each emitted entry is the entry its key
has in the input with the smallest index among those containing that key.
-/
theorem mergeIterator_correct
    (ls : List (List (List Nat × List Nat)))
    (hne : ∀ g ∈ ls, g ≠ [])
    (hsorted : ∀ g ∈ ls, StrictSorted (entryKeys g)) :
    StrictSorted ((mergeDrive ((ls.map List.length).sum + 1)
        (mergeCreate (ls.map (fun g => ⟨g, 0, []⟩)))).map Prod.fst) ∧
    ∀ e ∈ mergeDrive ((ls.map List.length).sum + 1)
        (mergeCreate (ls.map (fun g => ⟨g, 0, []⟩))),
      ∃ j, j < ls.length ∧
        (ls.getD j []).find? (fun x => decide (x.1 = e.1)) = some e ∧
        ∀ j2, j2 < j → e.1 ∉ entryKeys (ls.getD j2 []) := by
  by_cases hlen : 0 < ls.length
  · obtain ⟨k0, j0, hinv⟩ := mergeCreate_inv ls hne hsorted hlen
    have hmlt : measureAt ls k0 < (ls.map List.length).sum + 1 := by
      have h1 := measure_le_total ls k0
      omega
    obtain ⟨h1, h2, h3⟩ := mergeDrive_inv ls hsorted
      ((ls.map List.length).sum + 1) k0 j0 _ hinv hmlt
    exact ⟨h1, h3⟩
  · have hnil : ls = [] := by
      cases ls with
      | nil => rfl
      | cons g t => simp at hlen
    subst hnil
    have hmc : mergeCreate (([] : List (List (List Nat × List Nat))).map
        (fun g => (⟨g, 0, []⟩ : MIter))) = ⟨[], none⟩ := rfl
    rw [hmc, mergeDrive_invalid _ (⟨[], none⟩ : MergeIterator) rfl]
    refine ⟨by rw [StrictSorted]; simp, ?_⟩
    intro e he
    cases he

theorem mergeIterator_correct_witness :
    StrictSorted ((mergeDrive
        (((([[([97], [1]), ([98], [2])], [([98], [3]), ([99], [4])]] :
          List (List (List Nat × List Nat))).map List.length).sum) + 1)
        (mergeCreate
          (([[([97], [1]), ([98], [2])], [([98], [3]), ([99], [4])]] :
            List (List (List Nat × List Nat))).map
            (fun g => ⟨g, 0, []⟩)))).map Prod.fst) ∧
    ∀ e ∈ mergeDrive
        (((([[([97], [1]), ([98], [2])], [([98], [3]), ([99], [4])]] :
          List (List (List Nat × List Nat))).map List.length).sum) + 1)
        (mergeCreate
          (([[([97], [1]), ([98], [2])], [([98], [3]), ([99], [4])]] :
            List (List (List Nat × List Nat))).map
            (fun g => ⟨g, 0, []⟩))),
      ∃ j, j < ([[([97], [1]), ([98], [2])], [([98], [3]), ([99], [4])]] :
          List (List (List Nat × List Nat))).length ∧
        (([[([97], [1]), ([98], [2])], [([98], [3]), ([99], [4])]] :
          List (List (List Nat × List Nat))).getD j []).find?
          (fun x => decide (x.1 = e.1)) = some e ∧
        ∀ j2, j2 < j → e.1 ∉ entryKeys
          (([[([97], [1]), ([98], [2])], [([98], [3]), ([99], [4])]] :
            List (List (List Nat × List Nat))).getD j2 []) :=
  mergeIterator_correct
    [[([97], [1]), ([98], [2])], [([98], [3]), ([99], [4])]]
    (by decide)
    (by
      intro g hg
      rcases List.mem_cons.mp hg with rfl | hg2
      · rw [StrictSorted]
        decide
      · rcases List.mem_cons.mp hg2 with rfl | hg3
        · rw [StrictSorted]
          decide
        · cases hg3)
